import Mathlib

/-! Secure directory creation of snap-update-ns (`cmd/snap-update-ns/utils.go`).

A shallow embedding of `secureMkPrefix`, `secureMkDir` and `secureMkdirAll`.

The Go code reaches the kernel only through the mockable variables `sysOpen`,
`sysMkdirat`, `sysOpenat`, `sysFchown` and `sysClose`.  The embedding takes these
five primitives as a parameter (`Sys σ`, over an arbitrary environment state `σ`)
and threads a `World σ`: the environment together with the list of calls issued
so far, each with the result the environment gave.  Deferred calls
(`defer sysClose(fd)`) are kept on an explicit stack that is run, last deferred
first, on every return path of the function that deferred them.
-/

set_option autoImplicit false

namespace SnapUpdateNs

/-! ## Errors, flags and the syscall interface -/

/-- Value of a `syscall.Errno`. -/
abbrev Errno := Nat

/-- Constant `syscall.EEXIST` (linux). -/
def EEXIST : Errno := 17

/-- Constant `syscall.EROFS` (linux). -/
def EROFS : Errno := 30

/-- Constant `syscall.O_DIRECTORY` (linux/amd64). -/
def O_DIRECTORY : Nat := 0x10000

/-- Constant `syscall.O_NOFOLLOW` (linux/amd64). -/
def O_NOFOLLOW : Nat := 0x20000

/-- Constant `syscall.O_CLOEXEC` (linux/amd64). -/
def O_CLOEXEC : Nat := 0x80000

/-- The constant `openFlags` declared in both `secureMkPrefix` and `secureMkDir`:
`syscall.O_NOFOLLOW | syscall.O_CLOEXEC | syscall.O_DIRECTORY`. -/
def openFlags : Nat := O_NOFOLLOW ||| O_CLOEXEC ||| O_DIRECTORY

/-- Result `(fd int, err error)` of `sysOpen` / `sysOpenat`. -/
inductive FdResult where
  | ok (fd : Int)
  | err (e : Errno)
  deriving DecidableEq, Repr

/-- The errors the functions return.  `ReadOnlyFsError` is the Go type
`*ReadOnlyFsError`; every other constructor is a value built by `fmt.Errorf`
(the fields are the arguments of the format string, in order). -/
inductive Error where
  /-- Value `&ReadOnlyFsError{Path: p}`. -/
  | ReadOnlyFsError (Path : String)
  /-- Message `"cannot open root directory: %v"`. -/
  | cannotOpenRoot (err : Errno)
  /-- Message `"cannot mkdir path segment %q: %v"`. -/
  | cannotMkdir (segment : String) (err : Errno)
  /-- Message `"cannot open path segment %q (got up to %q): %v"`. -/
  | cannotOpen (segment : String) (gotUpTo : String) (err : Errno)
  /-- Message `"cannot chown path segment %q to %d.%d (got up to %q): %v"`. -/
  | cannotChown (segment : String) (uid gid : Int) (gotUpTo : String) (err : Errno)
  /-- Message `"cannot create directory with relative path: %q"`. -/
  | relativePath (name : String)
  /-- Run-time panic of `segments[i]` with `i` out of range. -/
  | indexOutOfRange
  /-- Message `"cannot inspect %q: %v"` of `ensureMountPoint`. -/
  | cannotInspect (path : String) (err : Errno)
  /-- Message `"cannot use %q for mounting, not a directory"` of `ensureMountPoint`. -/
  | notDirectory (path : String)
  deriving DecidableEq, Repr

/-- One call of a mockable primitive together with the result it returned.
`sysClose` is recorded without its result: the code never looks at it. -/
inductive Call where
  | sysOpen (path : String) (flags : Nat) (mode : Nat) (res : FdResult)
  | sysMkdirat (dirfd : Int) (path : String) (mode : Nat) (res : Option Errno)
  | sysOpenat (dirfd : Int) (path : String) (flags : Nat) (mode : Nat) (res : FdResult)
  | sysFchown (fd : Int) (uid gid : Int) (res : Option Errno)
  | sysClose (fd : Int)
  deriving DecidableEq, Repr

/-- The five mockable primitives (`var ( sysClose = syscall.Close ... )`) over an
environment state `σ`.  A result `none` of `sysMkdirat`, `sysFchown`, `sysClose`
is a nil error. -/
structure Sys (σ : Type) where
  sysOpen : σ → String → Nat → Nat → σ × FdResult
  sysMkdirat : σ → Int → String → Nat → σ × Option Errno
  sysOpenat : σ → Int → String → Nat → Nat → σ × FdResult
  sysFchown : σ → Int → Int → Int → σ × Option Errno
  sysClose : σ → Int → σ × Option Errno

/-- The environment and the calls issued so far, oldest first. -/
structure World (σ : Type) where
  env : σ
  trace : List Call

variable {σ : Type}

/-- Call `sysOpen(path, flags, mode)`. -/
def doOpen (sys : Sys σ) (w : World σ) (path : String) (flags mode : Nat) : World σ × FdResult :=
  let r := sys.sysOpen w.env path flags mode
  (⟨r.1, w.trace ++ [Call.sysOpen path flags mode r.2]⟩, r.2)

/-- Call `sysMkdirat(dirfd, path, mode)`. -/
def doMkdirat (sys : Sys σ) (w : World σ) (dirfd : Int) (path : String) (mode : Nat) :
    World σ × Option Errno :=
  let r := sys.sysMkdirat w.env dirfd path mode
  (⟨r.1, w.trace ++ [Call.sysMkdirat dirfd path mode r.2]⟩, r.2)

/-- Call `sysOpenat(dirfd, path, flags, mode)`. -/
def doOpenat (sys : Sys σ) (w : World σ) (dirfd : Int) (path : String) (flags mode : Nat) :
    World σ × FdResult :=
  let r := sys.sysOpenat w.env dirfd path flags mode
  (⟨r.1, w.trace ++ [Call.sysOpenat dirfd path flags mode r.2]⟩, r.2)

/-- Call `sysFchown(fd, uid, gid)`. -/
def doFchown (sys : Sys σ) (w : World σ) (fd uid gid : Int) : World σ × Option Errno :=
  let r := sys.sysFchown w.env fd uid gid
  (⟨r.1, w.trace ++ [Call.sysFchown fd uid gid r.2]⟩, r.2)

/-- Call `sysClose(fd)`; the result is discarded, as everywhere in the source. -/
def doClose (sys : Sys σ) (w : World σ) (fd : Int) : World σ :=
  ⟨(sys.sysClose w.env fd).1, w.trace ++ [Call.sysClose fd]⟩

/-- Run the deferred `sysClose` calls of a returning function; the head of the
list is the call deferred last, which Go runs first. -/
def runDefers (sys : Sys σ) (w : World σ) : List Int → World σ
  | [] => w
  | fd :: rest => runDefers sys (doClose sys w fd) rest

/-! ## The three functions -/

/-- The expression `"/" + strings.Join(segments[:i], "/")`. -/
def gotUpTo (segments : List String) (i : Nat) : String :=
  "/" ++ "/".intercalate (segments.take i)

/-- Function `secureMkDir(fd, segments, i, perm, uid, gid) (int, error)`.
`perm` is the value of the `os.FileMode`, a `uint32`, so `uint32(perm)` is `perm`. -/
def secureMkDir (sys : Sys σ) (w : World σ) (fd : Int) (segments : List String) (i : Nat)
    (perm : Nat) (uid gid : Int) : World σ × Int × Option Error :=
  match segments[i]? with
  | none => (w, -1, some Error.indexOutOfRange)
  | some segment =>
    -- made := true
    let r1 := doMkdirat sys w fd segment perm
    let continueWith (made : Bool) : World σ × Int × Option Error :=
      let r2 := doOpenat sys r1.1 fd segment openFlags 0
      match r2.2 with
      | FdResult.err e =>
        (r2.1, -1, some (Error.cannotOpen segment (gotUpTo segments i) e))
      | FdResult.ok newFd =>
        if made then
          let r3 := doFchown sys r2.1 newFd uid gid
          match r3.2 with
          | some e =>
            (doClose sys r3.1 newFd, -1,
              some (Error.cannotChown segment uid gid (gotUpTo segments i) e))
          | none => (r3.1, newFd, none)
        else (r2.1, newFd, none)
    match r1.2 with
    | none => continueWith true
    | some e =>
      if e = EEXIST then continueWith false
      else if e = EROFS then (r1.1, -1, some (Error.ReadOnlyFsError (gotUpTo segments i)))
      else (r1.1, -1, some (Error.cannotMkdir segment e))

/-- The loop `for i := range segments[:len(segments)-1]` of `secureMkPrefix`, with
`todo` iterations left, the next index `i`, the current `fd` and the stack of
deferred closes.  Leaving the loop returns `fd, nil`; both returns run the
deferred calls. -/
def secureMkPrefixLoop (sys : Sys σ) (segments : List String) (perm : Nat) (uid gid : Int) :
    Nat → Nat → World σ → Int → List Int → World σ × Int × Option Error
  | 0, _, w, fd, defers => (runDefers sys w defers, fd, none)
  | todo + 1, i, w, fd, defers =>
    match secureMkDir sys w fd segments i perm uid gid with
    | (w1, _, some err) => (runDefers sys w1 defers, -1, some err)
    | (w1, fd1, none) =>
      -- Keep the final FD open (caller needs to close it).
      let defers1 := if (i : Int) < (segments.length : Int) - 2 then fd1 :: defers else defers
      secureMkPrefixLoop sys segments perm uid gid todo (i + 1) w1 fd1 defers1

/-- Function `secureMkPrefix(segments, perm, uid, gid) (int, error)`. -/
def secureMkPrefix (sys : Sys σ) (w : World σ) (segments : List String) (perm : Nat)
    (uid gid : Int) : World σ × Int × Option Error :=
  let r := doOpen sys w "/" openFlags 0
  match r.2 with
  | FdResult.err e => (r.1, -1, some (Error.cannotOpenRoot e))
  | FdResult.ok fd =>
    let defers := if segments.length > 1 then [fd] else []
    if segments.length > 0 then
      secureMkPrefixLoop sys segments perm uid gid (segments.length - 1) 0 r.1 fd defers
    else (runDefers sys r.1 defers, fd, none)

/-- The body of `secureMkdirAll` after the segments have been computed. -/
def secureMkdirAllSegments (sys : Sys σ) (w : World σ) (segments : List String) (perm : Nat)
    (uid gid : Int) : World σ × Option Error :=
  match secureMkPrefix sys w segments perm uid gid with
  | (w1, _, some err) => (w1, some err)
  | (w1, fd, none) =>
    -- defer sysClose(fd)
    if segments.length > 0 then
      match secureMkDir sys w1 fd segments (segments.length - 1) perm uid gid with
      | (w2, _, some err) => (runDefers sys w2 [fd], some err)
      | (w2, fd2, none) => (runDefers sys w2 [fd2, fd], none)
    else (runDefers sys w1 [fd], none)

/-! ## Path handling of the Go standard library (unix) -/

/-- Function `filepath.IsAbs` on unix: `strings.HasPrefix(path, "/")`. -/
def isAbs (name : String) : Bool :=
  match name.data with
  | c :: _ => c == '/'
  | [] => false

/-- The backtracking of `filepath.Clean` at a `..` element, on the output buffer
held newest byte first: `out.w--` followed by
`for out.w > dotdot && !os.IsPathSeparator(out.index(out.w)) { out.w-- }`. -/
def cleanBacktrack : List Char → Nat → List Char
  | [], _ => []
  | c :: rest, dotdot =>
    if rest.length > dotdot && c != '/' then cleanBacktrack rest dotdot else rest

/-- The main loop `for r < n` of `filepath.Clean`.  The unread input is `path[r:]`,
the output buffer `out` is held newest byte first (`out.w` is its length).  Every
iteration consumes at least one byte, so `fuel = n` iterations always suffice. -/
def cleanLoop (rooted : Bool) : Nat → List Char → List Char → Nat → List Char
  | 0, _, out, _ => out
  | _ + 1, [], out, _ => out
  | fuel + 1, c :: rest, out, dotdot =>
    if c = '/' then
      -- empty path element
      cleanLoop rooted fuel rest out dotdot
    else if c = '.' ∧ (rest = [] ∨ rest.head? = some '/') then
      -- . element
      cleanLoop rooted fuel rest out dotdot
    else if c = '.' ∧ rest.head? = some '.' ∧ (rest.tail = [] ∨ rest.tail.head? = some '/') then
      -- .. element: remove to last separator
      if out.length > dotdot then
        cleanLoop rooted fuel rest.tail (cleanBacktrack out dotdot) dotdot
      else if !rooted then
        let out1 := if out.length > 0 then '/' :: out else out
        let out2 := '.' :: '.' :: out1
        cleanLoop rooted fuel rest.tail out2 out2.length
      else cleanLoop rooted fuel rest.tail out dotdot
    else
      -- real path element: add slash if needed, copy element
      let out1 :=
        if (rooted && out.length != 1) || (!rooted && out.length != 0) then '/' :: out else out
      let element := (c :: rest).takeWhile (fun x => x != '/')
      cleanLoop rooted fuel ((c :: rest).dropWhile (fun x => x != '/')) (element.reverse ++ out1)
        dotdot

/-- Function `filepath.Clean` on unix (no volume name, `FromSlash` is the identity). -/
def clean (path : List Char) : List Char :=
  match path with
  | [] => ['.']
  | c :: _ =>
    let rooted := c == '/'
    let out := cleanLoop rooted path.length (if rooted then path.tail else path)
      (if rooted then ['/'] else []) (if rooted then 1 else 0)
    -- Turn empty string into "."
    if out.length = 0 then ['.'] else out.reverse

/-- Function `strings.FieldsFunc`: the maximal runs of characters not satisfying `f`;
`cur` is the field being read, newest character first. -/
def fieldsFuncFrom (f : Char → Bool) : List Char → List Char → List (List Char)
  | [], cur => if cur = [] then [] else [cur.reverse]
  | c :: cs, cur =>
    if f c then
      if cur = [] then fieldsFuncFrom f cs [] else cur.reverse :: fieldsFuncFrom f cs []
    else fieldsFuncFrom f cs (c :: cur)

/-- Function `strings.FieldsFunc(s, f)`. -/
def fieldsFunc (s : List Char) (f : Char → Bool) : List (List Char) :=
  fieldsFuncFrom f s []

/-- The segments of `name`:
`strings.FieldsFunc(filepath.Clean(name), func(c rune) bool { return c == '/' })`. -/
def segmentsOf (name : String) : List String :=
  (fieldsFunc (clean name.data) (fun c => c == '/')).map String.mk

/-- Function `secureMkdirAll(name, perm, uid, gid) error`. -/
def secureMkdirAll (sys : Sys σ) (w : World σ) (name : String) (perm : Nat) (uid gid : Int) :
    World σ × Option Error :=
  -- Only support absolute paths to avoid bugs in snap-confine when
  -- called from anywhere.
  if !isAbs name then (w, some (Error.relativePath name))
  else secureMkdirAllSegments sys w (segmentsOf name) perm uid gid

/-! ## A scripted environment

The environment answers the calls from a script, one entry per call, in the
convention of a raw system call: a negative entry `-e` is the error `e`, any
other entry is the success value (the descriptor for `open`/`openat`).  An
exhausted script answers `0`. -/

/-- Decode a scripted answer of `sysOpen` / `sysOpenat`. -/
def scriptFd (x : Int) : FdResult :=
  if x < 0 then FdResult.err (-x).toNat else FdResult.ok x

/-- Decode a scripted answer of `sysMkdirat` / `sysFchown` / `sysClose`. -/
def scriptErr (x : Int) : Option Errno :=
  if x < 0 then some (-x).toNat else none

/-- The scripted environment. -/
def scriptSys : Sys (List Int) where
  sysOpen := fun s _ _ _ => (s.tail, scriptFd (s.headD 0))
  sysMkdirat := fun s _ _ _ => (s.tail, scriptErr (s.headD 0))
  sysOpenat := fun s _ _ _ _ => (s.tail, scriptFd (s.headD 0))
  sysFchown := fun s _ _ _ => (s.tail, scriptErr (s.headD 0))
  sysClose := fun s _ => (s, none)

/-- Calls issued by `secureMkdirAll` against the script `s`, and its result. -/
def runScript (s : List Int) (name : String) (perm : Nat) (uid gid : Int) :
    List Call × Option Error :=
  let r := secureMkdirAll scriptSys ⟨s, []⟩ name perm uid gid
  (r.1.trace, r.2)


/-! ## The call protocol

The order in which `secureMkdirAll` issues its calls, as a deterministic
automaton reading one recorded call at a time.  A state says which call comes
next; `ds` is the stack of handles with a pending deferred `sysClose`. -/

/-- What follows once a stack of deferred closes has been run. -/
inductive After where
  /-- The call of `secureMkdirAll` returns `r`. -/
  | finish (r : Option Error)
  /-- Function `secureMkPrefix` has returned `fd`; the last segment is created under it. -/
  | final (fd : Int)
  deriving DecidableEq, Repr

/-- Control states of a run of `secureMkdirAll` on an absolute path. -/
inductive St where
  /-- Next call: `sysOpen("/")`. -/
  | start
  /-- Next call: `sysMkdirat(fd, segments[i])`. -/
  | mk (i : Nat) (fd : Int) (ds : List Int)
  /-- Next call: `sysOpenat(fd, segments[i])`; `made` records whether mkdirat succeeded. -/
  | op (i : Nat) (fd : Int) (ds : List Int) (made : Bool)
  /-- Next call: `sysFchown(h)` for the freshly made segment `i`. -/
  | ch (i : Nat) (fd : Int) (ds : List Int) (h : Int)
  /-- Next call: `sysClose(d)`, then the closes of `ds`, then `k`. -/
  | unwind (d : Int) (ds : List Int) (k : After)
  /-- The call has returned `r`. -/
  | done (r : Option Error)
  deriving DecidableEq, Repr

/-- State in which the deferred closes `ds` are still to run, followed by `k`. -/
def unwindTo (segments : List String) : List Int → After → St
  | d :: ds, k => St.unwind d ds k
  | [], After.finish r => St.done r
  | [], After.final fd => St.mk (segments.length - 1) fd [fd]

/-- State after segment `i` has been created or found and opened as `h`. -/
def afterSegment (segments : List String) (i : Nat) (ds : List Int) (h : Int) : St :=
  if i + 1 = segments.length then unwindTo segments (h :: ds) (After.finish none)
  else if i + 2 < segments.length then St.mk (i + 1) h (h :: ds)
  else unwindTo segments ds (After.final h)

/-- The error of a failed `sysMkdirat` on segment `i`. -/
def mkdirError (segments : List String) (i : Nat) (segment : String) (e : Errno) : Error :=
  if e = EROFS then Error.ReadOnlyFsError (gotUpTo segments i) else Error.cannotMkdir segment e

/-- One transition: the state after the recorded call `c`, or `none` when `c` is
not the call the code issues in state `s`. -/
def step (segments : List String) (perm : Nat) (uid gid : Int) : St → Call → Option St
  | St.start, Call.sysOpen p fl m r =>
    if p = "/" ∧ fl = openFlags ∧ m = 0 then
      match r with
      | FdResult.err e => some (St.done (some (Error.cannotOpenRoot e)))
      | FdResult.ok fd =>
        some (if segments.length = 0 then St.unwind fd [] (After.finish none)
          else St.mk 0 fd [fd])
    else none
  | St.mk i fd ds, Call.sysMkdirat fd1 s m r =>
    if fd1 = fd ∧ segments[i]? = some s ∧ m = perm then
      match r with
      | none => some (St.op i fd ds true)
      | some e =>
        if e = EEXIST then some (St.op i fd ds false)
        else some (unwindTo segments ds (After.finish (some (mkdirError segments i s e))))
    else none
  | St.op i fd ds made, Call.sysOpenat fd1 s fl m r =>
    if fd1 = fd ∧ segments[i]? = some s ∧ fl = openFlags ∧ m = 0 then
      match r with
      | FdResult.err e =>
        some (unwindTo segments ds
          (After.finish (some (Error.cannotOpen s (gotUpTo segments i) e))))
      | FdResult.ok h => some (if made then St.ch i fd ds h else afterSegment segments i ds h)
    else none
  | St.ch i _ ds h, Call.sysFchown h1 u g r =>
    if h1 = h ∧ u = uid ∧ g = gid then
      match r with
      | some e =>
        match segments[i]? with
        | some s =>
          some (St.unwind h ds
            (After.finish (some (Error.cannotChown s uid gid (gotUpTo segments i) e))))
        | none => none
      | none => some (afterSegment segments i ds h)
    else none
  | St.unwind d ds k, Call.sysClose d1 =>
    if d1 = d then some (unwindTo segments ds k) else none
  | _, _ => none

/-- Run the automaton over a list of recorded calls. -/
def runMon (segments : List String) (perm : Nat) (uid gid : Int) : St → List Call → Option St
  | s, [] => some s
  | s, c :: cs =>
    match step segments perm uid gid s c with
    | none => none
    | some s1 => runMon segments perm uid gid s1 cs

/-! ## Observations on recorded calls -/

/-- The calls issued by `secureMkdirAll`: what the run appended to the record. -/
def callsOf (sys : Sys σ) (w : World σ) (name : String) (perm : Nat) (uid gid : Int) :
    List Call :=
  (secureMkdirAll sys w name perm uid gid).1.trace.drop w.trace.length

/-- The call is a `sysClose`. -/
def Call.isClose : Call → Bool
  | Call.sysClose _ => true
  | _ => false

/-- The call is a `sysMkdirat`. -/
def Call.isMkdirat : Call → Bool
  | Call.sysMkdirat _ _ _ _ => true
  | _ => false

/-- The call is a `sysOpenat`. -/
def Call.isOpenat : Call → Bool
  | Call.sysOpenat _ _ _ _ _ => true
  | _ => false

/-- The call is a `sysFchown`. -/
def Call.isFchown : Call → Bool
  | Call.sysFchown _ _ _ _ => true
  | _ => false

/-- The call did not break the run: it succeeded, or it is a `sysMkdirat` that
reported `EEXIST`, or it is a `sysClose` (whose result is ignored). -/
def Call.accepted : Call → Bool
  | Call.sysOpen _ _ _ (FdResult.ok _) => true
  | Call.sysOpen _ _ _ (FdResult.err _) => false
  | Call.sysMkdirat _ _ _ none => true
  | Call.sysMkdirat _ _ _ (some e) => e == EEXIST
  | Call.sysOpenat _ _ _ _ (FdResult.ok _) => true
  | Call.sysOpenat _ _ _ _ (FdResult.err _) => false
  | Call.sysFchown _ _ _ none => true
  | Call.sysFchown _ _ _ (some _) => false
  | Call.sysClose _ => true

/-- The handle a successful `sysOpen` / `sysOpenat` returned. -/
def Call.opened : Call → Option Int
  | Call.sysOpen _ _ _ (FdResult.ok fd) => some fd
  | Call.sysOpenat _ _ _ _ (FdResult.ok fd) => some fd
  | _ => none

/-- Name and result of a `sysOpen` / `sysOpenat` call. -/
def Call.openCall : Call → Option (String × FdResult)
  | Call.sysOpen p _ _ r => some (p, r)
  | Call.sysOpenat _ p _ _ r => some (p, r)
  | _ => none

/-- The flags of a `sysOpen` / `sysOpenat` call. -/
def Call.flags : Call → Option Nat
  | Call.sysOpen _ fl _ _ => some fl
  | Call.sysOpenat _ _ fl _ _ => some fl
  | _ => none

/-- Directory handle and name of a `sysMkdirat` / `sysOpenat` call. -/
def Call.relativeTo : Call → Option (Int × String)
  | Call.sysMkdirat fd p _ _ => some (fd, p)
  | Call.sysOpenat fd p _ _ _ => some (fd, p)
  | _ => none

/-- Arguments of a `sysFchown` call. -/
def Call.fchownArgs : Call → Option (Int × Int × Int)
  | Call.sysFchown fd uid gid _ => some (fd, uid, gid)
  | _ => none

/-- The ledger of open handles: starting with the handles `held`, every
successful open adds the returned handle and every `sysClose` removes one
occurrence of its argument.  The result is `none` as soon as a handle is closed
that is not held at that moment. -/
def ledger : List Int → List Call → Option (List Int)
  | held, [] => some held
  | held, Call.sysClose fd :: cs => if fd ∈ held then ledger (held.erase fd) cs else none
  | held, c :: cs =>
    match c.opened with
    | some h => ledger (h :: held) cs
    | none => ledger held cs

/-- The handles that are open in a state of the protocol. -/
def openOf : St → List Int
  | St.start => []
  | St.mk _ _ ds => ds
  | St.op _ _ ds _ => ds
  | St.ch _ _ ds h => h :: ds
  | St.unwind d ds (After.finish _) => d :: ds
  | St.unwind d ds (After.final fd) => fd :: d :: ds
  | St.done _ => []

/-- The transitions of `step`, one constructor per recorded call and outcome. -/
inductive Step (segments : List String) (perm : Nat) (uid gid : Int) : St → Call → St → Prop where
  | rootFailed (e : Errno) :
    Step segments perm uid gid St.start (Call.sysOpen "/" openFlags 0 (FdResult.err e))
      (St.done (some (Error.cannotOpenRoot e)))
  | rootOnly (fd : Int) (hn : segments.length = 0) :
    Step segments perm uid gid St.start (Call.sysOpen "/" openFlags 0 (FdResult.ok fd))
      (St.unwind fd [] (After.finish none))
  | rootOpened (fd : Int) (hn : segments.length ≠ 0) :
    Step segments perm uid gid St.start (Call.sysOpen "/" openFlags 0 (FdResult.ok fd))
      (St.mk 0 fd [fd])
  | mkdirMade (i : Nat) (fd : Int) (ds : List Int) (s : String) (hs : segments[i]? = some s) :
    Step segments perm uid gid (St.mk i fd ds) (Call.sysMkdirat fd s perm none)
      (St.op i fd ds true)
  | mkdirExists (i : Nat) (fd : Int) (ds : List Int) (s : String)
    (hs : segments[i]? = some s) :
    Step segments perm uid gid (St.mk i fd ds) (Call.sysMkdirat fd s perm (some EEXIST))
      (St.op i fd ds false)
  | mkdirFailed (i : Nat) (fd : Int) (ds : List Int) (s : String) (e : Errno)
    (hs : segments[i]? = some s) (he : e ≠ EEXIST) :
    Step segments perm uid gid (St.mk i fd ds) (Call.sysMkdirat fd s perm (some e))
      (unwindTo segments ds (After.finish (some (mkdirError segments i s e))))
  | openatFailed (i : Nat) (fd : Int) (ds : List Int) (made : Bool) (s : String) (e : Errno)
    (hs : segments[i]? = some s) :
    Step segments perm uid gid (St.op i fd ds made)
      (Call.sysOpenat fd s openFlags 0 (FdResult.err e))
      (unwindTo segments ds (After.finish (some (Error.cannotOpen s (gotUpTo segments i) e))))
  | openatMade (i : Nat) (fd : Int) (ds : List Int) (s : String) (h : Int)
    (hs : segments[i]? = some s) :
    Step segments perm uid gid (St.op i fd ds true)
      (Call.sysOpenat fd s openFlags 0 (FdResult.ok h)) (St.ch i fd ds h)
  | openatExisting (i : Nat) (fd : Int) (ds : List Int) (s : String) (h : Int)
    (hs : segments[i]? = some s) :
    Step segments perm uid gid (St.op i fd ds false)
      (Call.sysOpenat fd s openFlags 0 (FdResult.ok h)) (afterSegment segments i ds h)
  | fchownFailed (i : Nat) (fd : Int) (ds : List Int) (h : Int) (s : String) (e : Errno)
    (hs : segments[i]? = some s) :
    Step segments perm uid gid (St.ch i fd ds h) (Call.sysFchown h uid gid (some e))
      (St.unwind h ds
        (After.finish (some (Error.cannotChown s uid gid (gotUpTo segments i) e))))
  | fchownDone (i : Nat) (fd : Int) (ds : List Int) (h : Int) :
    Step segments perm uid gid (St.ch i fd ds h) (Call.sysFchown h uid gid none)
      (afterSegment segments i ds h)
  | closed (d : Int) (ds : List Int) (k : After) :
    Step segments perm uid gid (St.unwind d ds k) (Call.sysClose d) (unwindTo segments ds k)

/-- The handle a `sysClose` call was issued on. -/
def Call.closed : Call → Option Int
  | Call.sysClose fd => some fd
  | _ => none

/-- The run has failed in this state: only deferred closes remain before the
error is returned. -/
def failing : St → Bool
  | St.unwind _ _ (After.finish (some _)) => true
  | St.done (some _) => true
  | _ => false

/-- The result a state is committed to, if any. -/
def verdict : St → Option Error
  | St.unwind _ _ (After.finish r) => r
  | St.done r => r
  | _ => none

/-- The state lies between two segments: the next call, if any, is a `sysClose`
or the `sysMkdirat` of the next segment. -/
def quiet : St → Bool
  | St.mk _ _ _ => true
  | St.unwind _ _ _ => true
  | St.done _ => true
  | _ => false

/-- Position of a run after the calls `T`: `nOpenat` calls of `sysOpenat` and
`nMkdirat` calls of `sysMkdirat` were issued, the open calls were `sysOpen("/")`
followed by the `sysOpenat` of the first `nOpenat` segments in order, and the last
of them returned the handle `fd`. -/
def posAt (segments : List String) (T : List Call) (nOpenat nMkdirat : Nat) (fd : Int) : Prop :=
  T.countP Call.isOpenat = nOpenat ∧ T.countP Call.isMkdirat = nMkdirat ∧
    (T.filterMap Call.openCall).map Prod.fst = "/" :: segments.take nOpenat ∧
    (T.filterMap Call.openCall).getLast?.map Prod.snd = some (FdResult.ok fd)

/-- What a protocol state knows about the calls `T` that led to it. -/
def posInv (segments : List String) (T : List Call) : St → Prop
  | St.start => T = []
  | St.mk i fd ds => posAt segments T i i fd ∧ i < segments.length ∧ ds.head? = some fd
  | St.op i fd ds _ => posAt segments T i (i + 1) fd ∧ i < segments.length ∧ ds.head? = some fd
  | St.ch i _ _ h => posAt segments T (i + 1) (i + 1) h ∧ i < segments.length
  | St.unwind _ _ (After.final fd) =>
    posAt segments T (segments.length - 1) (segments.length - 1) fd ∧ 0 < segments.length
  | _ => True

/-- The ownership changes expected for a segment, given the result of its
`sysMkdirat` and the call that followed: one change of the handle just opened to
`uid`, `gid` when the mkdirat succeeded and the next call is a successful
`sysOpenat`, none otherwise. -/
def expectedFchown (uid gid : Int) : Option Errno → Option Call → List (Int × Int × Int)
  | none, some (Call.sysOpenat _ _ _ _ (FdResult.ok h)) => [(h, uid, gid)]
  | _, _ => []

/-- How many handles a protocol state may hold, in terms of the segment index. -/
def lenInv (segments : List String) : St → Prop
  | St.start => True
  | St.mk i _ ds => ds.length ≤ i + 1 ∧ i < segments.length ∧ (i + 1 = segments.length → ds.length ≤ 1)
  | St.op i _ ds _ =>
    ds.length ≤ i + 1 ∧ i < segments.length ∧ (i + 1 = segments.length → ds.length ≤ 1)
  | St.ch i _ ds _ =>
    ds.length ≤ i + 1 ∧ i < segments.length ∧ (i + 1 = segments.length → ds.length ≤ 1)
  | St.unwind _ ds (After.finish _) => ds.length + 1 ≤ max 2 segments.length
  | St.unwind _ ds (After.final _) => ds.length + 2 ≤ segments.length
  | St.done _ => True

/-! ## Replaying recorded calls -/

/-- Perform the recorded call `c` in the environment `env`: the environment after
it, provided the environment gives the recorded result. -/
def perform (sys : Sys σ) (env : σ) : Call → Option σ
  | Call.sysOpen p fl m r =>
    if (sys.sysOpen env p fl m).2 = r then some (sys.sysOpen env p fl m).1 else none
  | Call.sysMkdirat fd p m r =>
    if (sys.sysMkdirat env fd p m).2 = r then some (sys.sysMkdirat env fd p m).1 else none
  | Call.sysOpenat fd p fl m r =>
    if (sys.sysOpenat env fd p fl m).2 = r then some (sys.sysOpenat env fd p fl m).1 else none
  | Call.sysFchown fd uid gid r =>
    if (sys.sysFchown env fd uid gid).2 = r then some (sys.sysFchown env fd uid gid).1 else none
  | Call.sysClose fd => some (sys.sysClose env fd).1

/-- Perform a list of recorded calls in order. -/
def replay (sys : Sys σ) : σ → List Call → Option σ
  | env, [] => some env
  | env, c :: cs =>
    match perform sys env c with
    | none => none
    | some env1 => replay sys env1 cs

/-! ## A model filesystem

The filesystem of the claims about on-disk state: `mkdirat` on an absent name
under a directory creates a directory owned by the calling process, on an
existing name (of any kind) it fails with `EEXIST`; `openat` with
`O_DIRECTORY|O_NOFOLLOW` succeeds exactly on directories; `fchown` sets the owner,
where `-1` leaves the respective id unchanged; nothing is ever removed.  Names
are single path components. -/

/-- A filesystem entry. -/
inductive Entry where
  | dir (uid gid : Int) (mode : Nat)
  | file
  | symlink
  deriving DecidableEq, Repr

/-- The state of the model: the entry at every path (given by its components
below the root; the root itself is a directory and is not looked up), the table
of open directory handles with the path each refers to, newest first, and the
ids of the calling process. -/
structure FS where
  entries : List String → Option Entry
  fds : List (Int × List String)
  procUid : Int
  procGid : Int

/-- Constant `syscall.ENOENT`. -/
def ENOENT : Errno := 2

/-- Constant `syscall.EBADF`. -/
def EBADF : Errno := 9

/-- Constant `syscall.ENOTDIR`. -/
def ENOTDIR : Errno := 20

/-- Constant `syscall.EINVAL`. -/
def EINVAL : Errno := 22

/-- Constant `syscall.ELOOP`. -/
def ELOOP : Errno := 40

/-- The path an open handle refers to. -/
def lookupFd : List (Int × List String) → Int → Option (List String)
  | [], _ => none
  | (k, p) :: rest, fd => if k = fd then some p else lookupFd rest fd

/-- Remove the newest table entry of the handle `fd`. -/
def removeFd : List (Int × List String) → Int → List (Int × List String)
  | [], _ => []
  | (k, p) :: rest, fd => if k = fd then rest else (k, p) :: removeFd rest fd

/-- A descriptor greater than every descriptor in the table (and than 2). -/
def freshFd : List (Int × List String) → Int
  | [] => 3
  | (k, _) :: rest => max (k + 1) (freshFd rest)

/-- The id after `fchown` with the requested id `req`: `-1` keeps `cur`. -/
def chownId (req cur : Int) : Int := if req = -1 then cur else req

/-- Bind `path` to `e`. -/
def setEntry (entries : List String → Option Entry) (path : List String) (e : Entry) :
    List String → Option Entry :=
  fun q => if q = path then some e else entries q

/-- The filesystem with `path` bound to `e`. -/
def FS.withEntry (fs : FS) (path : List String) (e : Entry) : FS :=
  { fs with entries := setEntry fs.entries path e }

/-- The filesystem with the new handle `fd` open on `path`. -/
def FS.withFd (fs : FS) (fd : Int) (path : List String) : FS :=
  { fs with fds := (fd, path) :: fs.fds }

/-- Model of `open(2)`: only the root directory can be opened by path. -/
def fsOpen (fs : FS) (path : String) (_flags _mode : Nat) : FS × FdResult :=
  if path = "/" then (fs.withFd (freshFd fs.fds) [], FdResult.ok (freshFd fs.fds))
  else (fs, FdResult.err ENOENT)

/-- Model of `mkdirat(2)`. -/
def fsMkdirat (fs : FS) (dirfd : Int) (name : String) (mode : Nat) : FS × Option Errno :=
  match lookupFd fs.fds dirfd with
  | none => (fs, some EBADF)
  | some dir =>
    match fs.entries (dir ++ [name]) with
    | some _ => (fs, some EEXIST)
    | none => (fs.withEntry (dir ++ [name]) (Entry.dir fs.procUid fs.procGid mode), none)

/-- Model of `openat(2)` with `O_DIRECTORY|O_NOFOLLOW`; other flag combinations
are outside the model and rejected. -/
def fsOpenat (fs : FS) (dirfd : Int) (name : String) (flags _mode : Nat) : FS × FdResult :=
  if flags &&& O_NOFOLLOW = 0 ∨ flags &&& O_DIRECTORY = 0 then (fs, FdResult.err EINVAL)
  else
    match lookupFd fs.fds dirfd with
    | none => (fs, FdResult.err EBADF)
    | some dir =>
      match fs.entries (dir ++ [name]) with
      | none => (fs, FdResult.err ENOENT)
      | some Entry.file => (fs, FdResult.err ENOTDIR)
      | some Entry.symlink => (fs, FdResult.err ELOOP)
      | some (Entry.dir _ _ _) =>
        (fs.withFd (freshFd fs.fds) (dir ++ [name]), FdResult.ok (freshFd fs.fds))

/-- Model of `fchown(2)` on a directory handle. -/
def fsFchown (fs : FS) (fd : Int) (uid gid : Int) : FS × Option Errno :=
  match lookupFd fs.fds fd with
  | none => (fs, some EBADF)
  | some path =>
    match fs.entries path with
    | some (Entry.dir u g m) =>
      (fs.withEntry path (Entry.dir (chownId uid u) (chownId gid g) m), none)
    | _ => (fs, none)

/-- Model of `close(2)`. -/
def fsClose (fs : FS) (fd : Int) : FS × Option Errno :=
  match lookupFd fs.fds fd with
  | none => (fs, some EBADF)
  | some _ => ({ fs with fds := removeFd fs.fds fd }, none)

/-- The model filesystem as an environment of the five primitives. -/
def fsSys : Sys FS where
  sysOpen := fsOpen
  sysMkdirat := fsMkdirat
  sysOpenat := fsOpenat
  sysFchown := fsFchown
  sysClose := fsClose

/-- A filesystem with the entries of the list `l` (first match wins) and no open
handle, for a process running as `uid`, `gid`. -/
def mkFS (l : List (List String × Entry)) (uid gid : Int) : FS where
  entries := fun p => (l.find? (fun kv => kv.1 == p)).map Prod.snd
  fds := []
  procUid := uid
  procGid := gid

/-! ## Invariants of a run on the model filesystem -/

/-- The entry at `path` after a successful run from `fs0`: an entry that existed
before is a directory and is unchanged (owner and mode included); an absent one
is now a directory with the requested mode, owned by the requested ids (`-1`
keeping the id of the creating process). -/
def entryOK (fs0 fs : FS) (perm : Nat) (uid gid : Int) (path : List String) : Prop :=
  match fs0.entries path with
  | some e => (∃ u g m, e = Entry.dir u g m) ∧ fs.entries path = some e
  | none =>
    fs.entries path =
      some (Entry.dir (chownId uid fs0.procUid) (chownId gid fs0.procGid) perm)

/-- The first `j` segments are in place in `fs` and nothing else differs from `fs0`. -/
def walked (segments : List String) (fs0 : FS) (perm : Nat) (uid gid : Int) (j : Nat)
    (fs : FS) : Prop :=
  fs.procUid = fs0.procUid ∧ fs.procGid = fs0.procGid ∧
    (∀ k, 0 < k → k ≤ j → entryOK fs0 fs perm uid gid (segments.take k)) ∧
    (∀ p, (∀ k, 0 < k → k ≤ j → p ≠ segments.take k) → fs.entries p = fs0.entries p)

/-- Segment `i` has just been made by `sysMkdirat` and its owner not yet changed. -/
def justMade (segments : List String) (fs0 : FS) (perm : Nat) (uid gid : Int) (i : Nat)
    (fs : FS) : Prop :=
  fs.procUid = fs0.procUid ∧ fs.procGid = fs0.procGid ∧
    (∀ k, 0 < k → k ≤ i → entryOK fs0 fs perm uid gid (segments.take k)) ∧
    (∀ p, (∀ k, 0 < k → k ≤ i + 1 → p ≠ segments.take k) → fs.entries p = fs0.entries p) ∧
    fs0.entries (segments.take (i + 1)) = none ∧
    fs.entries (segments.take (i + 1)) = some (Entry.dir fs0.procUid fs0.procGid perm)

/-- Every handle of `ds` is in the table of open handles. -/
def allOpen (fs : FS) (ds : List Int) : Prop :=
  ∀ d ∈ ds, ∃ p, lookupFd fs.fds d = some p

/-- The invariant that links the protocol state with the model filesystem during
a run of `secureMkdirAll` started in `fs0`. -/
def fsInv (segments : List String) (fs0 : FS) (perm : Nat) (uid gid : Int) : St → FS → Prop
  | St.start, fs => fs = fs0
  | St.mk i fd ds, fs =>
    walked segments fs0 perm uid gid i fs ∧ lookupFd fs.fds fd = some (segments.take i) ∧
      allOpen fs ds
  | St.op i fd ds true, fs =>
    justMade segments fs0 perm uid gid i fs ∧ lookupFd fs.fds fd = some (segments.take i) ∧
      allOpen fs ds
  | St.op i fd ds false, fs =>
    walked segments fs0 perm uid gid i fs ∧ lookupFd fs.fds fd = some (segments.take i) ∧
      allOpen fs ds ∧ ∃ e, fs.entries (segments.take (i + 1)) = some e
  | St.ch i _ ds h, fs =>
    justMade segments fs0 perm uid gid i fs ∧
      lookupFd fs.fds h = some (segments.take (i + 1)) ∧ allOpen fs ds ∧ (∀ d ∈ ds, d ≠ h) ∧
      i < segments.length
  | St.unwind d ds (After.final h), fs =>
    walked segments fs0 perm uid gid (segments.length - 1) fs ∧
      lookupFd fs.fds h = some (segments.take (segments.length - 1)) ∧
      (∀ x ∈ d :: ds, x ≠ h) ∧ 0 < segments.length
  | St.unwind _ _ (After.finish none), fs => walked segments fs0 perm uid gid segments.length fs
  | St.unwind _ _ (After.finish (some _)), _ => True
  | St.done none, fs => walked segments fs0 perm uid gid segments.length fs
  | St.done (some _), _ => True

/-- What a protocol state implies for the handles of the model filesystem during
a run over a path whose directories all exist already. -/
def idemState (segments : List String) : St → FS → Prop
  | St.start, _ => True
  | St.mk i fd ds, fs => lookupFd fs.fds fd = some (segments.take i) ∧ allOpen fs ds
  | St.op i fd ds made, fs =>
    made = false ∧ lookupFd fs.fds fd = some (segments.take i) ∧ allOpen fs ds
  | St.ch _ _ _ _, _ => False
  | St.unwind d ds (After.final h), fs =>
    lookupFd fs.fds h = some (segments.take (segments.length - 1)) ∧ (∀ x ∈ d :: ds, x ≠ h) ∧
      0 < segments.length
  | St.unwind _ _ (After.finish r), _ => r = none
  | St.done r, _ => r = none

/-- The invariant of a run over a path whose directories all exist in `fs1`: the
entries stay those of `fs1`, no `sysFchown` was issued and every `sysMkdirat`
reported `EEXIST`. -/
def idemInv (segments : List String) (fs1 : FS) (T : List Call) (s : St) (fs : FS) : Prop :=
  fs.entries = fs1.entries ∧ fs.procUid = fs1.procUid ∧ fs.procGid = fs1.procGid ∧
    (∀ c ∈ T, c.isFchown = false ∧
      ∀ fd p m r, c = Call.sysMkdirat fd p m r → r = some EEXIST) ∧
    idemState segments s fs

/-! ## The mount point check -/

/-- What the `os.FileInfo` returned by `os.Lstat` says about the entry, as far as
`ensureMountPoint` looks at it: its kind.  `os.Lstat` does not follow a symbolic
link, so a link is reported as such. -/
inductive FileKind where
  | directory
  | regular
  | symlink
  | other
  deriving DecidableEq, Repr

/-- Method `fi.IsDir()`. -/
def FileKind.IsDir : FileKind → Bool
  | FileKind.directory => true
  | _ => false

/-- Result `(fi os.FileInfo, err error)` of the mockable `osLstat`. -/
inductive LstatResult where
  | ok (fi : FileKind)
  | err (e : Errno)
  deriving DecidableEq, Repr

/-- Function `os.IsNotExist` on the error of a failed system call. -/
def isNotExist (e : Errno) : Bool := e == ENOENT

/-- Function `ensureMountPoint(path, mode, uid, gid) error`.  The mockable `osLstat`
is a parameter next to the five primitives of `Sys`; it is not one of the
recorded calls. -/
def ensureMountPoint (sys : Sys σ) (osLstat : σ → String → σ × LstatResult) (w : World σ)
    (path : String) (mode : Nat) (uid gid : Int) : World σ × Option Error :=
  let r := osLstat w.env path
  let w1 : World σ := ⟨r.1, w.trace⟩
  match r.2 with
  | LstatResult.err e =>
    if isNotExist e then secureMkdirAll sys w1 path mode uid gid
    else (w1, some (Error.cannotInspect path e))
  | LstatResult.ok fi =>
    -- Ensure that mount point is a directory.
    if !fi.IsDir then (w1, some (Error.notDirectory path))
    else (w1, none)

/-- The calls issued by `secureMkPrefix`: what the call appended to the record. -/
def callsOfMkPrefix (sys : Sys σ) (w : World σ) (segments : List String) (perm : Nat)
    (uid gid : Int) : List Call :=
  (secureMkPrefix sys w segments perm uid gid).1.trace.drop w.trace.length

/-- The calls issued by `secureMkDir`: what the call appended to the record. -/
def callsOfMkDir (sys : Sys σ) (w : World σ) (fd : Int) (segments : List String) (i : Nat)
    (perm : Nat) (uid gid : Int) : List Call :=
  (secureMkDir sys w fd segments i perm uid gid).1.trace.drop w.trace.length

/-- The name a `sysMkdirat` call was issued on. -/
def Call.mkdiratName : Call → Option String
  | Call.sysMkdirat _ p _ _ => some p
  | _ => none

/-- The name a `sysOpenat` call was issued on. -/
def Call.openatName : Call → Option String
  | Call.sysOpenat _ p _ _ _ => some p
  | _ => none

/-- The `sysMkdirat` calls of `T`, and its `sysOpenat` calls, were issued on the
first segments of the path, in order. -/
def namesInv (segments : List String) (T : List Call) : Prop :=
  T.filterMap Call.mkdiratName = segments.take (T.countP Call.isMkdirat) ∧
    T.filterMap Call.openatName = segments.take (T.countP Call.isOpenat)

/-! ## The privilege gate of snapctl (`overlord/hookstate/ctlcmd/ctlcmd.go`)

The loop of `Run` that registers one entry per command with the option parser.
The parser itself (package `go-flags`) and the dispatch of `ParseArgs` are
outside the repository and not modelled; what is registered is. -/

/-- Type `ForbiddenCommandError`. -/
structure ForbiddenCommandError where
  Message : String
  deriving DecidableEq, Repr

/-- Method `ForbiddenCommandError.Error()`. -/
def ForbiddenCommandError.Error (f : ForbiddenCommandError) : String := f.Message

/-- Type `ForbiddenCommand`; `Uid` is the value of a `uint32`. -/
structure ForbiddenCommand where
  Uid : Nat
  Name : String
  deriving DecidableEq, Repr

/-- Method `(*ForbiddenCommand).Execute`: the non-nil error
`&ForbiddenCommandError{Message: fmt.Sprintf("cannot use %q with uid %d, try with sudo",
f.Name, f.Uid)}`.  The rendering of the verb `%q` (`strconv.Quote`, of the Go
library) is the parameter `quote`; `%d` is the decimal numeral. -/
def ForbiddenCommand.Execute (quote : String → String) (f : ForbiddenCommand)
    (_args : List String) : ForbiddenCommandError :=
  ⟨"cannot use " ++ quote f.Name ++ " with uid " ++ toString f.Uid ++ ", try with sudo"⟩

/-- The rendering of `%q` for a name that needs no escape: the name between
double quotes. -/
def plainQuote (s : String) : String := "\"" ++ s ++ "\""

/-- The methods of the interface `command` that `Run` and the parser use, over
the type `Cmd` of command values; the setters return the updated command.
`setStdout` and `setStderr` attach the buffers of `Run`. -/
structure CommandMethods (Cmd Ctx Err : Type) where
  setStdout : Cmd → Cmd
  setStderr : Cmd → Cmd
  setContext : Cmd → Ctx → Cmd
  Execute : Cmd → List String → Option Err

/-- Type `commandInfo`. -/
structure CommandInfo (Cmd : Type) where
  shortHelp : String
  longHelp : String
  generator : Unit → Cmd
  hidden : Bool

/-- The value `data` that `Run` hands to `parser.AddCommand`: a command built by
its generator, or a `*ForbiddenCommand`. -/
inductive CommandData (Cmd : Type) where
  | command (cmd : Cmd)
  | forbidden (f : ForbiddenCommand)

/-- The body of the loop of `Run` for one entry `name, cmdInfo` of `commands`. -/
def runCommandData {Cmd Ctx Err : Type} (M : CommandMethods Cmd Ctx Err) (context : Ctx)
    (uid : Nat) (name : String) (cmdInfo : CommandInfo Cmd) : CommandData Cmd :=
  -- commands listed here will be allowed for regular users
  if uid = 0 ∨ name = "get" ∨ name = "services" ∨ name = "set-health" then
    CommandData.command
      (M.setContext (M.setStderr (M.setStdout (cmdInfo.generator ()))) context)
  else CommandData.forbidden ⟨uid, name⟩

/-- The loop `for name, cmdInfo := range commands` of `Run`: what is registered
under each name.  The map `commands` is given as the list of its entries. -/
def runRegistered {Cmd Ctx Err : Type} (M : CommandMethods Cmd Ctx Err) (context : Ctx)
    (commands : List (String × CommandInfo Cmd)) (uid : Nat) : List (String × CommandData Cmd) :=
  commands.map (fun entry => (entry.1, runCommandData M context uid entry.1 entry.2))

/-- The error of executing a registered entry. -/
inductive ExecuteError (Err : Type) where
  | forbidden (e : ForbiddenCommandError)
  | command (e : Err)

/-- Method `Execute` of the registered value, as the parser calls it. -/
def CommandData.Execute {Cmd Ctx Err : Type} (M : CommandMethods Cmd Ctx Err)
    (quote : String → String) : CommandData Cmd → List String → Option (ExecuteError Err)
  | CommandData.command cmd, args => (M.Execute cmd args).map ExecuteError.command
  | CommandData.forbidden f, args => some (ExecuteError.forbidden (f.Execute quote args))

/-! ## The shape of a cleaned absolute path -/

/-- A path component as `filepath.Clean` leaves it in an absolute path: not empty,
without separator, and neither `.` nor `..`. -/
def goodComp (c : List Char) : Prop :=
  c ≠ [] ∧ (∀ x ∈ c, x ≠ '/') ∧ c ≠ ['.'] ∧ c ≠ ['.', '.']

/-- The output buffer of `filepath.Clean` (newest byte first) below the root
slash, for the components read so far, newest first: every component is
followed (in path order: preceded) by a separator. -/
def bodyOf : List (List Char) → List Char
  | [] => []
  | c :: below => c.reverse ++ '/' :: bodyOf below

/-- The output buffer of `filepath.Clean` for an absolute path with the given
components, newest first: the lone root slash when there is none. -/
def bufOf : List (List Char) → List Char
  | [] => ['/']
  | c :: below => bodyOf (c :: below)

/-- The path with the given components, each preceded by a separator. -/
def slashed : List (List Char) → List Char
  | [] => []
  | c :: cs => '/' :: c ++ slashed cs

/-! ## The record of a run in which every call succeeds

The expected record is written down as the sequence it is described to be, over
the handles `f 0`, `f 1`, ... returned by `sysOpen("/")` and by the `sysOpenat`
of the segments in turn; it is then compared with the record of the code. -/

/-- The call returned a handle or a nil error (the result of a `sysClose` is not
recorded, the code never looks at it). -/
def Call.succeeded : Call → Bool
  | Call.sysOpen _ _ _ (FdResult.ok _) => true
  | Call.sysMkdirat _ _ _ none => true
  | Call.sysOpenat _ _ _ _ (FdResult.ok _) => true
  | Call.sysFchown _ _ _ none => true
  | Call.sysClose _ => true
  | _ => false

/-- The calls `mkdirat(f i, s_i, perm)`, `openat(f i, s_i)`, `fchown(f (i+1), uid, gid)`
that make segment `i` under the handle `f i` and open it as `f (i + 1)`. -/
def segmentCalls (segs : List String) (perm : Nat) (uid gid : Int) (f : Nat → Int) (i : Nat) :
    List Call :=
  [Call.sysMkdirat (f i) (segs.getD i "") perm none,
   Call.sysOpenat (f i) (segs.getD i "") openFlags 0 (FdResult.ok (f (i + 1))),
   Call.sysFchown (f (i + 1)) uid gid none]

/-- The calls of the segments `0`, ..., `k - 1`, in this order. -/
def segmentRun (segs : List String) (perm : Nat) (uid gid : Int) (f : Nat → Int) :
    Nat → List Call
  | 0 => []
  | k + 1 => segmentRun segs perm uid gid f k ++ segmentCalls segs perm uid gid f k

/-- The handles `f (k - 1)`, ..., `f 0`, the newest first. -/
def handleStack (f : Nat → Int) : Nat → List Int
  | 0 => []
  | k + 1 => f k :: handleStack f k

/-- The calls `close(f (k - 1))`, ..., `close(f 0)`, in this order. -/
def closeRun (f : Nat → Int) (k : Nat) : List Call :=
  (handleStack f k).map Call.sysClose

/-- The record of an all-new run over `n` segments: `open("/")`; the calls of the
segments `0 .. n - 2`; the closes of `f (n - 2)`, ..., `f 0`; the calls of the
segment `n - 1`; `close(f n)`, `close(f (n - 1))`.  Without a segment it is
`open("/")`, `close(f 0)`. -/
def allNewTrace (segs : List String) (perm : Nat) (uid gid : Int) (f : Nat → Int) : List Call :=
  if segs.length = 0 then
    [Call.sysOpen "/" openFlags 0 (FdResult.ok (f 0)), Call.sysClose (f 0)]
  else
    Call.sysOpen "/" openFlags 0 (FdResult.ok (f 0)) ::
      (segmentRun segs perm uid gid f (segs.length - 1) ++ closeRun f (segs.length - 1) ++
        segmentCalls segs perm uid gid f (segs.length - 1) ++
        [Call.sysClose (f segs.length), Call.sysClose (f (segs.length - 1))])

/-! # Theorems -/

/-! ## The code follows the protocol -/

theorem runMon_append (segs : List String) (perm : Nat) (uid gid : Int) (s : St)
    (a b : List Call) :
    runMon segs perm uid gid s (a ++ b) =
      (runMon segs perm uid gid s a).bind (fun s1 => runMon segs perm uid gid s1 b) := by
  induction a generalizing s with
  | nil => simp [runMon]
  | cons c cs ih =>
    simp only [List.cons_append, runMon]
    cases step segs perm uid gid s c with
    | none => simp
    | some s1 => simpa using ih s1

theorem secureMkDir_protocol (sys : Sys σ) (w : World σ) (fd : Int) (segs : List String)
    (i : Nat) (perm : Nat) (uid gid : Int) (ds : List Int) (seg : String)
    (hseg : segs[i]? = some seg) :
    ∃ T, (secureMkDir sys w fd segs i perm uid gid).1.trace = w.trace ++ T ∧
      match (secureMkDir sys w fd segs i perm uid gid).2.2 with
      | none => runMon segs perm uid gid (St.mk i fd ds) T =
          some (afterSegment segs i ds (secureMkDir sys w fd segs i perm uid gid).2.1)
      | some e => runMon segs perm uid gid (St.mk i fd ds) T =
          some (unwindTo segs ds (After.finish (some e))) := by
  simp only [secureMkDir, hseg, doMkdirat, doOpenat, doFchown, doClose]
  rcases h1 : (sys.sysMkdirat w.env fd seg perm).2 with _ | e1
  · simp only []
    rcases h2 : (sys.sysOpenat (sys.sysMkdirat w.env fd seg perm).1 fd seg openFlags 0).2 with h | e2
    · simp only [if_true]
      rcases h3 : (sys.sysFchown (sys.sysOpenat (sys.sysMkdirat w.env fd seg perm).1 fd seg openFlags 0).1 h uid gid).2 with _ | e3
      · exact ⟨[Call.sysMkdirat fd seg perm none, Call.sysOpenat fd seg openFlags 0 (FdResult.ok h), Call.sysFchown h uid gid none], by simp, by simp [runMon, step, hseg]⟩
      · exact ⟨[Call.sysMkdirat fd seg perm none, Call.sysOpenat fd seg openFlags 0 (FdResult.ok h), Call.sysFchown h uid gid (some e3), Call.sysClose h], by simp, by simp [runMon, step, hseg, unwindTo]⟩
    · exact ⟨[Call.sysMkdirat fd seg perm none, Call.sysOpenat fd seg openFlags 0 (FdResult.err e2)], by simp, by simp [runMon, step, hseg]⟩
  · simp only []
    by_cases he : e1 = EEXIST
    · simp only [he, if_true]
      rcases h2 : (sys.sysOpenat (sys.sysMkdirat w.env fd seg perm).1 fd seg openFlags 0).2 with h | e2
      · exact ⟨[Call.sysMkdirat fd seg perm (some EEXIST), Call.sysOpenat fd seg openFlags 0 (FdResult.ok h)], by simp, by simp [runMon, step, hseg]⟩
      · exact ⟨[Call.sysMkdirat fd seg perm (some EEXIST), Call.sysOpenat fd seg openFlags 0 (FdResult.err e2)], by simp, by simp [runMon, step, hseg]⟩
    · simp only [he, if_false]
      by_cases hr : e1 = EROFS
      · simp only [hr, if_true]
        exact ⟨[Call.sysMkdirat fd seg perm (some EROFS)], by simp, by simp [runMon, step, hseg, mkdirError, EROFS, EEXIST]⟩
      · simp only [hr, if_false]
        exact ⟨[Call.sysMkdirat fd seg perm (some e1)], by simp, by simp [runMon, step, hseg, mkdirError, he, hr]⟩

theorem runDefers_trace (sys : Sys σ) (w : World σ) (ds : List Int) :
    (runDefers sys w ds).trace = w.trace ++ ds.map Call.sysClose := by
  induction ds generalizing w with
  | nil => simp [runDefers]
  | cons d ds ih => simp [runDefers, ih, doClose]

theorem runMon_unwind (segs : List String) (perm : Nat) (uid gid : Int) (ds : List Int)
    (k : After) :
    runMon segs perm uid gid (unwindTo segs ds k) (ds.map Call.sysClose) =
      some (unwindTo segs [] k) := by
  induction ds with
  | nil => simp [runMon]
  | cons d ds ih => simpa [runMon, step, unwindTo] using ih

theorem secureMkPrefixLoop_protocol (sys : Sys σ) (segs : List String) (perm : Nat)
    (uid gid : Int) (todo : Nat) :
    ∀ (i : Nat) (w : World σ) (fd : Int) (ds : List Int), i + todo + 2 = segs.length →
    ∃ T, (secureMkPrefixLoop sys segs perm uid gid (todo + 1) i w fd ds).1.trace = w.trace ++ T ∧
      match (secureMkPrefixLoop sys segs perm uid gid (todo + 1) i w fd ds).2.2 with
      | none => runMon segs perm uid gid (St.mk i fd ds) T =
          some (unwindTo segs []
            (After.final (secureMkPrefixLoop sys segs perm uid gid (todo + 1) i w fd ds).2.1))
      | some e => runMon segs perm uid gid (St.mk i fd ds) T = some (St.done (some e)) := by
  induction todo with
  | zero =>
    intro i w fd ds hi
    have hlt : i < segs.length := by omega
    obtain ⟨seg, hseg⟩ : ∃ seg, segs[i]? = some seg := ⟨segs[i], by simp [hlt]⟩
    obtain ⟨T, hT, hm⟩ := secureMkDir_protocol sys w fd segs i perm uid gid ds seg hseg
    simp only [secureMkPrefixLoop]
    rcases hr : secureMkDir sys w fd segs i perm uid gid with ⟨w1, fd1, _ | e⟩
    · rw [hr] at hT hm
      simp only [] at hT hm ⊢
      have hno : ¬ ((i : Int) < (segs.length : Int) - 2) := by omega
      simp only [hno, if_false]
      refine ⟨T ++ ds.map Call.sysClose, by simp [runDefers_trace, hT], ?_⟩
      rw [runMon_append, hm]
      have h1 : ¬ (i + 1 = segs.length) := by omega
      have h2 : ¬ (i + 2 < segs.length) := by omega
      simp only [afterSegment, h1, h2, if_false, Option.some_bind, Option.bind, runMon_unwind]
    · rw [hr] at hT hm
      simp only [] at hT hm ⊢
      refine ⟨T ++ ds.map Call.sysClose, by simp [runDefers_trace, hT], ?_⟩
      rw [runMon_append, hm]
      simp only [Option.some_bind, Option.bind, runMon_unwind]
      rfl
  | succ todo ih =>
    intro i w fd ds hi
    have hlt : i < segs.length := by omega
    obtain ⟨seg, hseg⟩ : ∃ seg, segs[i]? = some seg := ⟨segs[i], by simp [hlt]⟩
    obtain ⟨T, hT, hm⟩ := secureMkDir_protocol sys w fd segs i perm uid gid ds seg hseg
    rw [secureMkPrefixLoop]
    rcases hr : secureMkDir sys w fd segs i perm uid gid with ⟨w1, fd1, _ | e⟩
    · rw [hr] at hT hm
      simp only [] at hT hm ⊢
      have hyes : ((i : Int) < (segs.length : Int) - 2) := by omega
      simp only [hyes, if_true]
      obtain ⟨T2, hT2, hm2⟩ := ih (i + 1) w1 fd1 (fd1 :: ds) (by omega)
      refine ⟨T ++ T2, by simp [hT2, hT], ?_⟩
      have h1 : ¬ (i + 1 = segs.length) := by omega
      have h2 : i + 2 < segs.length := by omega
      simp only [afterSegment, h1, h2, if_false, if_true] at hm
      rcases hr2 : (secureMkPrefixLoop sys segs perm uid gid (todo + 1) (i + 1) w1 fd1 (fd1 :: ds)).2.2 with _ | e2
      · rw [hr2] at hm2
        simp only [] at hm2 ⊢
        rw [runMon_append, hm]; simpa using hm2
      · rw [hr2] at hm2
        simp only [] at hm2 ⊢
        rw [runMon_append, hm]; simpa using hm2
    · rw [hr] at hT hm
      simp only [] at hT hm ⊢
      refine ⟨T ++ ds.map Call.sysClose, by simp [runDefers_trace, hT], ?_⟩
      rw [runMon_append, hm]
      simp only [Option.some_bind, Option.bind, runMon_unwind]
      rfl

theorem secureMkPrefix_protocol (sys : Sys σ) (w : World σ) (segs : List String) (perm : Nat)
    (uid gid : Int) :
    ∃ T, (secureMkPrefix sys w segs perm uid gid).1.trace = w.trace ++ T ∧
      match (secureMkPrefix sys w segs perm uid gid).2.2 with
      | none => runMon segs perm uid gid St.start T =
          some (if segs.length = 0 then
              St.unwind (secureMkPrefix sys w segs perm uid gid).2.1 [] (After.finish none)
            else St.mk (segs.length - 1) (secureMkPrefix sys w segs perm uid gid).2.1
              [(secureMkPrefix sys w segs perm uid gid).2.1])
      | some e => runMon segs perm uid gid St.start T = some (St.done (some e)) := by
  simp only [secureMkPrefix, doOpen]
  rcases h0 : (sys.sysOpen w.env "/" openFlags 0).2 with f0 | e0
  · simp only []
    rcases Nat.lt_or_ge 0 segs.length with hpos | hzero
    · simp only [hpos, if_true, gt_iff_lt]
      rcases Nat.lt_or_ge 1 segs.length with hbig | hone
      · simp only [hbig, if_true]
        obtain ⟨todo, htodo⟩ : ∃ todo, segs.length - 1 = todo + 1 := ⟨segs.length - 2, by omega⟩
        rw [htodo]
        obtain ⟨T, hT, hm⟩ := secureMkPrefixLoop_protocol sys segs perm uid gid todo 0
          ⟨(sys.sysOpen w.env "/" openFlags 0).1,
            w.trace ++ [Call.sysOpen "/" openFlags 0 (FdResult.ok f0)]⟩ f0 [f0] (by omega)
        refine ⟨Call.sysOpen "/" openFlags 0 (FdResult.ok f0) :: T, by simp [hT], ?_⟩
        have hne : ¬ (segs.length = 0) := by omega
        have hst : step segs perm uid gid St.start (Call.sysOpen "/" openFlags 0 (FdResult.ok f0))
            = some (St.mk 0 f0 [f0]) := by simp [step, hne]
        rcases hr : (secureMkPrefixLoop sys segs perm uid gid (todo + 1) 0
          ⟨(sys.sysOpen w.env "/" openFlags 0).1,
            w.trace ++ [Call.sysOpen "/" openFlags 0 (FdResult.ok f0)]⟩ f0 [f0]).2.2 with _ | e
        · rw [hr] at hm
          simp only [] at hm ⊢
          simp only [runMon, hst, hm, hne, if_false, htodo, unwindTo]
        · rw [hr] at hm
          simp only [] at hm ⊢
          simp only [runMon, hst, hm]
      · have hlen : segs.length = 1 := by omega
        have hnb : ¬ (1 < segs.length) := by omega
        simp only [hnb, if_false, hlen, Nat.sub_self, secureMkPrefixLoop, runDefers]
        exact ⟨[Call.sysOpen "/" openFlags 0 (FdResult.ok f0)], by simp, by simp [runMon, step, hlen]⟩
    · have hlen : segs.length = 0 := by omega
      have h1 : ¬ (0 < segs.length) := by omega
      have h2 : ¬ (1 < segs.length) := by omega
      simp only [h1, h2, if_false, gt_iff_lt, runDefers]
      exact ⟨[Call.sysOpen "/" openFlags 0 (FdResult.ok f0)], by simp, by simp [runMon, step, hlen]⟩
  · exact ⟨[Call.sysOpen "/" openFlags 0 (FdResult.err e0)], by simp, by simp [runMon, step]⟩

/-- Every run of the body of `secureMkdirAll` is a complete run of the protocol
automaton, ending in the state that holds the returned error. -/
theorem secureMkdirAllSegments_protocol (sys : Sys σ) (w : World σ) (segs : List String)
    (perm : Nat) (uid gid : Int) :
    ∃ T, (secureMkdirAllSegments sys w segs perm uid gid).1.trace = w.trace ++ T ∧
      runMon segs perm uid gid St.start T =
        some (St.done (secureMkdirAllSegments sys w segs perm uid gid).2) := by
  obtain ⟨T, hT, hm⟩ := secureMkPrefix_protocol sys w segs perm uid gid
  simp only [secureMkdirAllSegments]
  rcases hr : secureMkPrefix sys w segs perm uid gid with ⟨w1, fd, _ | e⟩
  · rw [hr] at hT hm
    simp only [] at hT hm ⊢
    rcases Nat.lt_or_ge 0 segs.length with hpos | hzero
    · have hne : ¬ (segs.length = 0) := by omega
      simp only [hpos, if_true, gt_iff_lt, hne, if_false] at hm ⊢
      have hlt : segs.length - 1 < segs.length := by omega
      obtain ⟨seg, hseg⟩ : ∃ seg, segs[segs.length - 1]? = some seg :=
        ⟨segs[segs.length - 1], by simp [hlt]⟩
      obtain ⟨T2, hT2, hm2⟩ :=
        secureMkDir_protocol sys w1 fd segs (segs.length - 1) perm uid gid [fd] seg hseg
      rcases hr2 : secureMkDir sys w1 fd segs (segs.length - 1) perm uid gid with ⟨w2, fd2, _ | e2⟩
      · rw [hr2] at hT2 hm2
        simp only [] at hT2 hm2 ⊢
        refine ⟨T ++ (T2 ++ [Call.sysClose fd2, Call.sysClose fd]), ?_, ?_⟩
        · simp [runDefers, doClose, hT2, hT]
        · have h1 : segs.length - 1 + 1 = segs.length := by omega
          simp only [afterSegment, h1, if_true] at hm2
          rw [runMon_append, hm, Option.some_bind, runMon_append, hm2]
          simp [runMon, step, unwindTo]
      · rw [hr2] at hT2 hm2
        simp only [] at hT2 hm2 ⊢
        refine ⟨T ++ (T2 ++ [Call.sysClose fd]), ?_, ?_⟩
        · simp [runDefers, doClose, hT2, hT]
        · rw [runMon_append, hm, Option.some_bind, runMon_append, hm2]
          simp [runMon, step, unwindTo]
    · have hlen : segs.length = 0 := by omega
      have h1 : ¬ (0 < segs.length) := by omega
      simp only [h1, if_false, gt_iff_lt, hlen, if_true] at hm ⊢
      refine ⟨T ++ [Call.sysClose fd], ?_, ?_⟩
      · simp [runDefers, doClose, hT]
      · rw [runMon_append, hm]
        simp [runMon, step, unwindTo]
  · rw [hr] at hT hm
    simp only [] at hT hm ⊢
    exact ⟨T, hT, hm⟩

/-! ## General facts about protocol runs -/

theorem runMon_split (segs : List String) (perm : Nat) (uid gid : Int) (s t : St)
    (pre post : List Call) (c : Call)
    (h : runMon segs perm uid gid s (pre ++ c :: post) = some t) :
    ∃ s1 s2, runMon segs perm uid gid s pre = some s1 ∧ step segs perm uid gid s1 c = some s2 ∧
      runMon segs perm uid gid s2 post = some t := by
  rw [runMon_append] at h
  rcases h1 : runMon segs perm uid gid s pre with _ | s1
  · simp [h1] at h
  · rw [h1] at h
    simp only [Option.some_bind, runMon] at h
    rcases h2 : step segs perm uid gid s1 c with _ | s2
    · simp [h2] at h
    · rw [h2] at h
      exact ⟨s1, s2, rfl, h2, h⟩

theorem runMon_invariant (segs : List String) (perm : Nat) (uid gid : Int)
    (Inv : List Call → St → Prop)
    (hstep : ∀ T s c s1, Inv T s → step segs perm uid gid s c = some s1 → Inv (T ++ [c]) s1) :
    ∀ (T0 : List Call) (s : St) (T : List Call) (t : St), Inv T0 s →
      runMon segs perm uid gid s T = some t → Inv (T0 ++ T) t := by
  intro T0 s T
  induction T generalizing T0 s with
  | nil => intro t h0 h; simp only [runMon, Option.some.injEq] at h; subst h; simpa using h0
  | cons c cs ih =>
    intro t h0 h
    simp only [runMon] at h
    rcases h2 : step segs perm uid gid s c with _ | s2
    · simp [h2] at h
    · rw [h2] at h
      have := ih (T0 ++ [c]) s2 t (hstep T0 s c s2 h0 h2) h
      simpa using this

theorem openOf_unwindTo_finish (segs : List String) (ds : List Int) (r : Option Error) :
    openOf (unwindTo segs ds (After.finish r)) = ds := by
  cases ds <;> rfl

theorem openOf_unwindTo_final (segs : List String) (ds : List Int) (h : Int) :
    openOf (unwindTo segs ds (After.final h)) = h :: ds := by
  cases ds <;> rfl

theorem openOf_afterSegment (segs : List String) (i : Nat) (ds : List Int) (h : Int) :
    openOf (afterSegment segs i ds h) = h :: ds := by
  unfold afterSegment
  split
  · rfl
  · split
    · rfl
    · exact openOf_unwindTo_final segs ds h

theorem Step_of_step (segs : List String) (perm : Nat) (uid gid : Int) (s s1 : St) (c : Call)
    (h : step segs perm uid gid s c = some s1) : Step segs perm uid gid s c s1 := by
  cases s <;> cases c <;> (try (simp [step] at h; done))
  · rename_i p fl m r
    simp only [step] at h
    split at h
    · rename_i hc
      obtain ⟨rfl, rfl, rfl⟩ := hc
      cases r with
      | err e => simp only [Option.some.injEq] at h; subst h; exact Step.rootFailed e
      | ok fd =>
        simp only [Option.some.injEq] at h; subst h
        by_cases hn : segs.length = 0
        · simp only [hn, if_true]; exact Step.rootOnly fd hn
        · simp only [hn, if_false]; exact Step.rootOpened fd hn
    · simp at h
  · rename_i i fd ds fd1 p m r
    simp only [step] at h
    split at h
    · rename_i hc
      obtain ⟨rfl, hs, rfl⟩ := hc
      cases r with
      | none => simp only [Option.some.injEq] at h; subst h; exact Step.mkdirMade i _ ds p hs
      | some e =>
        by_cases he : e = EEXIST
        · simp only [he, if_true, Option.some.injEq] at h; subst h; subst he
          exact Step.mkdirExists i _ ds p hs
        · simp only [he, if_false, Option.some.injEq] at h; subst h
          exact Step.mkdirFailed i _ ds p e hs he
    · simp at h
  · rename_i i fd ds made fd1 p fl m r
    simp only [step] at h
    split at h
    · rename_i hc
      obtain ⟨rfl, hs, rfl, rfl⟩ := hc
      cases r with
      | err e => simp only [Option.some.injEq] at h; subst h; exact Step.openatFailed i _ ds made p e hs
      | ok hh =>
        simp only [Option.some.injEq] at h; subst h
        cases made with
        | true => exact Step.openatMade i _ ds p hh hs
        | false => exact Step.openatExisting i _ ds p hh hs
    · simp at h
  · rename_i i fd ds hh h1 u g r
    simp only [step] at h
    split at h
    · rename_i hc
      obtain ⟨rfl, rfl, rfl⟩ := hc
      cases r with
      | none => simp only [Option.some.injEq] at h; subst h; exact Step.fchownDone i fd ds _
      | some e =>
        simp only at h
        split at h
        · rename_i s hs
          simp only [Option.some.injEq] at h; subst h
          exact Step.fchownFailed i fd ds _ s e hs
        · simp at h
    · simp at h
  · rename_i d ds k d1
    simp only [step] at h
    split at h
    · rename_i hc
      subst hc
      simp only [Option.some.injEq] at h; subst h
      exact Step.closed _ ds k
    · simp at h

theorem ledger_step (segs : List String) (perm : Nat) (uid gid : Int) (s s1 : St) (c : Call)
    (cs : List Call) (h : step segs perm uid gid s c = some s1) :
    ledger (openOf s) (c :: cs) = ledger (openOf s1) cs := by
  cases Step_of_step segs perm uid gid s s1 c h with
  | closed d ds k =>
    cases k with
    | finish r =>
      rw [openOf_unwindTo_finish]
      simp [ledger, openOf]
    | final fd =>
      rw [openOf_unwindTo_final]
      simp only [ledger, openOf]
      by_cases hfd : fd = d
      · subst hfd; simp
      · have : (fd :: d :: ds).erase d = fd :: ds := by
          rw [List.erase_cons_tail (by simpa using hfd)]; simp
        simp [this]
  | _ =>
    try simp only [openOf_unwindTo_finish, openOf_unwindTo_final, openOf_afterSegment]
    simp [ledger, openOf, Call.opened]

theorem ledger_runMon (segs : List String) (perm : Nat) (uid gid : Int) (T : List Call) :
    ∀ (s t : St), runMon segs perm uid gid s T = some t →
      ledger (openOf s) T = some (openOf t) := by
  induction T with
  | nil => intro s t h; simp only [runMon, Option.some.injEq] at h; subst h; rfl
  | cons c cs ih =>
    intro s t h
    simp only [runMon] at h
    rcases h2 : step segs perm uid gid s c with _ | s2
    · simp [h2] at h
    · rw [h2] at h
      rw [ledger_step segs perm uid gid s s2 c cs h2]
      exact ih s2 t h

/-! ## Runs of `secureMkdirAll` -/

theorem secureMkdirAll_relative (sys : Sys σ) (w : World σ) (name : String) (perm : Nat)
    (uid gid : Int) (h : isAbs name = false) :
    secureMkdirAll sys w name perm uid gid = (w, some (Error.relativePath name)) := by
  simp [secureMkdirAll, h]

theorem callsOf_relative (sys : Sys σ) (w : World σ) (name : String) (perm : Nat)
    (uid gid : Int) (h : isAbs name = false) : callsOf sys w name perm uid gid = [] := by
  simp [callsOf, secureMkdirAll_relative sys w name perm uid gid h]

theorem callsOf_protocol (sys : Sys σ) (w : World σ) (name : String) (perm : Nat)
    (uid gid : Int) (h : isAbs name = true) :
    runMon (segmentsOf name) perm uid gid St.start (callsOf sys w name perm uid gid) =
      some (St.done (secureMkdirAll sys w name perm uid gid).2) := by
  obtain ⟨T, hT, hm⟩ := secureMkdirAllSegments_protocol sys w (segmentsOf name) perm uid gid
  have he : secureMkdirAll sys w name perm uid gid =
      secureMkdirAllSegments sys w (segmentsOf name) perm uid gid := by
    simp [secureMkdirAll, h]
  have hc : callsOf sys w name perm uid gid = T := by
    simp [callsOf, he, hT]
  rw [hc, he]
  exact hm

theorem trace_eq_append_callsOf (sys : Sys σ) (w : World σ) (name : String) (perm : Nat)
    (uid gid : Int) :
    (secureMkdirAll sys w name perm uid gid).1.trace =
      w.trace ++ callsOf sys w name perm uid gid := by
  cases h : isAbs name with
  | false => simp [callsOf, secureMkdirAll_relative sys w name perm uid gid h]
  | true =>
    obtain ⟨T, hT, _⟩ := secureMkdirAllSegments_protocol sys w (segmentsOf name) perm uid gid
    have he : secureMkdirAll sys w name perm uid gid =
        secureMkdirAllSegments sys w (segmentsOf name) perm uid gid := by
      simp [secureMkdirAll, h]
    simp [callsOf, he, hT]

/-! ## The claims -/

/-- Claim C1: for every name that is not an absolute path, and every perm, uid and
gid, `secureMkdirAll` returns an error (the relative-path error) and issues no
call at all: the environment and the record of calls are returned unchanged. -/
theorem secureMkdirAll_rejects_relative (sys : Sys σ) (w : World σ) (name : String)
    (perm : Nat) (uid gid : Int) (h : isAbs name = false) :
    (secureMkdirAll sys w name perm uid gid).2 = some (Error.relativePath name) ∧
      (secureMkdirAll sys w name perm uid gid).1 = w ∧
      callsOf sys w name perm uid gid = [] := by
  refine ⟨?_, ?_, callsOf_relative sys w name perm uid gid h⟩ <;>
    simp [secureMkdirAll_relative sys w name perm uid gid h]

/-- Claim C1 on a concrete input: the relative name `snap/data` against a scripted
environment. -/
theorem secureMkdirAll_rejects_relative_witness :
    isAbs "snap/data" = false ∧
      (secureMkdirAll scriptSys ⟨[3, 0, 4], []⟩ "snap/data" 493 0 0).2 =
        some (Error.relativePath "snap/data") ∧
      (secureMkdirAll scriptSys ⟨[3, 0, 4], []⟩ "snap/data" 493 0 0).1 = ⟨[3, 0, 4], []⟩ ∧
      callsOf scriptSys ⟨[3, 0, 4], []⟩ "snap/data" 493 0 0 = [] :=
  ⟨by decide, secureMkdirAll_rejects_relative scriptSys ⟨[3, 0, 4], []⟩ "snap/data" 493 0 0
    (by decide)⟩

theorem ledger_perm (T : List Call) :
    ∀ (held left : List Int), ledger held T = some left →
      List.Perm (T.filterMap Call.opened ++ held) (T.filterMap Call.closed ++ left) := by
  induction T with
  | nil => intro held left h; simp only [ledger, Option.some.injEq] at h; subst h; simp
  | cons c cs ih =>
    intro held left h
    cases c with
    | sysClose fd =>
      simp only [ledger] at h
      split at h
      · rename_i hmem
        have h1 := ih _ _ h
        have h2 : List.Perm held (fd :: held.erase fd) := List.perm_cons_erase hmem
        simp only [List.filterMap_cons, Call.opened, Call.closed, List.cons_append]
        refine (List.Perm.append_left _ h2).trans ?_
        exact List.perm_middle.trans (List.Perm.cons fd h1)
      · simp at h
    | sysOpen p fl m r =>
      cases r with
      | ok fd =>
        simp only [ledger, Call.opened] at h
        have h1 := ih _ _ h
        simp only [List.filterMap_cons, Call.opened, Call.closed, List.cons_append]
        exact List.perm_middle.symm.trans h1
      | err e =>
        simp only [ledger, Call.opened] at h
        simpa [List.filterMap_cons, Call.opened, Call.closed] using ih _ _ h
    | sysOpenat d p fl m r =>
      cases r with
      | ok fd =>
        simp only [ledger, Call.opened] at h
        have h1 := ih _ _ h
        simp only [List.filterMap_cons, Call.opened, Call.closed, List.cons_append]
        exact List.perm_middle.symm.trans h1
      | err e =>
        simp only [ledger, Call.opened] at h
        simpa [List.filterMap_cons, Call.opened, Call.closed] using ih _ _ h
    | sysMkdirat d p m r =>
      simp only [ledger, Call.opened] at h
      simpa [List.filterMap_cons, Call.opened, Call.closed] using ih _ _ h
    | sysFchown d u g r =>
      simp only [ledger, Call.opened] at h
      simpa [List.filterMap_cons, Call.opened, Call.closed] using ih _ _ h

/-- Claim C5: whatever the name and whatever the environment answers (success, or
failure of the root open, of any mkdirat, openat or fchown), when `secureMkdirAll`
returns the ledger of its calls is balanced: every `sysClose` was issued on a
handle open at that moment (returned by a successful `sysOpen` or `sysOpenat` of
this run and not closed since), and no handle is left open.  Hence the handles
passed to `sysClose` are, with multiplicity, exactly the handles returned by the
successful opens. -/
theorem secureMkdirAll_handles_balanced (sys : Sys σ) (w : World σ) (name : String)
    (perm : Nat) (uid gid : Int) :
    ledger [] (callsOf sys w name perm uid gid) = some [] ∧
      List.Perm ((callsOf sys w name perm uid gid).filterMap Call.closed)
        ((callsOf sys w name perm uid gid).filterMap Call.opened) := by
  have hl : ledger [] (callsOf sys w name perm uid gid) = some [] := by
    cases h : isAbs name with
    | false => simp [callsOf_relative sys w name perm uid gid h, ledger]
    | true =>
      have := ledger_runMon _ _ _ _ _ _ _ (callsOf_protocol sys w name perm uid gid h)
      simpa [openOf] using this
  refine ⟨hl, ?_⟩
  have := ledger_perm _ _ _ hl
  simpa using this.symm

/-! ## After a failure only deferred closes follow -/

theorem failing_unwindTo (segs : List String) (ds : List Int) (e : Error) :
    failing (unwindTo segs ds (After.finish (some e))) = true ∧
      verdict (unwindTo segs ds (After.finish (some e))) = some e := by
  cases ds <;> exact ⟨rfl, rfl⟩

theorem failing_run (segs : List String) (perm : Nat) (uid gid : Int) (post : List Call) :
    ∀ (s t : St), failing s = true → runMon segs perm uid gid s post = some t →
      failing t = true ∧ verdict t = verdict s ∧ ∀ c ∈ post, c.isClose = true := by
  induction post with
  | nil =>
    intro s t hf h
    simp only [runMon, Option.some.injEq] at h
    subst h
    exact ⟨hf, rfl, by simp⟩
  | cons c cs ih =>
    intro s t hf h
    simp only [runMon] at h
    rcases h2 : step segs perm uid gid s c with _ | s2
    · simp [h2] at h
    · rw [h2] at h
      cases Step_of_step segs perm uid gid s s2 c h2 with
      | closed d ds k =>
        cases k with
        | final fd => simp [failing] at hf
        | finish r =>
          cases r with
          | none => simp [failing] at hf
          | some e =>
            obtain ⟨h3, h4, h5⟩ := ih _ t (failing_unwindTo segs ds e).1 h
            refine ⟨h3, ?_, ?_⟩
            · rw [h4, (failing_unwindTo segs ds e).2]; rfl
            · intro c hc
              rcases List.mem_cons.1 hc with rfl | hc
              · rfl
              · exact h5 c hc
      | _ => simp [failing] at hf

theorem failing_done (segs : List String) (perm : Nat) (uid gid : Int) (post : List Call)
    (s : St) (res : Option Error) (e : Error) (hf : failing s = true)
    (hv : verdict s = some e) (h : runMon segs perm uid gid s post = some (St.done res)) :
    res = some e ∧ ∀ c ∈ post, c.isClose = true := by
  obtain ⟨_, h2, h3⟩ := failing_run segs perm uid gid post s _ hf h
  refine ⟨?_, h3⟩
  rw [hv] at h2
  simpa [verdict] using h2

/-! ## A run fails exactly at its first call that is not accepted -/

theorem failing_unwindTo_eq (segs : List String) (d : Int) (ds : List Int) (k : After) :
    failing (unwindTo segs ds k) = failing (St.unwind d ds k) := by
  rcases k with (_ | e) | fd <;> cases ds <;> rfl

theorem failing_afterSegment (segs : List String) (i : Nat) (ds : List Int) (h : Int) :
    failing (afterSegment segs i ds h) = false := by
  unfold afterSegment
  split
  · rfl
  · split
    · rfl
    · cases ds <;> rfl

theorem accepted_step (segs : List String) (perm : Nat) (uid gid : Int) (s s1 : St) (c : Call)
    (h : Step segs perm uid gid s c s1) :
    failing s1 = false ↔ (failing s = false ∧ c.accepted = true) := by
  cases h with
  | closed d ds k => rw [failing_unwindTo_eq segs d ds k]; simp [Call.accepted]
  | mkdirFailed i fd ds s e hs he =>
    rw [(failing_unwindTo segs ds _).1]; simp [failing, Call.accepted, he]
  | openatFailed i fd ds made s e hs =>
    rw [(failing_unwindTo segs ds _).1]; simp [failing, Call.accepted]
  | openatExisting i fd ds s h hs =>
    rw [failing_afterSegment]; simp [failing, Call.accepted]
  | fchownDone i fd ds h =>
    rw [failing_afterSegment]; simp [failing, Call.accepted]
  | _ => simp [failing, Call.accepted]

theorem accepted_invariant (segs : List String) (perm : Nat) (uid gid : Int) (T : List Call)
    (t : St) (h : runMon segs perm uid gid St.start T = some t) :
    failing t = false ↔ ∀ c ∈ T, c.accepted = true := by
  have := runMon_invariant segs perm uid gid
    (fun T s => failing s = false ↔ ∀ c ∈ T, c.accepted = true)
    (by
      intro T s c s1 hinv hstep
      rw [accepted_step segs perm uid gid s s1 c (Step_of_step _ _ _ _ _ _ _ hstep), hinv]
      simp only [List.mem_append, List.mem_singleton]
      constructor
      · rintro ⟨h1, h2⟩ x (hx | rfl)
        · exact h1 x hx
        · exact h2
      · intro h3
        exact ⟨fun x hx => h3 x (Or.inl hx), h3 c (Or.inr rfl)⟩)
    [] St.start T t (by simp [failing]) h
  simpa using this

/-! ## Which segment a call belongs to -/

theorem posInv_unwindTo_final (segs : List String) (T : List Call) (ds : List Int) (fd : Int)
    (h : posAt segs T (segs.length - 1) (segs.length - 1) fd) (hn : 0 < segs.length) :
    posInv segs T (unwindTo segs ds (After.final fd)) := by
  cases ds with
  | nil => exact ⟨h, by omega, rfl⟩
  | cons d ds => exact ⟨h, hn⟩

theorem posInv_afterSegment (segs : List String) (T : List Call) (i : Nat) (ds : List Int)
    (h : Int) (hp : posAt segs T (i + 1) (i + 1) h) (hi : i < segs.length) :
    posInv segs T (afterSegment segs i ds h) := by
  unfold afterSegment
  split
  · trivial
  · split
    · rename_i h1 h2
      exact ⟨hp, by omega, rfl⟩
    · rename_i h1 h2
      have : segs.length - 1 = i + 1 := by omega
      exact posInv_unwindTo_final segs T ds h (by rw [this]; exact hp) (by omega)

theorem openCall_snoc_none (T : List Call) (c : Call) (h : c.openCall = none) :
    (T ++ [c]).filterMap Call.openCall = T.filterMap Call.openCall := by
  simp [List.filterMap_append, h]

theorem openCall_snoc_some (T : List Call) (c : Call) (x : String × FdResult)
    (h : c.openCall = some x) :
    (T ++ [c]).filterMap Call.openCall = T.filterMap Call.openCall ++ [x] := by
  simp [List.filterMap_append, h]

theorem openCall_snoc_mkdirat (T : List Call) (fd : Int) (p : String) (m : Nat)
    (r : Option Errno) :
    (T ++ [Call.sysMkdirat fd p m r]).filterMap Call.openCall = T.filterMap Call.openCall :=
  openCall_snoc_none T _ rfl

theorem openCall_snoc_openat (T : List Call) (fd : Int) (p : String) (fl m : Nat)
    (r : FdResult) :
    (T ++ [Call.sysOpenat fd p fl m r]).filterMap Call.openCall =
      T.filterMap Call.openCall ++ [(p, r)] :=
  openCall_snoc_some T _ _ rfl

theorem posAt_append_other (segs : List String) (T : List Call) (a b : Nat) (fd : Int) (c : Call)
    (hp : posAt segs T a b fd) (h1 : c.isOpenat = false) (h2 : c.isMkdirat = false)
    (h3 : c.openCall = none) : posAt segs (T ++ [c]) a b fd := by
  obtain ⟨p1, p2, p3, p4⟩ := hp
  refine ⟨?_, ?_, ?_, ?_⟩
  · simp [List.countP_append, p1, h1]
  · simp [List.countP_append, p2, h2]
  · rw [openCall_snoc_none T c h3]; exact p3
  · rw [openCall_snoc_none T c h3]; exact p4

theorem posInv_step (segs : List String) (perm : Nat) (uid gid : Int) (T : List Call)
    (s s1 : St) (c : Call) (hinv : posInv segs T s) (h : Step segs perm uid gid s c s1) :
    posInv segs (T ++ [c]) s1 := by
  cases h with
  | rootFailed e => trivial
  | rootOnly fd hn => trivial
  | rootOpened fd hn =>
    simp only [posInv] at hinv
    subst hinv
    refine ⟨⟨?_, ?_, ?_, ?_⟩, by omega, rfl⟩ <;> simp [Call.isOpenat, Call.isMkdirat, Call.openCall]
  | mkdirMade i fd ds s hs =>
    obtain ⟨⟨p1, p2, p3, p4⟩, hi, hd⟩ := hinv
    refine ⟨⟨?_, ?_, ?_, ?_⟩, hi, hd⟩
    · simp [List.countP_append, p1, Call.isOpenat]
    · simp [List.countP_append, p2, Call.isMkdirat]
    · rw [openCall_snoc_mkdirat]; exact p3
    · rw [openCall_snoc_mkdirat]; exact p4
  | mkdirExists i fd ds s hs =>
    obtain ⟨⟨p1, p2, p3, p4⟩, hi, hd⟩ := hinv
    refine ⟨⟨?_, ?_, ?_, ?_⟩, hi, hd⟩
    · simp [List.countP_append, p1, Call.isOpenat]
    · simp [List.countP_append, p2, Call.isMkdirat]
    · rw [openCall_snoc_mkdirat]; exact p3
    · rw [openCall_snoc_mkdirat]; exact p4
  | mkdirFailed i fd ds s e hs he =>
    cases ds <;> trivial
  | openatFailed i fd ds made s e hs =>
    cases ds <;> trivial
  | openatMade i fd ds s h hs =>
    obtain ⟨⟨p1, p2, p3, p4⟩, hi, hd⟩ := hinv
    refine ⟨⟨?_, ?_, ?_, ?_⟩, hi⟩
    · simp [List.countP_append, p1, Call.isOpenat]
    · simp [List.countP_append, p2, Call.isMkdirat]
    · rw [openCall_snoc_openat]
      simp [p3, List.take_succ, hs]
    · rw [openCall_snoc_openat]
      simp
  | openatExisting i fd ds s h hs =>
    obtain ⟨⟨p1, p2, p3, p4⟩, hi, hd⟩ := hinv
    refine posInv_afterSegment segs _ i ds h ⟨?_, ?_, ?_, ?_⟩ hi
    · simp [List.countP_append, p1, Call.isOpenat]
    · simp [List.countP_append, p2, Call.isMkdirat]
    · rw [openCall_snoc_openat]
      simp [p3, List.take_succ, hs]
    · rw [openCall_snoc_openat]
      simp
  | fchownFailed i fd ds h s e hs => trivial
  | fchownDone i fd ds h =>
    obtain ⟨hp, hi⟩ := hinv
    exact posInv_afterSegment segs _ i ds h (posAt_append_other segs T _ _ h _ hp rfl rfl rfl) hi
  | closed d ds k =>
    cases k with
    | finish r => cases ds <;> trivial
    | final fd =>
      obtain ⟨hp, hn⟩ := hinv
      exact posInv_unwindTo_final segs _ ds fd (posAt_append_other segs T _ _ fd _ hp rfl rfl rfl) hn

theorem posInv_run (segs : List String) (perm : Nat) (uid gid : Int) (T : List Call) (t : St)
    (h : runMon segs perm uid gid St.start T = some t) : posInv segs T t := by
  have := runMon_invariant segs perm uid gid (fun T s => posInv segs T s)
    (fun T s c s1 hinv hstep =>
      posInv_step segs perm uid gid T s s1 c hinv (Step_of_step _ _ _ _ _ _ _ hstep))
    [] St.start T t rfl h
  simpa using this

theorem isAbs_of_call (sys : Sys σ) (w : World σ) (name : String) (perm : Nat) (uid gid : Int)
    (pre post : List Call) (c : Call)
    (h : callsOf sys w name perm uid gid = pre ++ c :: post) : isAbs name = true := by
  cases ha : isAbs name with
  | true => rfl
  | false =>
    rw [callsOf_relative sys w name perm uid gid ha] at h
    simp at h

/-- Claim C2: if in a run of `secureMkdirAll` a `sysMkdirat` fails with `EROFS`, and
`k` calls of `sysMkdirat` were issued before it (so that it is the mkdirat of
segment `k`), then: it was issued on segment `k`; every call before it was
accepted (the root open and all calls for the segments before `k` succeeded, a
mkdirat possibly with `EEXIST`); `secureMkdirAll` returns the `ReadOnlyFsError`
whose `Path` is `"/"` followed by the segments before `k` joined with `"/"`; and
only `sysClose` calls follow, so nothing is created or opened for segment `k` or
any later one. -/
theorem secureMkdirAll_readonly_propagation (sys : Sys σ) (w : World σ) (name : String)
    (perm : Nat) (uid gid : Int) (pre post : List Call) (fd : Int) (s : String) (m : Nat)
    (k : Nat) (hk : pre.countP Call.isMkdirat = k)
    (hsplit : callsOf sys w name perm uid gid =
      pre ++ Call.sysMkdirat fd s m (some EROFS) :: post) :
    k < (segmentsOf name).length ∧ (segmentsOf name)[k]? = some s ∧
      (∀ c ∈ pre, c.accepted = true) ∧
      (secureMkdirAll sys w name perm uid gid).2 =
        some (Error.ReadOnlyFsError ("/" ++ "/".intercalate ((segmentsOf name).take k))) ∧
      (∀ c ∈ post, c.isClose = true) := by
  have habs := isAbs_of_call sys w name perm uid gid _ _ _ hsplit
  have hrun := callsOf_protocol sys w name perm uid gid habs
  rw [hsplit] at hrun
  obtain ⟨s1, s2, h1, h2, h3⟩ := runMon_split _ _ _ _ _ _ _ _ _ hrun
  have hpos := posInv_run _ _ _ _ _ _ h1
  have hacc := accepted_invariant _ _ _ _ _ _ h1
  cases s1 <;> (try (simp [step] at h2; done))
  rename_i i fd1 ds
  simp only [step] at h2
  split at h2
  · rename_i hc
    obtain ⟨rfl, hs, rfl⟩ := hc
    have hne : ¬ (EROFS = EEXIST) := by decide
    simp only [hne, if_false, Option.some.injEq] at h2
    subst h2
    obtain ⟨⟨_, p2, _, _⟩, hi, _⟩ := hpos
    have hik : i = k := by rw [← hk, p2]
    subst hik
    have hf := failing_unwindTo (segmentsOf name) ds (mkdirError (segmentsOf name) i s EROFS)
    obtain ⟨h4, h5⟩ := failing_done _ _ _ _ _ _ _ _ hf.1 hf.2 h3
    refine ⟨hi, hs, hacc.1 rfl, ?_, h5⟩
    rw [h4]
    simp [mkdirError, gotUpTo]
  · simp at h2

/-- Claim C2 on a concrete run: `/snap/data/x` where `snap` exists and the mkdirat of
`data` reports `EROFS`; the error carries the path `/snap`. -/
theorem secureMkdirAll_readonly_propagation_witness :
    List.countP Call.isMkdirat
        [Call.sysOpen "/" openFlags 0 (FdResult.ok 3), Call.sysMkdirat 3 "snap" 493 (some EEXIST),
          Call.sysOpenat 3 "snap" openFlags 0 (FdResult.ok 4)] = 1 ∧
      callsOf scriptSys ⟨[3, -17, 4, -30], []⟩ "/snap/data/x" 493 0 0 =
        [Call.sysOpen "/" openFlags 0 (FdResult.ok 3), Call.sysMkdirat 3 "snap" 493 (some EEXIST),
          Call.sysOpenat 3 "snap" openFlags 0 (FdResult.ok 4)] ++
        Call.sysMkdirat 4 "data" 493 (some EROFS) :: [Call.sysClose 4, Call.sysClose 3] ∧
      (secureMkdirAll scriptSys ⟨[3, -17, 4, -30], []⟩ "/snap/data/x" 493 0 0).2 =
        some (Error.ReadOnlyFsError ("/" ++ "/".intercalate ((segmentsOf "/snap/data/x").take 1))) :=
  ⟨by decide, by decide,
    (secureMkdirAll_readonly_propagation scriptSys ⟨[3, -17, 4, -30], []⟩ "/snap/data/x" 493 0 0
      [Call.sysOpen "/" openFlags 0 (FdResult.ok 3), Call.sysMkdirat 3 "snap" 493 (some EEXIST),
        Call.sysOpenat 3 "snap" openFlags 0 (FdResult.ok 4)]
      [Call.sysClose 4, Call.sysClose 3] 4 "data" 493 1 (by decide) (by decide)).2.2.2.1⟩

/-! ## Ownership changes -/

theorem quiet_unwindTo (segs : List String) (ds : List Int) (k : After) :
    quiet (unwindTo segs ds k) = true := by
  cases ds <;> cases k <;> rfl

theorem quiet_afterSegment (segs : List String) (i : Nat) (ds : List Int) (h : Int) :
    quiet (afterSegment segs i ds h) = true := by
  unfold afterSegment
  split
  · rfl
  · split
    · rfl
    · exact quiet_unwindTo segs ds _

/-- From a state between two segments no `sysFchown` is issued before the next
`sysMkdirat`. -/
theorem quiet_run (segs : List String) (perm : Nat) (uid gid : Int) (post : List Call) :
    ∀ (s t : St), quiet s = true → runMon segs perm uid gid s post = some t →
      (post.takeWhile (fun c => !c.isMkdirat)).filterMap Call.fchownArgs = [] := by
  induction post with
  | nil => intro s t _ _; rfl
  | cons c cs ih =>
    intro s t hq h
    simp only [runMon] at h
    rcases h2 : step segs perm uid gid s c with _ | s2
    · simp [h2] at h
    · rw [h2] at h
      cases Step_of_step segs perm uid gid s s2 c h2 with
      | closed d ds k =>
        have := ih _ t (quiet_unwindTo segs ds k) h
        simpa [List.takeWhile_cons, Call.isMkdirat, Call.fchownArgs] using this
      | mkdirMade i fd ds s hs => simp [List.takeWhile_cons, Call.isMkdirat]
      | mkdirExists i fd ds s hs => simp [List.takeWhile_cons, Call.isMkdirat]
      | mkdirFailed i fd ds s e hs he => simp [List.takeWhile_cons, Call.isMkdirat]
      | _ => simp [quiet] at hq

theorem runMon_cons (segs : List String) (perm : Nat) (uid gid : Int) (s t : St) (c : Call)
    (cs : List Call) (h : runMon segs perm uid gid s (c :: cs) = some t) :
    ∃ s2, Step segs perm uid gid s c s2 ∧ runMon segs perm uid gid s2 cs = some t := by
  simp only [runMon] at h
  rcases h2 : step segs perm uid gid s c with _ | s2
  · simp [h2] at h
  · rw [h2] at h
    exact ⟨s2, Step_of_step _ _ _ _ _ _ _ h2, h⟩

/-- The calls that follow the `sysMkdirat` of a segment, up to the next
`sysMkdirat`, contain a `sysFchown` exactly when the segment was made and then
opened: one call, on the handle just opened, with the requested owner. -/
theorem fchown_after_mkdirat (segs : List String) (perm : Nat) (uid gid : Int) (i : Nat)
    (fd : Int) (ds : List Int) (made : Bool) (post : List Call) (res : Option Error)
    (hrun : runMon segs perm uid gid (St.op i fd ds made) post = some (St.done res)) :
    (post.takeWhile (fun c => !c.isMkdirat)).filterMap Call.fchownArgs =
      expectedFchown uid gid (if made then none else some EEXIST) post.head? := by
  cases post with
  | nil => simp [runMon] at hrun
  | cons c cs =>
    obtain ⟨s2, hstep, hrest⟩ := runMon_cons _ _ _ _ _ _ _ _ hrun
    cases hstep with
    | openatFailed _ _ _ _ s1 e hs1 =>
      have := quiet_run segs perm uid gid cs _ _ (quiet_unwindTo segs ds _) hrest
      cases made <;>
        simpa [List.takeWhile_cons, Call.isMkdirat, Call.fchownArgs, expectedFchown] using this
    | openatExisting _ _ _ s1 h1 hs1 =>
      have := quiet_run segs perm uid gid cs _ _ (quiet_afterSegment segs i ds h1) hrest
      simpa [List.takeWhile_cons, Call.isMkdirat, Call.fchownArgs, expectedFchown] using this
    | openatMade _ _ _ s1 h1 hs1 =>
      cases cs with
      | nil => simp [runMon] at hrest
      | cons c2 cs2 =>
        obtain ⟨s3, hstep3, hrest3⟩ := runMon_cons _ _ _ _ _ _ _ _ hrest
        cases hstep3 with
        | fchownFailed _ _ _ _ s2 e hs2 =>
          have := quiet_run segs perm uid gid cs2 _ _ (by rfl) hrest3
          simpa [List.takeWhile_cons, Call.isMkdirat, Call.fchownArgs, expectedFchown] using this
        | fchownDone _ _ _ _ =>
          have := quiet_run segs perm uid gid cs2 _ _ (quiet_afterSegment segs i ds h1) hrest3
          simpa [List.takeWhile_cons, Call.isMkdirat, Call.fchownArgs, expectedFchown] using this

theorem openat_follows_mkdirat (segs : List String) (perm : Nat) (uid gid : Int) (i : Nat)
    (fd : Int) (ds : List Int) (made : Bool) (post : List Call) (res : Option Error)
    (h : runMon segs perm uid gid (St.op i fd ds made) post = some (St.done res)) :
    ∃ s r2, segs[i]? = some s ∧ post.head? = some (Call.sysOpenat fd s openFlags 0 r2) := by
  cases post with
  | nil => simp [runMon] at h
  | cons c cs =>
    obtain ⟨s2, hstep, _⟩ := runMon_cons _ _ _ _ _ _ _ _ h
    cases hstep with
    | openatFailed _ _ _ _ s1 e hs1 => exact ⟨s1, _, hs1, rfl⟩
    | openatExisting _ _ _ s1 h1 hs1 => exact ⟨s1, _, hs1, rfl⟩
    | openatMade _ _ _ s1 h1 hs1 => exact ⟨s1, _, hs1, rfl⟩

/-- Claim C3: ownership is applied only on creation.  In every run of
`secureMkdirAll` no `sysFchown` is issued before the first `sysMkdirat` (none on
the root handle), and for the `sysMkdirat` of each segment (the `k`-th one is
issued on segment `k`): when it succeeded or reported `EEXIST` the next call is
the `sysOpenat` of the same segment under the same handle; and the calls up to
the next `sysMkdirat` contain a `sysFchown` if and only if the mkdirat succeeded
and that openat succeeded, in which case there is exactly one, on the handle the
openat returned, with exactly the requested uid and gid.  After `EEXIST` (or any
failure) there is none. -/
theorem secureMkdirAll_chown_only_created (sys : Sys σ) (w : World σ) (name : String)
    (perm : Nat) (uid gid : Int) :
    ((callsOf sys w name perm uid gid).takeWhile (fun c => !c.isMkdirat)).filterMap
        Call.fchownArgs = [] ∧
      ∀ (pre post : List Call) (fd : Int) (s : String) (m : Nat) (r : Option Errno),
        callsOf sys w name perm uid gid = pre ++ Call.sysMkdirat fd s m r :: post →
        (segmentsOf name)[pre.countP Call.isMkdirat]? = some s ∧
        ((r = none ∨ r = some EEXIST) →
          ∃ r2, post.head? = some (Call.sysOpenat fd s openFlags 0 r2)) ∧
        (post.takeWhile (fun c => !c.isMkdirat)).filterMap Call.fchownArgs =
          expectedFchown uid gid r post.head? := by
  constructor
  · cases habs : isAbs name with
    | false => simp [callsOf_relative sys w name perm uid gid habs]
    | true =>
      have hrun := callsOf_protocol sys w name perm uid gid habs
      cases hc : callsOf sys w name perm uid gid with
      | nil => rfl
      | cons c cs =>
        rw [hc] at hrun
        obtain ⟨s2, hstep, hrest⟩ := runMon_cons _ _ _ _ _ _ _ _ hrun
        cases hstep with
        | rootFailed e =>
          have := quiet_run _ _ _ _ cs _ _ (by rfl) hrest
          simpa [List.takeWhile_cons, Call.isMkdirat, Call.fchownArgs] using this
        | rootOnly fd hn =>
          have := quiet_run _ _ _ _ cs _ _ (by rfl) hrest
          simpa [List.takeWhile_cons, Call.isMkdirat, Call.fchownArgs] using this
        | rootOpened fd hn =>
          have := quiet_run _ _ _ _ cs _ _ (by rfl) hrest
          simpa [List.takeWhile_cons, Call.isMkdirat, Call.fchownArgs] using this
  · intro pre post fd s m r hsplit
    have habs := isAbs_of_call sys w name perm uid gid _ _ _ hsplit
    have hrun := callsOf_protocol sys w name perm uid gid habs
    rw [hsplit] at hrun
    obtain ⟨s1, s2, h1, h2, h3⟩ := runMon_split _ _ _ _ _ _ _ _ _ hrun
    have hpos := posInv_run _ _ _ _ _ _ h1
    cases Step_of_step _ _ _ _ _ _ _ h2 with
    | mkdirMade i _ ds _ hs =>
      obtain ⟨⟨_, p2, _, _⟩, _, _⟩ := hpos
      obtain ⟨s0, r2, hs0, hhead⟩ := openat_follows_mkdirat _ _ _ _ _ _ _ _ _ _ h3
      have hss : s0 = s := by rw [hs] at hs0; exact (Option.some.inj hs0).symm
      subst hss
      exact ⟨by rw [p2]; exact hs, fun _ => ⟨r2, hhead⟩,
        fchown_after_mkdirat _ _ _ _ _ _ _ _ _ _ h3⟩
    | mkdirExists i _ ds _ hs =>
      obtain ⟨⟨_, p2, _, _⟩, _, _⟩ := hpos
      obtain ⟨s0, r2, hs0, hhead⟩ := openat_follows_mkdirat _ _ _ _ _ _ _ _ _ _ h3
      have hss : s0 = s := by rw [hs] at hs0; exact (Option.some.inj hs0).symm
      subst hss
      refine ⟨by rw [p2]; exact hs, fun _ => ⟨r2, hhead⟩, ?_⟩
      have := fchown_after_mkdirat _ _ _ _ _ _ _ _ _ _ h3
      simpa using this
    | mkdirFailed i _ ds _ e hs he =>
      obtain ⟨⟨_, p2, _, _⟩, _, _⟩ := hpos
      refine ⟨by rw [p2]; exact hs, ?_, ?_⟩
      · rintro (h | h)
        · cases h
        · exact absurd (Option.some.inj h) he
      · rw [quiet_run _ _ _ _ post _ _ (quiet_unwindTo _ ds _) h3]
        simp [expectedFchown]

/-- Claim C3 on a concrete run: `/snap/data` where `snap` is made and `data` exists. -/
theorem secureMkdirAll_chown_only_created_witness :
    callsOf scriptSys ⟨[3, 0, 4, 0, -17, 5], []⟩ "/snap/data" 493 1000 1000 =
        [Call.sysOpen "/" openFlags 0 (FdResult.ok 3)] ++ Call.sysMkdirat 3 "snap" 493 none ::
          [Call.sysOpenat 3 "snap" openFlags 0 (FdResult.ok 4), Call.sysFchown 4 1000 1000 none,
            Call.sysClose 3, Call.sysMkdirat 4 "data" 493 (some EEXIST),
            Call.sysOpenat 4 "data" openFlags 0 (FdResult.ok 5), Call.sysClose 5,
            Call.sysClose 4] ∧
      (segmentsOf "/snap/data")[0]? = some "snap" :=
  ⟨by decide,
    ((secureMkdirAll_chown_only_created scriptSys ⟨[3, 0, 4, 0, -17, 5], []⟩ "/snap/data" 493
      1000 1000).2 [Call.sysOpen "/" openFlags 0 (FdResult.ok 3)]
      [Call.sysOpenat 3 "snap" openFlags 0 (FdResult.ok 4), Call.sysFchown 4 1000 1000 none,
        Call.sysClose 3, Call.sysMkdirat 4 "data" 493 (some EEXIST),
        Call.sysOpenat 4 "data" openFlags 0 (FdResult.ok 5), Call.sysClose 5, Call.sysClose 4]
      3 "snap" 493 none (by decide)).1⟩

/-! ## Flags, failed opens and the first failure -/

theorem flags_step (segs : List String) (perm : Nat) (uid gid : Int) (s s1 : St) (c : Call)
    (fl : Nat) (h : Step segs perm uid gid s c s1) (hfl : c.flags = some fl) :
    fl = openFlags := by
  cases h <;> simp [Call.flags] at hfl <;> exact hfl.symm

/-- Claim C4: symlink resistance.  Every `sysOpen` and `sysOpenat` issued by a run
of `secureMkdirAll` (also those issued inside `secureMkPrefix` and `secureMkDir`)
carries the flags `O_NOFOLLOW|O_CLOEXEC|O_DIRECTORY`; and when the `sysOpenat` of
a segment fails (as it does on a symbolic link, whose mkdirat reported `EEXIST`)
then, with `i` the number of `sysOpenat` calls before it, the call was on segment
`i`, `secureMkdirAll` returns the error for that segment, and only `sysClose`
calls follow: nothing is created, opened or chowned below the link. -/
theorem secureMkdirAll_symlink_resistance (sys : Sys σ) (w : World σ) (name : String)
    (perm : Nat) (uid gid : Int) :
    (∀ c ∈ callsOf sys w name perm uid gid, ∀ fl, c.flags = some fl →
        fl = O_NOFOLLOW ||| O_CLOEXEC ||| O_DIRECTORY) ∧
      ∀ (pre post : List Call) (fd : Int) (s : String) (fl m : Nat) (e : Errno),
        callsOf sys w name perm uid gid =
          pre ++ Call.sysOpenat fd s fl m (FdResult.err e) :: post →
        (segmentsOf name)[pre.countP Call.isOpenat]? = some s ∧
        (secureMkdirAll sys w name perm uid gid).2 =
          some (Error.cannotOpen s
            ("/" ++ "/".intercalate ((segmentsOf name).take (pre.countP Call.isOpenat))) e) ∧
        ∀ c ∈ post, c.isClose = true := by
  constructor
  · intro c hc fl hfl
    obtain ⟨pre, post, hsplit⟩ := List.append_of_mem hc
    have habs := isAbs_of_call sys w name perm uid gid _ _ _ hsplit
    have hrun := callsOf_protocol sys w name perm uid gid habs
    rw [hsplit] at hrun
    obtain ⟨s1, s2, _, h2, _⟩ := runMon_split _ _ _ _ _ _ _ _ _ hrun
    exact flags_step _ _ _ _ _ _ _ _ (Step_of_step _ _ _ _ _ _ _ h2) hfl
  · intro pre post fd s fl m e hsplit
    have habs := isAbs_of_call sys w name perm uid gid _ _ _ hsplit
    have hrun := callsOf_protocol sys w name perm uid gid habs
    rw [hsplit] at hrun
    obtain ⟨s1, s2, h1, h2, h3⟩ := runMon_split _ _ _ _ _ _ _ _ _ hrun
    have hpos := posInv_run _ _ _ _ _ _ h1
    cases Step_of_step _ _ _ _ _ _ _ h2 with
    | openatFailed i _ ds made _ _ hs =>
      obtain ⟨⟨p1, _, _, _⟩, _, _⟩ := hpos
      have hf := failing_unwindTo (segmentsOf name) ds
        (Error.cannotOpen s (gotUpTo (segmentsOf name) i) e)
      obtain ⟨h4, h5⟩ := failing_done _ _ _ _ _ _ _ _ hf.1 hf.2 h3
      refine ⟨by rw [p1]; exact hs, ?_, h5⟩
      rw [h4, p1]
      rfl

/-- Claim C4 on a concrete run: `/snap/link/x` where the openat of `link` fails with
`ELOOP` after its mkdirat reported `EEXIST`. -/
theorem secureMkdirAll_symlink_resistance_witness :
    callsOf scriptSys ⟨[3, -17, 4, -17, -40], []⟩ "/snap/link/x" 493 0 0 =
        [Call.sysOpen "/" openFlags 0 (FdResult.ok 3), Call.sysMkdirat 3 "snap" 493 (some EEXIST),
          Call.sysOpenat 3 "snap" openFlags 0 (FdResult.ok 4),
          Call.sysMkdirat 4 "link" 493 (some EEXIST)] ++
        Call.sysOpenat 4 "link" openFlags 0 (FdResult.err 40) ::
          [Call.sysClose 4, Call.sysClose 3] ∧
      (secureMkdirAll scriptSys ⟨[3, -17, 4, -17, -40], []⟩ "/snap/link/x" 493 0 0).2 =
        some (Error.cannotOpen "link" "/snap" 40) :=
  ⟨by decide, by
    have h := ((secureMkdirAll_symlink_resistance scriptSys ⟨[3, -17, 4, -17, -40], []⟩
      "/snap/link/x" 493 0 0).2
      [Call.sysOpen "/" openFlags 0 (FdResult.ok 3), Call.sysMkdirat 3 "snap" 493 (some EEXIST),
        Call.sysOpenat 3 "snap" openFlags 0 (FdResult.ok 4),
        Call.sysMkdirat 4 "link" 493 (some EEXIST)]
      [Call.sysClose 4, Call.sysClose 3] 4 "link" openFlags 0 40 (by decide)).2.1
    rw [h]
    decide⟩

/-- Claim C8: fail-fast, with `EEXIST` of mkdirat as the only absorbed error.  For
every absolute path the first call is `sysOpen("/")`; `secureMkdirAll` returns
nil if and only if every call was accepted (the root open, every openat and
every fchown succeeded, every mkdirat succeeded or reported `EEXIST`); after the
first call that is not accepted only `sysClose` calls are issued; and the `k`-th
`sysMkdirat` is issued on segment `k`, so no segment is tried twice. -/
theorem secureMkdirAll_fail_fast (sys : Sys σ) (w : World σ) (name : String)
    (perm : Nat) (uid gid : Int) (habs : isAbs name = true) :
    ((secureMkdirAll sys w name perm uid gid).2 = none ↔
        ∀ c ∈ callsOf sys w name perm uid gid, c.accepted = true) ∧
      (∃ r rest, callsOf sys w name perm uid gid = Call.sysOpen "/" openFlags 0 r :: rest) ∧
      (∀ (pre post : List Call) (c : Call), callsOf sys w name perm uid gid = pre ++ c :: post →
        c.accepted = false → ∀ c2 ∈ post, c2.isClose = true) ∧
      (∀ (pre post : List Call) (fd : Int) (s : String) (m : Nat) (r : Option Errno),
        callsOf sys w name perm uid gid = pre ++ Call.sysMkdirat fd s m r :: post →
        (segmentsOf name)[pre.countP Call.isMkdirat]? = some s) := by
  have hrun := callsOf_protocol sys w name perm uid gid habs
  refine ⟨?_, ?_, ?_, ?_⟩
  · have := accepted_invariant _ _ _ _ _ _ hrun
    rw [← this]
    cases (secureMkdirAll sys w name perm uid gid).2 <;> simp [failing]
  · cases hc : callsOf sys w name perm uid gid with
    | nil => rw [hc] at hrun; simp [runMon] at hrun
    | cons c cs =>
      rw [hc] at hrun
      obtain ⟨s2, hstep, _⟩ := runMon_cons _ _ _ _ _ _ _ _ hrun
      cases hstep with
      | rootFailed e => exact ⟨_, _, rfl⟩
      | rootOnly fd hn => exact ⟨_, _, rfl⟩
      | rootOpened fd hn => exact ⟨_, _, rfl⟩
  · intro pre post c hsplit hc
    rw [hsplit] at hrun
    obtain ⟨s1, s2, h1, h2, h3⟩ := runMon_split _ _ _ _ _ _ _ _ _ hrun
    have h12 : runMon (segmentsOf name) perm uid gid St.start (pre ++ [c]) = some s2 := by
      rw [runMon_append, h1]
      simp [runMon, h2]
    have hacc := accepted_invariant _ _ _ _ _ _ h12
    have hf : failing s2 = true := by
      cases hfs : failing s2 with
      | true => rfl
      | false =>
        have := hacc.1 hfs c (by simp)
        rw [hc] at this
        cases this
    exact (failing_run _ _ _ _ post s2 _ hf h3).2.2
  · intro pre post fd s m r hsplit
    rw [hsplit] at hrun
    obtain ⟨s1, s2, h1, h2, h3⟩ := runMon_split _ _ _ _ _ _ _ _ _ hrun
    have hpos := posInv_run _ _ _ _ _ _ h1
    cases Step_of_step _ _ _ _ _ _ _ h2 with
    | mkdirMade i _ ds _ hs =>
      obtain ⟨⟨_, p2, _, _⟩, _, _⟩ := hpos
      rw [p2]; exact hs
    | mkdirExists i _ ds _ hs =>
      obtain ⟨⟨_, p2, _, _⟩, _, _⟩ := hpos
      rw [p2]; exact hs
    | mkdirFailed i _ ds _ e hs he =>
      obtain ⟨⟨_, p2, _, _⟩, _, _⟩ := hpos
      rw [p2]; exact hs

/-- Claim C8 on a concrete run: `/snap/data` against a scripted environment. -/
theorem secureMkdirAll_fail_fast_witness :
    isAbs "/snap/data" = true ∧
      ((secureMkdirAll scriptSys ⟨[3, 0, 4, 0, -17, 5], []⟩ "/snap/data" 493 0 0).2 = none ↔
        ∀ c ∈ callsOf scriptSys ⟨[3, 0, 4, 0, -17, 5], []⟩ "/snap/data" 493 0 0,
          c.accepted = true) :=
  ⟨by decide,
    (secureMkdirAll_fail_fast scriptSys ⟨[3, 0, 4, 0, -17, 5], []⟩ "/snap/data" 493 0 0
      (by decide)).1⟩

/-! ## How many handles are open -/

theorem lenInv_unwindTo_finish (segs : List String) (ds : List Int) (r : Option Error)
    (h : ds.length ≤ max 2 segs.length) : lenInv segs (unwindTo segs ds (After.finish r)) := by
  cases ds with
  | nil => trivial
  | cons d ds => simpa [unwindTo, lenInv] using h

theorem lenInv_unwindTo_final (segs : List String) (ds : List Int) (fd : Int)
    (h : ds.length + 1 ≤ segs.length) : lenInv segs (unwindTo segs ds (After.final fd)) := by
  cases ds with
  | nil =>
    simp only [List.length_nil] at h
    refine ⟨?_, ?_, ?_⟩
    · simp
    · omega
    · simp
  | cons d ds => simpa [unwindTo, lenInv] using h

theorem lenInv_afterSegment (segs : List String) (i : Nat) (ds : List Int) (h : Int)
    (h1 : ds.length ≤ i + 1) (h2 : i < segs.length) (h3 : i + 1 = segs.length → ds.length ≤ 1) :
    lenInv segs (afterSegment segs i ds h) := by
  unfold afterSegment
  split
  · rename_i hlast
    have := h3 hlast
    simp only [unwindTo, lenInv]
    omega
  · split
    · refine ⟨?_, ?_, ?_⟩
      · simp only [List.length_cons]; omega
      · omega
      · omega
    · exact lenInv_unwindTo_final segs ds h (by omega)

theorem lenInv_step (segs : List String) (perm : Nat) (uid gid : Int) (s s1 : St) (c : Call)
    (hinv : lenInv segs s) (h : Step segs perm uid gid s c s1) : lenInv segs s1 := by
  cases h with
  | rootFailed e => trivial
  | rootOnly fd hn => simp [lenInv]
  | rootOpened fd hn =>
    refine ⟨?_, ?_, ?_⟩
    · simp
    · omega
    · simp
  | mkdirMade i fd ds s hs => exact hinv
  | mkdirExists i fd ds s hs => exact hinv
  | mkdirFailed i fd ds s e hs he =>
    obtain ⟨h1, h2, h3⟩ := hinv
    exact lenInv_unwindTo_finish segs ds _ (by omega)
  | openatFailed i fd ds made s e hs =>
    obtain ⟨h1, h2, h3⟩ := hinv
    exact lenInv_unwindTo_finish segs ds _ (by omega)
  | openatMade i fd ds s h hs => exact hinv
  | openatExisting i fd ds s h hs =>
    obtain ⟨h1, h2, h3⟩ := hinv
    exact lenInv_afterSegment segs i ds h h1 h2 h3
  | fchownFailed i fd ds h s e hs =>
    obtain ⟨h1, h2, h3⟩ := hinv
    simp only [lenInv]
    omega
  | fchownDone i fd ds h =>
    obtain ⟨h1, h2, h3⟩ := hinv
    exact lenInv_afterSegment segs i ds h h1 h2 h3
  | closed d ds k =>
    cases k with
    | finish r =>
      simp only [lenInv] at hinv
      exact lenInv_unwindTo_finish segs ds r (by omega)
    | final fd =>
      simp only [lenInv] at hinv
      exact lenInv_unwindTo_final segs ds fd (by omega)

theorem lenInv_bound (segs : List String) (s : St) (h : lenInv segs s) :
    (openOf s).length ≤ max 2 segs.length := by
  cases s with
  | start => simp [openOf]
  | mk i fd ds => obtain ⟨h1, h2, h3⟩ := h; simp only [openOf]; omega
  | op i fd ds made => obtain ⟨h1, h2, h3⟩ := h; simp only [openOf]; omega
  | ch i fd ds hh => obtain ⟨h1, h2, h3⟩ := h; simp only [openOf, List.length_cons]; omega
  | unwind d ds k =>
    cases k with
    | finish r => simp only [lenInv] at h; simp only [openOf, List.length_cons]; omega
    | final fd => simp only [lenInv] at h; simp only [openOf, List.length_cons]; omega
  | done r => simp [openOf]

theorem lenInv_run (segs : List String) (perm : Nat) (uid gid : Int) (T : List Call) (t : St)
    (h : runMon segs perm uid gid St.start T = some t) : lenInv segs t :=
  runMon_invariant segs perm uid gid (fun _ s => lenInv segs s)
    (fun _ s c s1 hinv hstep =>
      lenInv_step segs perm uid gid s s1 c hinv (Step_of_step _ _ _ _ _ _ _ hstep))
    [] St.start T t trivial h

theorem runMon_take (segs : List String) (perm : Nat) (uid gid : Int) (s t : St)
    (T : List Call) (j : Nat) (h : runMon segs perm uid gid s T = some t) :
    ∃ s1, runMon segs perm uid gid s (T.take j) = some s1 := by
  rw [← List.take_append_drop j T, runMon_append] at h
  rcases h1 : runMon segs perm uid gid s (T.take j) with _ | s1
  · simp [h1] at h
  · exact ⟨s1, rfl⟩

/-- Claim C6 as stated fails: on the five-segment path `/a/b/c/d/e`, with every
call succeeding, five handles (the root and four ancestors) are open together
after the thirteenth call, more than the two plus one retained that the claim
allows. -/
theorem handle_count_exceeds_three :
    ¬ (∀ j, ∃ held,
        ledger [] ((callsOf scriptSys ⟨[3, 0, 4, 0, 0, 5, 0, 0, 6, 0, 0, 7, 0, 0, 8, 0], []⟩
          "/a/b/c/d/e" 493 0 0).take j) = some held ∧ held.length ≤ 3) := by
  intro h
  obtain ⟨held, h1, h2⟩ := h 13
  have h3 : ledger [] ((callsOf scriptSys ⟨[3, 0, 4, 0, 0, 5, 0, 0, 6, 0, 0, 7, 0, 0, 8, 0], []⟩
      "/a/b/c/d/e" 493 0 0).take 13) = some [7, 6, 5, 4, 3] := by decide
  rw [h3] at h1
  cases h1
  simp at h2

/-- Claim C6, amended: the closes of the ancestor handles are deferred to the
return of `secureMkPrefix`, so the handles opened during the walk stay open
together; at every point of a run on a path of `n` segments the ledger of open
handles is defined and holds at most `max 2 n` handles.  Once `secureMkPrefix`
has returned the ancestors are closed: when the `sysMkdirat` of the last segment
is issued, the only open handle is the one it is issued on. -/
theorem secureMkdirAll_open_handles_bound (sys : Sys σ) (w : World σ) (name : String)
    (perm : Nat) (uid gid : Int) :
    (∀ j, ∃ held, ledger [] ((callsOf sys w name perm uid gid).take j) = some held ∧
        held.length ≤ max 2 (segmentsOf name).length) ∧
      ∀ (pre post : List Call) (fd : Int) (s : String) (m : Nat) (r : Option Errno),
        callsOf sys w name perm uid gid = pre ++ Call.sysMkdirat fd s m r :: post →
        pre.countP Call.isMkdirat + 1 = (segmentsOf name).length →
        ledger [] pre = some [fd] := by
  constructor
  · intro j
    cases habs : isAbs name with
    | false =>
      rw [callsOf_relative sys w name perm uid gid habs]
      exact ⟨[], by simp [ledger], by simp⟩
    | true =>
      have hrun := callsOf_protocol sys w name perm uid gid habs
      obtain ⟨s1, h1⟩ := runMon_take _ _ _ _ _ _ _ j hrun
      refine ⟨openOf s1, ?_, lenInv_bound _ _ (lenInv_run _ _ _ _ _ _ h1)⟩
      simpa [openOf] using ledger_runMon _ _ _ _ _ _ _ h1
  · intro pre post fd s m r hsplit hlast
    have habs := isAbs_of_call sys w name perm uid gid _ _ _ hsplit
    have hrun := callsOf_protocol sys w name perm uid gid habs
    rw [hsplit] at hrun
    obtain ⟨s1, s2, h1, h2, h3⟩ := runMon_split _ _ _ _ _ _ _ _ _ hrun
    have hpos := posInv_run _ _ _ _ _ _ h1
    have hlen := lenInv_run _ _ _ _ _ _ h1
    have hled := ledger_runMon _ _ _ _ _ _ _ h1
    have key : ∀ (i : Nat) (ds : List Int), s1 = St.mk i fd ds → ledger [] pre = some [fd] := by
      intro i ds hs1
      subst hs1
      obtain ⟨⟨_, p2, _, _⟩, _, hd⟩ := hpos
      obtain ⟨l1, _, l3⟩ := hlen
      have hds : ds.length ≤ 1 := l3 (by omega)
      have : ds = [fd] := by
        cases ds with
        | nil => simp at hd
        | cons d ds =>
          simp only [List.head?_cons, Option.some.injEq] at hd
          subst hd
          cases ds with
          | nil => rfl
          | cons d2 ds2 => simp at hds
      subst this
      simpa [openOf] using hled
    cases Step_of_step _ _ _ _ _ _ _ h2 with
    | mkdirMade i _ ds _ hs => exact key i ds rfl
    | mkdirExists i _ ds _ hs => exact key i ds rfl
    | mkdirFailed i _ ds _ e hs he => exact key i ds rfl

/-- Claim C6 (amended) on a concrete run: when the mkdirat of the last segment of
`/a/b/c` is issued, only the handle of `/a/b` is open. -/
theorem secureMkdirAll_open_handles_bound_witness :
    callsOf scriptSys ⟨[3, 0, 4, 0, 0, 5, 0, -13], []⟩ "/a/b/c" 493 0 0 =
        [Call.sysOpen "/" openFlags 0 (FdResult.ok 3), Call.sysMkdirat 3 "a" 493 none,
          Call.sysOpenat 3 "a" openFlags 0 (FdResult.ok 4), Call.sysFchown 4 0 0 none,
          Call.sysMkdirat 4 "b" 493 none, Call.sysOpenat 4 "b" openFlags 0 (FdResult.ok 5),
          Call.sysFchown 5 0 0 none, Call.sysClose 4, Call.sysClose 3] ++
        Call.sysMkdirat 5 "c" 493 (some 13) :: [Call.sysClose 5] ∧
      ledger []
        [Call.sysOpen "/" openFlags 0 (FdResult.ok 3), Call.sysMkdirat 3 "a" 493 none,
          Call.sysOpenat 3 "a" openFlags 0 (FdResult.ok 4), Call.sysFchown 4 0 0 none,
          Call.sysMkdirat 4 "b" 493 none, Call.sysOpenat 4 "b" openFlags 0 (FdResult.ok 5),
          Call.sysFchown 5 0 0 none, Call.sysClose 4, Call.sysClose 3] = some [5] :=
  ⟨by decide,
    (secureMkdirAll_open_handles_bound scriptSys ⟨[3, 0, 4, 0, 0, 5, 0, -13], []⟩ "/a/b/c" 493
      0 0).2 _ [Call.sysClose 5] 5 "c" 493 (some 13) (by decide) (by decide)⟩

/-! ## Every creation is relative to the handle just opened -/

theorem fieldsFuncFrom_no_sep (f : Char → Bool) (cs : List Char) :
    ∀ (cur : List Char), (∀ c ∈ cur, f c = false) →
      ∀ fld ∈ fieldsFuncFrom f cs cur, ∀ c ∈ fld, f c = false := by
  induction cs with
  | nil =>
    intro cur hcur fld hfld c hc
    simp only [fieldsFuncFrom] at hfld
    split at hfld
    · simp at hfld
    · simp only [List.mem_singleton] at hfld
      subst hfld
      exact hcur c (by simpa using hc)
  | cons x xs ih =>
    intro cur hcur fld hfld c hc
    simp only [fieldsFuncFrom] at hfld
    split at hfld
    · split at hfld
      · exact ih [] (by simp) fld hfld c hc
      · rcases List.mem_cons.1 hfld with rfl | hfld
        · exact hcur c (by simpa using hc)
        · exact ih [] (by simp) fld hfld c hc
    · rename_i hx
      refine ih (x :: cur) ?_ fld hfld c hc
      intro y hy
      rcases List.mem_cons.1 hy with rfl | hy
      · simpa using hx
      · exact hcur y hy

theorem segmentsOf_no_slash (name : String) (s : String) (h : s ∈ segmentsOf name) :
    '/' ∉ s.data := by
  simp only [segmentsOf, List.mem_map] at h
  obtain ⟨fld, hfld, rfl⟩ := h
  intro hmem
  have := fieldsFuncFrom_no_sep (fun c => c == '/') (clean name.data) [] (by simp) fld hfld '/'
    hmem
  simp at this

theorem relative_call_state (segs : List String) (perm : Nat) (uid gid : Int) (s1 s2 : St)
    (c : Call) (fd : Int) (s : String) (h : Step segs perm uid gid s1 c s2)
    (hc : c.relativeTo = some (fd, s)) :
    ∃ i ds, segs[i]? = some s ∧
      ((s1 = St.mk i fd ds) ∨ ∃ made, s1 = St.op i fd ds made) := by
  cases h <;> simp only [Call.relativeTo, Option.some.injEq, Prod.mk.injEq] at hc
  case mkdirMade i fd1 ds s0 hs =>
    obtain ⟨rfl, rfl⟩ := hc; exact ⟨i, ds, hs, Or.inl rfl⟩
  case mkdirExists i fd1 ds s0 hs =>
    obtain ⟨rfl, rfl⟩ := hc; exact ⟨i, ds, hs, Or.inl rfl⟩
  case mkdirFailed i fd1 ds s0 e hs he =>
    obtain ⟨rfl, rfl⟩ := hc; exact ⟨i, ds, hs, Or.inl rfl⟩
  case openatFailed i fd1 ds made s0 e hs =>
    obtain ⟨rfl, rfl⟩ := hc; exact ⟨i, ds, hs, Or.inr ⟨made, rfl⟩⟩
  case openatMade i fd1 ds s0 h0 hs =>
    obtain ⟨rfl, rfl⟩ := hc; exact ⟨i, ds, hs, Or.inr ⟨true, rfl⟩⟩
  case openatExisting i fd1 ds s0 h0 hs =>
    obtain ⟨rfl, rfl⟩ := hc; exact ⟨i, ds, hs, Or.inr ⟨false, rfl⟩⟩
  all_goals exact absurd hc (by simp)

/-- Claim C7: handle-relative creation.  In every run of `secureMkdirAll`, for each
`sysMkdirat` and each `sysOpenat`, with `i` the number of `sysOpenat` calls issued
before it: its name is the single segment `i` of the path, which contains no
`'/'`; the open calls issued before it are `sysOpen("/")` followed by the
`sysOpenat` of the segments before `i`, in order, and the last of them (the
openat of segment `i-1`, or the root open when `i = 0`) succeeded and returned
the handle the call is issued on; and that handle is open at that moment: it is
in the ledger of the calls issued so far. -/
theorem secureMkdirAll_handle_relative (sys : Sys σ) (w : World σ) (name : String)
    (perm : Nat) (uid gid : Int) (pre post : List Call) (c : Call) (fd : Int) (s : String)
    (hsplit : callsOf sys w name perm uid gid = pre ++ c :: post)
    (hc : c.relativeTo = some (fd, s)) :
    (segmentsOf name)[pre.countP Call.isOpenat]? = some s ∧ '/' ∉ s.data ∧
      (pre.filterMap Call.openCall).map Prod.fst =
        "/" :: (segmentsOf name).take (pre.countP Call.isOpenat) ∧
      (pre.filterMap Call.openCall).getLast?.map Prod.snd = some (FdResult.ok fd) ∧
      ∃ held, ledger [] pre = some held ∧ fd ∈ held := by
  have habs := isAbs_of_call sys w name perm uid gid _ _ _ hsplit
  have hrun := callsOf_protocol sys w name perm uid gid habs
  rw [hsplit] at hrun
  obtain ⟨s1, s2, h1, h2, h3⟩ := runMon_split _ _ _ _ _ _ _ _ _ hrun
  have hpos := posInv_run _ _ _ _ _ _ h1
  have hled := ledger_runMon _ _ _ _ _ _ _ h1
  obtain ⟨i, ds, hs, hst⟩ :=
    relative_call_state _ _ _ _ _ _ _ _ _ (Step_of_step _ _ _ _ _ _ _ h2) hc
  have hmem : s ∈ segmentsOf name := List.getElem?_mem hs
  have hfd : ∀ (ds : List Int), ds.head? = some fd → fd ∈ ds := by
    intro ds hd
    cases ds with
    | nil => simp at hd
    | cons d ds => simp only [List.head?_cons, Option.some.injEq] at hd; simp [hd]
  rcases hst with rfl | ⟨made, rfl⟩
  · obtain ⟨⟨p1, _, p3, p4⟩, _, hd⟩ := hpos
    refine ⟨by rw [p1]; exact hs, segmentsOf_no_slash name s hmem, by rw [p1]; exact p3, p4,
      ds, ?_, hfd ds hd⟩
    simpa [openOf] using hled
  · obtain ⟨⟨p1, _, p3, p4⟩, _, hd⟩ := hpos
    refine ⟨by rw [p1]; exact hs, segmentsOf_no_slash name s hmem, by rw [p1]; exact p3, p4,
      ds, ?_, hfd ds hd⟩
    simpa [openOf] using hled

/-- Claim C7 on a concrete run: the mkdirat of `data` in `/snap//data/`. -/
theorem secureMkdirAll_handle_relative_witness :
    callsOf scriptSys ⟨[3, 0, 4, 0, -17, 5], []⟩ "/snap//data/" 493 0 0 =
        [Call.sysOpen "/" openFlags 0 (FdResult.ok 3), Call.sysMkdirat 3 "snap" 493 none,
          Call.sysOpenat 3 "snap" openFlags 0 (FdResult.ok 4), Call.sysFchown 4 0 0 none,
          Call.sysClose 3] ++ Call.sysMkdirat 4 "data" 493 (some EEXIST) ::
          [Call.sysOpenat 4 "data" openFlags 0 (FdResult.ok 5), Call.sysClose 5,
            Call.sysClose 4] ∧
      (Call.sysMkdirat 4 "data" 493 (some EEXIST)).relativeTo = some (4, "data") ∧
      (segmentsOf "/snap//data/")[1]? = some "data" :=
  ⟨by decide, by decide,
    (secureMkdirAll_handle_relative scriptSys ⟨[3, 0, 4, 0, -17, 5], []⟩ "/snap//data/" 493 0 0
      [Call.sysOpen "/" openFlags 0 (FdResult.ok 3), Call.sysMkdirat 3 "snap" 493 none,
        Call.sysOpenat 3 "snap" openFlags 0 (FdResult.ok 4), Call.sysFchown 4 0 0 none,
        Call.sysClose 3]
      [Call.sysOpenat 4 "data" openFlags 0 (FdResult.ok 5), Call.sysClose 5, Call.sysClose 4]
      (Call.sysMkdirat 4 "data" 493 (some EEXIST))
      4 "data" (by decide) (by decide)).1⟩

/-! ## The recorded calls replay to the final environment -/

theorem replay_append (sys : Sys σ) (env : σ) (a b : List Call) :
    replay sys env (a ++ b) = (replay sys env a).bind (fun e => replay sys e b) := by
  induction a generalizing env with
  | nil => simp [replay]
  | cons c cs ih =>
    simp only [List.cons_append, replay]
    cases perform sys env c with
    | none => simp
    | some e => simpa using ih e

theorem secureMkDir_replay (sys : Sys σ) (w : World σ) (fd : Int) (segs : List String)
    (i : Nat) (perm : Nat) (uid gid : Int) :
    ∃ T, (secureMkDir sys w fd segs i perm uid gid).1.trace = w.trace ++ T ∧
      replay sys w.env T = some (secureMkDir sys w fd segs i perm uid gid).1.env := by
  unfold secureMkDir
  rcases hseg : segs[i]? with _ | seg
  · exact ⟨[], by simp, rfl⟩
  · simp only [doMkdirat, doOpenat, doFchown, doClose]
    rcases h1 : (sys.sysMkdirat w.env fd seg perm).2 with _ | e1
    · simp only []
      rcases h2 : (sys.sysOpenat (sys.sysMkdirat w.env fd seg perm).1 fd seg openFlags 0).2
        with h | e2
      · simp only [if_true]
        rcases h3 : (sys.sysFchown
          (sys.sysOpenat (sys.sysMkdirat w.env fd seg perm).1 fd seg openFlags 0).1 h uid gid).2
          with _ | e3
        · exact ⟨[Call.sysMkdirat fd seg perm none,
            Call.sysOpenat fd seg openFlags 0 (FdResult.ok h), Call.sysFchown h uid gid none],
            by simp, by simp [replay, perform, h1, h2, h3]⟩
        · exact ⟨[Call.sysMkdirat fd seg perm none,
            Call.sysOpenat fd seg openFlags 0 (FdResult.ok h), Call.sysFchown h uid gid (some e3),
            Call.sysClose h], by simp, by simp [replay, perform, h1, h2, h3]⟩
      · exact ⟨[Call.sysMkdirat fd seg perm none,
          Call.sysOpenat fd seg openFlags 0 (FdResult.err e2)], by simp,
          by simp [replay, perform, h1, h2]⟩
    · simp only []
      by_cases he : e1 = EEXIST
      · simp only [he, if_true]
        rw [he] at h1
        rcases h2 : (sys.sysOpenat (sys.sysMkdirat w.env fd seg perm).1 fd seg openFlags 0).2
          with h | e2
        · exact ⟨[Call.sysMkdirat fd seg perm (some EEXIST),
            Call.sysOpenat fd seg openFlags 0 (FdResult.ok h)], by simp,
            by simp [replay, perform, h1, h2]⟩
        · exact ⟨[Call.sysMkdirat fd seg perm (some EEXIST),
            Call.sysOpenat fd seg openFlags 0 (FdResult.err e2)], by simp,
            by simp [replay, perform, h1, h2]⟩
      · simp only [he, if_false]
        by_cases hr : e1 = EROFS
        · simp only [hr, if_true]
          rw [hr] at h1
          exact ⟨[Call.sysMkdirat fd seg perm (some EROFS)], by simp,
            by simp [replay, perform, h1]⟩
        · simp only [hr, if_false]
          exact ⟨[Call.sysMkdirat fd seg perm (some e1)], by simp,
            by simp [replay, perform, h1]⟩

theorem runDefers_replay (sys : Sys σ) (w : World σ) (ds : List Int) :
    replay sys w.env (ds.map Call.sysClose) = some (runDefers sys w ds).env := by
  induction ds generalizing w with
  | nil => simp [runDefers, replay]
  | cons d ds ih =>
    simp only [List.map_cons, replay, perform, runDefers]
    exact ih (doClose sys w d)

theorem secureMkPrefixLoop_replay (sys : Sys σ) (segs : List String) (perm : Nat)
    (uid gid : Int) (todo : Nat) :
    ∀ (i : Nat) (w : World σ) (fd : Int) (ds : List Int),
    ∃ T, (secureMkPrefixLoop sys segs perm uid gid todo i w fd ds).1.trace = w.trace ++ T ∧
      replay sys w.env T =
        some (secureMkPrefixLoop sys segs perm uid gid todo i w fd ds).1.env := by
  induction todo with
  | zero =>
    intro i w fd ds
    exact ⟨ds.map Call.sysClose, by simp [secureMkPrefixLoop, runDefers_trace],
      by simp [secureMkPrefixLoop, runDefers_replay]⟩
  | succ todo ih =>
    intro i w fd ds
    obtain ⟨T, hT, hm⟩ := secureMkDir_replay sys w fd segs i perm uid gid
    rw [secureMkPrefixLoop]
    rcases hr : secureMkDir sys w fd segs i perm uid gid with ⟨w1, fd1, _ | e⟩
    · rw [hr] at hT hm
      simp only [] at hT hm ⊢
      obtain ⟨T2, hT2, hm2⟩ := ih (i + 1) w1 fd1
        (if (i : Int) < (segs.length : Int) - 2 then fd1 :: ds else ds)
      exact ⟨T ++ T2, by simp [hT2, hT], by rw [replay_append, hm]; simpa using hm2⟩
    · rw [hr] at hT hm
      simp only [] at hT hm ⊢
      exact ⟨T ++ ds.map Call.sysClose, by simp [runDefers_trace, hT],
        by rw [replay_append, hm]; simpa using runDefers_replay sys w1 ds⟩

theorem secureMkPrefix_replay (sys : Sys σ) (w : World σ) (segs : List String) (perm : Nat)
    (uid gid : Int) :
    ∃ T, (secureMkPrefix sys w segs perm uid gid).1.trace = w.trace ++ T ∧
      replay sys w.env T = some (secureMkPrefix sys w segs perm uid gid).1.env := by
  simp only [secureMkPrefix, doOpen]
  rcases h0 : (sys.sysOpen w.env "/" openFlags 0).2 with f0 | e0
  · simp only []
    have hopen : perform sys w.env (Call.sysOpen "/" openFlags 0 (FdResult.ok f0)) =
        some (sys.sysOpen w.env "/" openFlags 0).1 := by simp [perform, h0]
    by_cases hpos : segs.length > 0
    · simp only [hpos, if_true]
      obtain ⟨T, hT, hm⟩ := secureMkPrefixLoop_replay sys segs perm uid gid (segs.length - 1) 0
        ⟨(sys.sysOpen w.env "/" openFlags 0).1,
          w.trace ++ [Call.sysOpen "/" openFlags 0 (FdResult.ok f0)]⟩ f0
        (if segs.length > 1 then [f0] else [])
      exact ⟨Call.sysOpen "/" openFlags 0 (FdResult.ok f0) :: T, by simp [hT],
        by simpa [replay, hopen] using hm⟩
    · simp only [hpos, if_false]
      refine ⟨Call.sysOpen "/" openFlags 0 (FdResult.ok f0) ::
        (if segs.length > 1 then [f0] else []).map Call.sysClose,
        by simp [runDefers_trace], ?_⟩
      simp only [replay, hopen]
      exact runDefers_replay sys ⟨(sys.sysOpen w.env "/" openFlags 0).1,
        w.trace ++ [Call.sysOpen "/" openFlags 0 (FdResult.ok f0)]⟩ _
  · exact ⟨[Call.sysOpen "/" openFlags 0 (FdResult.err e0)], by simp,
      by simp [replay, perform, h0]⟩

theorem secureMkdirAllSegments_replay (sys : Sys σ) (w : World σ) (segs : List String)
    (perm : Nat) (uid gid : Int) :
    ∃ T, (secureMkdirAllSegments sys w segs perm uid gid).1.trace = w.trace ++ T ∧
      replay sys w.env T = some (secureMkdirAllSegments sys w segs perm uid gid).1.env := by
  obtain ⟨T, hT, hm⟩ := secureMkPrefix_replay sys w segs perm uid gid
  simp only [secureMkdirAllSegments]
  rcases hr : secureMkPrefix sys w segs perm uid gid with ⟨w1, fd, _ | e⟩
  · rw [hr] at hT hm
    simp only [] at hT hm ⊢
    by_cases hpos : segs.length > 0
    · simp only [hpos, if_true]
      obtain ⟨T2, hT2, hm2⟩ := secureMkDir_replay sys w1 fd segs (segs.length - 1) perm uid gid
      rcases hr2 : secureMkDir sys w1 fd segs (segs.length - 1) perm uid gid
        with ⟨w2, fd2, _ | e2⟩
      · rw [hr2] at hT2 hm2
        simp only [] at hT2 hm2 ⊢
        refine ⟨T ++ (T2 ++ [fd2, fd].map Call.sysClose), by simp [runDefers_trace, hT2, hT], ?_⟩
        rw [replay_append, hm, Option.some_bind, replay_append, hm2, Option.some_bind]
        exact runDefers_replay sys w2 _
      · rw [hr2] at hT2 hm2
        simp only [] at hT2 hm2 ⊢
        refine ⟨T ++ (T2 ++ [fd].map Call.sysClose), by simp [runDefers_trace, hT2, hT], ?_⟩
        rw [replay_append, hm, Option.some_bind, replay_append, hm2, Option.some_bind]
        exact runDefers_replay sys w2 _
    · simp only [hpos, if_false]
      refine ⟨T ++ [fd].map Call.sysClose, by simp [runDefers_trace, hT], ?_⟩
      rw [replay_append, hm, Option.some_bind]
      exact runDefers_replay sys w1 _
  · rw [hr] at hT hm
    simp only [] at hT hm ⊢
    exact ⟨T, hT, hm⟩

theorem callsOf_replay (sys : Sys σ) (w : World σ) (name : String) (perm : Nat)
    (uid gid : Int) :
    replay sys w.env (callsOf sys w name perm uid gid) =
      some (secureMkdirAll sys w name perm uid gid).1.env := by
  cases h : isAbs name with
  | false =>
    simp [callsOf_relative sys w name perm uid gid h,
      secureMkdirAll_relative sys w name perm uid gid h, replay]
  | true =>
    obtain ⟨T, hT, hm⟩ := secureMkdirAllSegments_replay sys w (segmentsOf name) perm uid gid
    have he : secureMkdirAll sys w name perm uid gid =
        secureMkdirAllSegments sys w (segmentsOf name) perm uid gid := by
      simp [secureMkdirAll, h]
    have hc : callsOf sys w name perm uid gid = T := by
      simp [callsOf, he, hT]
    rw [hc, he]
    exact hm

/-! ## Runs on the model filesystem -/

theorem joint_invariant (sys : Sys σ) (segs : List String) (perm : Nat) (uid gid : Int)
    (Inv : List Call → St → σ → Prop)
    (hstep : ∀ T s c s1 env env1, Inv T s env → Step segs perm uid gid s c s1 →
      perform sys env c = some env1 → Inv (T ++ [c]) s1 env1) :
    ∀ (T : List Call) (T0 : List Call) (s : St) (env : σ) (t : St) (env1 : σ), Inv T0 s env →
      runMon segs perm uid gid s T = some t → replay sys env T = some env1 →
      Inv (T0 ++ T) t env1 := by
  intro T
  induction T with
  | nil =>
    intro T0 s env t env1 h0 h1 h2
    simp only [runMon, Option.some.injEq] at h1
    simp only [replay, Option.some.injEq] at h2
    subst h1 h2
    simpa using h0
  | cons c cs ih =>
    intro T0 s env t env1 h0 h1 h2
    obtain ⟨s2, hstep2, hrest⟩ := runMon_cons _ _ _ _ _ _ _ _ h1
    simp only [replay] at h2
    rcases hp : perform sys env c with _ | env2
    · simp [hp] at h2
    · rw [hp] at h2
      have := ih (T0 ++ [c]) s2 env2 t env1 (hstep T0 s c s2 env env2 h0 hstep2 hp) hrest h2
      simpa using this

theorem lookupFd_lt_freshFd (fds : List (Int × List String)) (d : Int) (p : List String)
    (h : lookupFd fds d = some p) : d < freshFd fds := by
  induction fds with
  | nil => simp [lookupFd] at h
  | cons kv rest ih =>
    obtain ⟨k, q⟩ := kv
    simp only [lookupFd] at h
    simp only [freshFd]
    split at h
    · rename_i hk
      subst hk
      omega
    · have := ih h
      omega

theorem lookupFd_removeFd_ne (fds : List (Int × List String)) (d h : Int) (hne : d ≠ h) :
    lookupFd (removeFd fds d) h = lookupFd fds h := by
  induction fds with
  | nil => rfl
  | cons kv rest ih =>
    obtain ⟨k, q⟩ := kv
    simp only [removeFd]
    split
    · rename_i hk
      subst hk
      simp [lookupFd, hne]
    · simp only [lookupFd, ih]

theorem take_succ_eq (segs : List String) (i : Nat) (s : String) (hs : segs[i]? = some s) :
    segs.take i ++ [s] = segs.take (i + 1) := by
  rw [List.take_succ, hs]
  rfl

theorem lt_length_of_getElem? (segs : List String) (i : Nat) (s : String)
    (hs : segs[i]? = some s) : i < segs.length := by
  by_contra hlt
  rw [List.getElem?_eq_none (by omega)] at hs
  cases hs

theorem take_ne_take (segs : List String) (j k : Nat) (hj : j ≤ segs.length)
    (hk : k ≤ segs.length) (hne : j ≠ k) : segs.take j ≠ segs.take k := by
  intro h
  have := congrArg List.length h
  simp only [List.length_take] at this
  omega

theorem perform_open (fs fs1 : FS) (fl m : Nat) (r : FdResult)
    (h : perform fsSys fs (Call.sysOpen "/" fl m r) = some fs1) :
    r = FdResult.ok (freshFd fs.fds) ∧
      fs1 = fs.withFd (freshFd fs.fds) [] := by
  simp only [perform, fsSys, fsOpen, if_true] at h
  split at h
  · rename_i hr
    simp only [Option.some.injEq] at h
    exact ⟨hr.symm, h.symm⟩
  · cases h

theorem perform_mkdirat (fs fs1 : FS) (fd : Int) (s : String) (m : Nat) (r : Option Errno)
    (dir : List String) (h : perform fsSys fs (Call.sysMkdirat fd s m r) = some fs1)
    (hfd : lookupFd fs.fds fd = some dir) :
    (fs.entries (dir ++ [s]) = none ∧ r = none ∧
        fs1 = fs.withEntry (dir ++ [s]) (Entry.dir fs.procUid fs.procGid m)) ∨
      ((∃ e, fs.entries (dir ++ [s]) = some e) ∧ r = some EEXIST ∧ fs1 = fs) := by
  simp only [perform, fsSys, fsMkdirat, hfd] at h
  rcases he : fs.entries (dir ++ [s]) with _ | e
  · rw [he] at h
    simp only [] at h
    split at h
    · rename_i hr
      simp only [Option.some.injEq] at h
      exact Or.inl ⟨rfl, hr.symm, h.symm⟩
    · cases h
  · rw [he] at h
    simp only [] at h
    split at h
    · rename_i hr
      simp only [Option.some.injEq] at h
      exact Or.inr ⟨⟨e, rfl⟩, hr.symm, h.symm⟩
    · cases h

theorem perform_openat (fs fs1 : FS) (fd : Int) (s : String) (m : Nat) (r : FdResult)
    (dir : List String) (h : perform fsSys fs (Call.sysOpenat fd s openFlags m r) = some fs1)
    (hfd : lookupFd fs.fds fd = some dir) :
    ((∃ u g md, fs.entries (dir ++ [s]) = some (Entry.dir u g md)) ∧
        r = FdResult.ok (freshFd fs.fds) ∧
        fs1 = fs.withFd (freshFd fs.fds) (dir ++ [s])) ∨
      ((¬ ∃ u g md, fs.entries (dir ++ [s]) = some (Entry.dir u g md)) ∧
        (∃ e, r = FdResult.err e) ∧ fs1 = fs) := by
  have hflags : ¬ (openFlags &&& O_NOFOLLOW = 0 ∨ openFlags &&& O_DIRECTORY = 0) := by decide
  simp only [perform, fsSys, fsOpenat, hflags, if_false, hfd] at h
  rcases he : fs.entries (dir ++ [s]) with _ | e
  · rw [he] at h
    simp only [] at h
    split at h
    · rename_i hr
      simp only [Option.some.injEq] at h
      exact Or.inr ⟨by simp, ⟨_, hr.symm⟩, h.symm⟩
    · cases h
  · rw [he] at h
    cases e with
    | dir u g md =>
      simp only [] at h
      split at h
      · rename_i hr
        simp only [Option.some.injEq] at h
        exact Or.inl ⟨⟨u, g, md, rfl⟩, hr.symm, h.symm⟩
      · cases h
    | file =>
      simp only [] at h
      split at h
      · rename_i hr
        simp only [Option.some.injEq] at h
        exact Or.inr ⟨by simp, ⟨_, hr.symm⟩, h.symm⟩
      · cases h
    | symlink =>
      simp only [] at h
      split at h
      · rename_i hr
        simp only [Option.some.injEq] at h
        exact Or.inr ⟨by simp, ⟨_, hr.symm⟩, h.symm⟩
      · cases h

theorem perform_fchown (fs fs1 : FS) (fd uid gid : Int) (r : Option Errno) (p : List String)
    (u g : Int) (m : Nat) (h : perform fsSys fs (Call.sysFchown fd uid gid r) = some fs1)
    (hfd : lookupFd fs.fds fd = some p) (he : fs.entries p = some (Entry.dir u g m)) :
    r = none ∧
      fs1 = fs.withEntry p (Entry.dir (chownId uid u) (chownId gid g) m) := by
  simp only [perform, fsSys, fsFchown, hfd, he] at h
  split at h
  · rename_i hr
    simp only [Option.some.injEq] at h
    exact ⟨hr.symm, h.symm⟩
  · cases h

theorem perform_close (fs fs1 : FS) (d : Int)
    (h : perform fsSys fs (Call.sysClose d) = some fs1) :
    fs1.entries = fs.entries ∧ fs1.procUid = fs.procUid ∧ fs1.procGid = fs.procGid ∧
      ∀ x, d ≠ x → lookupFd fs1.fds x = lookupFd fs.fds x := by
  simp only [perform, fsSys, fsClose, Option.some.injEq] at h
  subst h
  rcases hl : lookupFd fs.fds d with _ | p
  · exact ⟨rfl, rfl, rfl, fun _ _ => rfl⟩
  · exact ⟨rfl, rfl, rfl, fun x hx => lookupFd_removeFd_ne fs.fds d x hx⟩

theorem entryOK_congr (fs0 fs fs1 : FS) (perm : Nat) (uid gid : Int) (p : List String)
    (h : fs1.entries p = fs.entries p) (hok : entryOK fs0 fs perm uid gid p) :
    entryOK fs0 fs1 perm uid gid p := by
  unfold entryOK at hok ⊢
  rw [h]
  exact hok

theorem walked_congr (segs : List String) (fs0 fs fs1 : FS) (perm : Nat) (uid gid : Int)
    (j : Nat) (he : fs1.entries = fs.entries) (hu : fs1.procUid = fs.procUid)
    (hg : fs1.procGid = fs.procGid) (hw : walked segs fs0 perm uid gid j fs) :
    walked segs fs0 perm uid gid j fs1 := by
  obtain ⟨w1, w2, w3, w4⟩ := hw
  refine ⟨hu.trans w1, hg.trans w2, fun k h1 h2 => ?_, fun p hp => ?_⟩
  · exact entryOK_congr fs0 fs fs1 perm uid gid _ (by rw [he]) (w3 k h1 h2)
  · rw [he]; exact w4 p hp

theorem justMade_congr (segs : List String) (fs0 fs fs1 : FS) (perm : Nat) (uid gid : Int)
    (i : Nat) (he : fs1.entries = fs.entries) (hu : fs1.procUid = fs.procUid)
    (hg : fs1.procGid = fs.procGid) (hw : justMade segs fs0 perm uid gid i fs) :
    justMade segs fs0 perm uid gid i fs1 := by
  obtain ⟨w1, w2, w3, w4, w5, w6⟩ := hw
  refine ⟨hu.trans w1, hg.trans w2, fun k h1 h2 => ?_, fun p hp => ?_, w5, ?_⟩
  · exact entryOK_congr fs0 fs fs1 perm uid gid _ (by rw [he]) (w3 k h1 h2)
  · rw [he]; exact w4 p hp
  · rw [he]; exact w6

theorem fsInv_unwindTo_failed (segs : List String) (fs0 fs : FS) (perm : Nat) (uid gid : Int)
    (ds : List Int) (e : Error) :
    fsInv segs fs0 perm uid gid (unwindTo segs ds (After.finish (some e))) fs := by
  cases ds <;> trivial

theorem fsInv_unwindTo_done (segs : List String) (fs0 fs : FS) (perm : Nat) (uid gid : Int)
    (ds : List Int) (h : walked segs fs0 perm uid gid segs.length fs) :
    fsInv segs fs0 perm uid gid (unwindTo segs ds (After.finish none)) fs := by
  cases ds <;> exact h

theorem fsInv_unwindTo_final (segs : List String) (fs0 fs : FS) (perm : Nat) (uid gid : Int)
    (ds : List Int) (h : Int) (hw : walked segs fs0 perm uid gid (segs.length - 1) fs)
    (hfd : lookupFd fs.fds h = some (segs.take (segs.length - 1))) (hne : ∀ x ∈ ds, x ≠ h)
    (hn : 0 < segs.length) :
    fsInv segs fs0 perm uid gid (unwindTo segs ds (After.final h)) fs := by
  cases ds with
  | nil =>
    refine ⟨hw, hfd, ?_⟩
    intro d hd
    simp only [List.mem_singleton] at hd
    subst hd
    exact ⟨_, hfd⟩
  | cons d ds => exact ⟨hw, hfd, hne, hn⟩

theorem fsInv_afterSegment (segs : List String) (fs0 fs : FS) (perm : Nat) (uid gid : Int)
    (i : Nat) (ds : List Int) (h : Int) (hw : walked segs fs0 perm uid gid (i + 1) fs)
    (hfd : lookupFd fs.fds h = some (segs.take (i + 1))) (hopen : allOpen fs ds)
    (hne : ∀ x ∈ ds, x ≠ h) (hi : i < segs.length) :
    fsInv segs fs0 perm uid gid (afterSegment segs i ds h) fs := by
  unfold afterSegment
  split
  · rename_i hlast
    simp only [unwindTo, fsInv]
    rw [← hlast]
    exact hw
  · split
    · refine ⟨hw, hfd, ?_⟩
      intro d hd
      rcases List.mem_cons.1 hd with rfl | hd
      · exact ⟨_, hfd⟩
      · exact hopen d hd
    · have hlen : segs.length - 1 = i + 1 := by omega
      exact fsInv_unwindTo_final segs fs0 fs perm uid gid ds h (by rw [hlen]; exact hw)
        (by rw [hlen]; exact hfd) hne (by omega)

theorem walked_of_justMade_chown (segs : List String) (fs0 fs : FS) (perm : Nat)
    (uid gid : Int) (i : Nat) (hi : i < segs.length)
    (hj : justMade segs fs0 perm uid gid i fs) :
    walked segs fs0 perm uid gid (i + 1)
      (fs.withEntry (segs.take (i + 1))
        (Entry.dir (chownId uid fs0.procUid) (chownId gid fs0.procGid) perm)) := by
  obtain ⟨w1, w2, w3, w4, w5, w6⟩ := hj
  refine ⟨w1, w2, fun k h1 h2 => ?_, fun p hp => ?_⟩
  · by_cases hk : k = i + 1
    · subst hk
      simp [entryOK, w5, FS.withEntry, setEntry]
    · have hne : segs.take k ≠ segs.take (i + 1) :=
        take_ne_take segs k (i + 1) (by omega) (by omega) hk
      exact entryOK_congr fs0 fs _ perm uid gid _ (by simp [FS.withEntry, setEntry, hne])
        (w3 k h1 (by omega))
  · have hne : p ≠ segs.take (i + 1) := hp (i + 1) (by omega) (by omega)
    simp only [FS.withEntry, setEntry, hne, if_false]
    exact w4 p hp

theorem walked_succ_of_existing (segs : List String) (fs0 fs : FS) (perm : Nat)
    (uid gid : Int) (i : Nat) (hi : i < segs.length) (u g : Int) (m : Nat)
    (hw : walked segs fs0 perm uid gid i fs)
    (he : fs.entries (segs.take (i + 1)) = some (Entry.dir u g m)) :
    walked segs fs0 perm uid gid (i + 1) fs := by
  obtain ⟨w1, w2, w3, w4⟩ := hw
  have hsame : fs.entries (segs.take (i + 1)) = fs0.entries (segs.take (i + 1)) :=
    w4 _ (fun k _ h2 => (take_ne_take segs k (i + 1) (by omega) (by omega) (by omega)).symm)
  refine ⟨w1, w2, fun k h1 h2 => ?_, fun p hp => ?_⟩
  · by_cases hk : k = i + 1
    · subst hk
      unfold entryOK
      rw [← hsame, he]
      exact ⟨⟨u, g, m, rfl⟩, rfl⟩
    · exact w3 k h1 (by omega)
  · exact w4 p (fun k h1 h2 => hp k h1 (by omega))

theorem allOpen_withFd (fs : FS) (ds : List Int) (fd : Int) (p : List String)
    (h : allOpen fs ds) : allOpen (fs.withFd fd p) ds := by
  intro d hd
  obtain ⟨q, hq⟩ := h d hd
  by_cases hfd : fd = d
  · exact ⟨p, by simp [FS.withFd, lookupFd, hfd]⟩
  · exact ⟨q, by simp [FS.withFd, lookupFd, hfd, hq]⟩

theorem ne_fresh_of_allOpen (fs : FS) (ds : List Int) (h : allOpen fs ds) :
    ∀ d ∈ ds, d ≠ freshFd fs.fds := by
  intro d hd
  obtain ⟨q, hq⟩ := h d hd
  have := lookupFd_lt_freshFd fs.fds d q hq
  omega

theorem fsInv_step (segs : List String) (fs0 : FS) (perm : Nat) (uid gid : Int) (s s1 : St)
    (c : Call) (fs fs1 : FS) (hinv : fsInv segs fs0 perm uid gid s fs)
    (hstep : Step segs perm uid gid s c s1) (hp : perform fsSys fs c = some fs1) :
    fsInv segs fs0 perm uid gid s1 fs1 := by
  cases hstep with
  | rootFailed e => trivial
  | rootOnly fd hn =>
    obtain ⟨_, rfl⟩ := perform_open fs fs1 _ _ _ hp
    simp only [fsInv] at hinv
    subst hinv
    refine ⟨rfl, rfl, fun k h1 h2 => ?_, fun p _ => rfl⟩
    omega
  | rootOpened fd hn =>
    obtain ⟨hfd, rfl⟩ := perform_open fs fs1 _ _ _ hp
    simp only [fsInv] at hinv
    subst hinv
    injection hfd with hfd
    subst hfd
    refine ⟨⟨rfl, rfl, fun k h1 h2 => ?_, fun p _ => rfl⟩, by simp [FS.withFd, lookupFd], ?_⟩
    · omega
    · intro d hd
      simp only [List.mem_singleton] at hd
      subst hd
      exact ⟨[], by simp [FS.withFd, lookupFd]⟩
  | mkdirMade i fd ds s hs =>
    obtain ⟨hw, hfd, hopen⟩ := hinv
    have hi := lt_length_of_getElem? segs i s hs
    rcases perform_mkdirat fs fs1 fd s perm none _ hp hfd with ⟨hnone, _, rfl⟩ | ⟨_, hr, _⟩
    · rw [take_succ_eq segs i s hs] at hnone ⊢
      obtain ⟨w1, w2, w3, w4⟩ := hw
      have hsame : fs.entries (segs.take (i + 1)) = fs0.entries (segs.take (i + 1)) :=
        w4 _ (fun k _ h2 => (take_ne_take segs k (i + 1) (by omega) (by omega) (by omega)).symm)
      refine ⟨⟨w1, w2, fun k h1 h2 => ?_, fun p hp => ?_, ?_, ?_⟩, hfd, hopen⟩
      · have hne : segs.take k ≠ segs.take (i + 1) :=
          take_ne_take segs k (i + 1) (by omega) (by omega) (by omega)
        exact entryOK_congr fs0 fs _ perm uid gid _ (by simp [FS.withEntry, setEntry, hne])
          (w3 k h1 h2)
      · have hne : p ≠ segs.take (i + 1) := hp (i + 1) (by omega) (by omega)
        simp only [FS.withEntry, setEntry, hne, if_false]
        exact w4 p (fun k h1 h2 => hp k h1 (by omega))
      · rw [← hsame]; exact hnone
      · simp [FS.withEntry, setEntry, w1, w2]
    · cases hr
  | mkdirExists i fd ds s hs =>
    obtain ⟨hw, hfd, hopen⟩ := hinv
    rcases perform_mkdirat fs fs1 fd s perm _ _ hp hfd with ⟨_, hr, _⟩ | ⟨hex, _, rfl⟩
    · cases hr
    · rw [take_succ_eq segs i s hs] at hex
      exact ⟨hw, hfd, hopen, hex⟩
  | mkdirFailed i fd ds s e hs he => exact fsInv_unwindTo_failed segs fs0 fs1 perm uid gid ds _
  | openatFailed i fd ds made s e hs =>
    exact fsInv_unwindTo_failed segs fs0 fs1 perm uid gid ds _
  | openatMade i fd ds s h hs =>
    obtain ⟨hj, hfd, hopen⟩ := hinv
    rcases perform_openat fs fs1 fd s 0 _ _ hp hfd with ⟨_, hr, rfl⟩ | ⟨_, ⟨e, hr⟩, _⟩
    · injection hr with hr
      subst hr
      rw [take_succ_eq segs i s hs]
      exact ⟨justMade_congr segs fs0 fs _ perm uid gid i rfl rfl rfl hj,
        by simp [FS.withFd, lookupFd], allOpen_withFd fs ds _ _ hopen,
        ne_fresh_of_allOpen fs ds hopen, lt_length_of_getElem? segs i s hs⟩
    · cases hr
  | openatExisting i fd ds s h hs =>
    obtain ⟨hw, hfd, hopen, _⟩ := hinv
    have hi := lt_length_of_getElem? segs i s hs
    rcases perform_openat fs fs1 fd s 0 _ _ hp hfd with ⟨⟨u, g, m, he⟩, hr, rfl⟩ | ⟨_, ⟨e, hr⟩, _⟩
    · injection hr with hr
      subst hr
      rw [take_succ_eq segs i s hs] at he ⊢
      refine fsInv_afterSegment segs fs0 _ perm uid gid i ds _ ?_ (by simp [FS.withFd, lookupFd])
        (allOpen_withFd fs ds _ _ hopen) (ne_fresh_of_allOpen fs ds hopen) hi
      exact walked_congr segs fs0 fs _ perm uid gid (i + 1) rfl rfl rfl
        (walked_succ_of_existing segs fs0 fs perm uid gid i hi u g m hw he)
    · cases hr
  | fchownFailed i fd ds h s e hs => trivial
  | fchownDone i fd ds h =>
    obtain ⟨hj, hfd, hopen, hne, hi⟩ := hinv
    have hj2 := hj
    obtain ⟨w1, w2, w3, w4, w5, w6⟩ := hj2
    obtain ⟨_, rfl⟩ := perform_fchown fs fs1 h uid gid _ _ _ _ _ hp hfd w6
    exact fsInv_afterSegment segs fs0 _ perm uid gid i ds h
      (walked_of_justMade_chown segs fs0 fs perm uid gid i hi hj) hfd hopen hne hi
  | closed d ds k =>
    obtain ⟨c1, c2, c3, c4⟩ := perform_close fs fs1 d hp
    cases k with
    | finish r =>
      cases r with
      | none =>
        exact fsInv_unwindTo_done segs fs0 fs1 perm uid gid ds
          (walked_congr segs fs0 fs fs1 perm uid gid _ c1 c2 c3 hinv)
      | some e => exact fsInv_unwindTo_failed segs fs0 fs1 perm uid gid ds e
    | final h =>
      obtain ⟨hw, hfd, hne, hn⟩ := hinv
      refine fsInv_unwindTo_final segs fs0 fs1 perm uid gid ds h
        (walked_congr segs fs0 fs fs1 perm uid gid _ c1 c2 c3 hw) ?_
        (fun x hx => hne x (List.mem_cons_of_mem d hx)) hn
      rw [c4 h (hne d (List.mem_cons_self d ds))]
      exact hfd

theorem fsInv_run (w : World FS) (name : String) (perm : Nat) (uid gid : Int)
    (habs : isAbs name = true) :
    fsInv (segmentsOf name) w.env perm uid gid
      (St.done (secureMkdirAll fsSys w name perm uid gid).2)
      (secureMkdirAll fsSys w name perm uid gid).1.env := by
  have hrun := callsOf_protocol fsSys w name perm uid gid habs
  have hrep := callsOf_replay fsSys w name perm uid gid
  exact joint_invariant fsSys (segmentsOf name) perm uid gid
    (fun _ s fs => fsInv (segmentsOf name) w.env perm uid gid s fs)
    (fun _ s c s1 env env1 hinv hstep hp =>
      fsInv_step (segmentsOf name) w.env perm uid gid s s1 c env env1 hinv hstep hp)
    _ [] St.start w.env _ _ rfl hrun hrep

/-- After a successful run on the model filesystem all segments are in place and
nothing else has changed. -/
theorem walked_of_success (w : World FS) (name : String) (perm : Nat) (uid gid : Int)
    (habs : isAbs name = true) (hok : (secureMkdirAll fsSys w name perm uid gid).2 = none) :
    walked (segmentsOf name) w.env perm uid gid (segmentsOf name).length
      (secureMkdirAll fsSys w name perm uid gid).1.env := by
  have hinv := fsInv_run w name perm uid gid habs
  rw [hok] at hinv
  exact hinv

theorem entryOK_isDir (fs0 fs : FS) (perm : Nat) (uid gid : Int) (p : List String)
    (h : entryOK fs0 fs perm uid gid p) : ∃ u g m, fs.entries p = some (Entry.dir u g m) := by
  unfold entryOK at h
  rcases he : fs0.entries p with _ | e
  · rw [he] at h
    exact ⟨_, _, _, h⟩
  · rw [he] at h
    obtain ⟨⟨u, g, m, rfl⟩, h2⟩ := h
    exact ⟨u, g, m, h2⟩

/-- Claim C9: success postcondition over the model filesystem.  If
`secureMkdirAll` returns nil on an absolute path, then afterwards every prefix of
the path (its first `k` segments, `k = 1..n`) is a directory; an entry that
existed before the call is unchanged, owner included; a directory created by the
call has the requested mode and the requested uid and gid (an id requested as
`-1` being the id of the creating process, left in place by fchown); and no
other path of the filesystem has changed. -/
theorem secureMkdirAll_success_postcondition (w : World FS) (name : String) (perm : Nat)
    (uid gid : Int) (habs : isAbs name = true)
    (hok : (secureMkdirAll fsSys w name perm uid gid).2 = none) :
    (∀ k, 0 < k → k ≤ (segmentsOf name).length →
      (∃ u g m, (secureMkdirAll fsSys w name perm uid gid).1.env.entries
          ((segmentsOf name).take k) = some (Entry.dir u g m)) ∧
      (∀ e, w.env.entries ((segmentsOf name).take k) = some e →
        (secureMkdirAll fsSys w name perm uid gid).1.env.entries ((segmentsOf name).take k) =
          some e) ∧
      (w.env.entries ((segmentsOf name).take k) = none →
        (secureMkdirAll fsSys w name perm uid gid).1.env.entries ((segmentsOf name).take k) =
          some (Entry.dir (chownId uid w.env.procUid) (chownId gid w.env.procGid) perm)) ∧
      (w.env.entries ((segmentsOf name).take k) = none → uid ≠ -1 → gid ≠ -1 →
        (secureMkdirAll fsSys w name perm uid gid).1.env.entries ((segmentsOf name).take k) =
          some (Entry.dir uid gid perm))) ∧
      ∀ p, (∀ k, 0 < k → k ≤ (segmentsOf name).length → p ≠ (segmentsOf name).take k) →
        (secureMkdirAll fsSys w name perm uid gid).1.env.entries p = w.env.entries p := by
  obtain ⟨_, _, w3, w4⟩ := walked_of_success w name perm uid gid habs hok
  refine ⟨fun k h1 h2 => ?_, w4⟩
  have hk := w3 k h1 h2
  unfold entryOK at hk
  rcases he : w.env.entries ((segmentsOf name).take k) with _ | e
  · rw [he] at hk
    simp only [] at hk
    refine ⟨⟨_, _, _, hk⟩, fun e h => (by cases h), fun _ => hk, fun _ hu hg => ?_⟩
    rw [hk]
    simp [chownId, hu, hg]
  · rw [he] at hk
    obtain ⟨⟨u, g, m, rfl⟩, hk2⟩ := hk
    exact ⟨⟨u, g, m, hk2⟩, fun e h => (by cases h; exact hk2), fun h => (by cases h),
      fun h => (by cases h)⟩

/-- Claim C9 on a concrete run: `/snap/data/x` on a filesystem that has `/snap`. -/
theorem secureMkdirAll_success_postcondition_witness :
    isAbs "/snap/data/x" = true ∧
      (secureMkdirAll fsSys ⟨mkFS [(["snap"], Entry.dir 0 0 493)] 0 0, []⟩ "/snap/data/x" 448
        1000 1000).2 = none ∧
      ∀ p, (∀ k, 0 < k → k ≤ (segmentsOf "/snap/data/x").length →
          p ≠ (segmentsOf "/snap/data/x").take k) →
        (secureMkdirAll fsSys ⟨mkFS [(["snap"], Entry.dir 0 0 493)] 0 0, []⟩ "/snap/data/x" 448
          1000 1000).1.env.entries p = (mkFS [(["snap"], Entry.dir 0 0 493)] 0 0).entries p :=
  ⟨by decide, by decide,
    (secureMkdirAll_success_postcondition ⟨mkFS [(["snap"], Entry.dir 0 0 493)] 0 0, []⟩
      "/snap/data/x" 448 1000 1000 (by decide) (by decide)).2⟩

theorem idemState_afterSegment (segs : List String) (fs : FS) (i : Nat) (ds : List Int)
    (h : Int) (hfd : lookupFd fs.fds h = some (segs.take (i + 1))) (hopen : allOpen fs ds)
    (hne : ∀ x ∈ ds, x ≠ h) (hi : i < segs.length) :
    idemState segs (afterSegment segs i ds h) fs := by
  unfold afterSegment
  split
  · rfl
  · split
    · refine ⟨hfd, ?_⟩
      intro d hd
      rcases List.mem_cons.1 hd with rfl | hd
      · exact ⟨_, hfd⟩
      · exact hopen d hd
    · have hlen : segs.length - 1 = i + 1 := by omega
      cases ds with
      | nil =>
        refine ⟨by rw [hlen]; exact hfd, ?_⟩
        intro d hd
        simp only [List.mem_singleton] at hd
        subst hd
        exact ⟨_, hfd⟩
      | cons d ds => exact ⟨by rw [hlen]; exact hfd, hne, by omega⟩

theorem idemInv_step (segs : List String) (fs1 : FS)
    (hdirs : ∀ k, 0 < k → k ≤ segs.length →
      ∃ u g m, fs1.entries (segs.take k) = some (Entry.dir u g m))
    (perm : Nat) (uid gid : Int) (T : List Call) (s s1 : St) (c : Call) (fs fs2 : FS)
    (hinv : idemInv segs fs1 T s fs) (hstep : Step segs perm uid gid s c s1)
    (hp : perform fsSys fs c = some fs2) : idemInv segs fs1 (T ++ [c]) s1 fs2 := by
  obtain ⟨he, hu, hg, hT, hs⟩ := hinv
  have hT2 : ∀ c2, (c2.isFchown = false ∧
      ∀ fd p m r, c2 = Call.sysMkdirat fd p m r → r = some EEXIST) →
      ∀ x ∈ T ++ [c2], x.isFchown = false ∧
        ∀ fd p m r, x = Call.sysMkdirat fd p m r → r = some EEXIST := by
    intro c2 hc2 x hx
    rcases List.mem_append.1 hx with hx | hx
    · exact hT x hx
    · simp only [List.mem_singleton] at hx
      subst hx
      exact hc2
  cases hstep with
  | rootFailed e =>
    obtain ⟨hr, _⟩ := perform_open fs fs2 _ _ _ hp
    cases hr
  | rootOnly fd hn =>
    obtain ⟨_, rfl⟩ := perform_open fs fs2 _ _ _ hp
    exact ⟨he, hu, hg, hT2 _ ⟨rfl, fun _ _ _ _ h => by cases h⟩, rfl⟩
  | rootOpened fd hn =>
    obtain ⟨hfd, rfl⟩ := perform_open fs fs2 _ _ _ hp
    injection hfd with hfd
    subst hfd
    refine ⟨he, hu, hg, hT2 _ ⟨rfl, fun _ _ _ _ h => by cases h⟩,
      by simp [FS.withFd, lookupFd], ?_⟩
    intro d hd
    simp only [List.mem_singleton] at hd
    subst hd
    exact ⟨[], by simp [FS.withFd, lookupFd]⟩
  | mkdirMade i fd ds s hseg =>
    obtain ⟨hfd, hopen⟩ := hs
    have hi := lt_length_of_getElem? segs i s hseg
    rcases perform_mkdirat fs fs2 fd s perm none _ hp hfd with ⟨hnone, _, _⟩ | ⟨_, hr, _⟩
    · rw [take_succ_eq segs i s hseg, he] at hnone
      obtain ⟨u, g, m, hd⟩ := hdirs (i + 1) (by omega) (by omega)
      rw [hd] at hnone
      cases hnone
    · cases hr
  | mkdirExists i fd ds s hseg =>
    obtain ⟨hfd, hopen⟩ := hs
    rcases perform_mkdirat fs fs2 fd s perm _ _ hp hfd with ⟨_, hr, _⟩ | ⟨_, _, rfl⟩
    · cases hr
    · refine ⟨he, hu, hg, hT2 _ ⟨rfl, fun _ _ _ _ h => ?_⟩, rfl, hfd, hopen⟩
      injection h with _ _ _ h4
      exact h4.symm
  | mkdirFailed i fd ds s e hseg hne =>
    obtain ⟨hfd, hopen⟩ := hs
    have hi := lt_length_of_getElem? segs i s hseg
    rcases perform_mkdirat fs fs2 fd s perm _ _ hp hfd with ⟨_, hr, _⟩ | ⟨_, hr, _⟩
    · cases hr
    · exact absurd (Option.some.inj hr) hne
  | openatFailed i fd ds made s e hseg =>
    obtain ⟨_, hfd, hopen⟩ := hs
    have hi := lt_length_of_getElem? segs i s hseg
    rcases perform_openat fs fs2 fd s 0 _ _ hp hfd with ⟨_, hr, _⟩ | ⟨hno, _, _⟩
    · cases hr
    · rw [take_succ_eq segs i s hseg, he] at hno
      exact absurd (hdirs (i + 1) (by omega) (by omega)) hno
  | openatMade i fd ds s h hseg =>
    obtain ⟨hm, _, _⟩ := hs
    cases hm
  | openatExisting i fd ds s h hseg =>
    obtain ⟨_, hfd, hopen⟩ := hs
    have hi := lt_length_of_getElem? segs i s hseg
    rcases perform_openat fs fs2 fd s 0 _ _ hp hfd with ⟨_, hr, rfl⟩ | ⟨_, ⟨e, hr⟩, _⟩
    · injection hr with hr
      subst hr
      rw [take_succ_eq segs i s hseg]
      exact ⟨he, hu, hg, hT2 _ ⟨rfl, fun _ _ _ _ h => by cases h⟩,
        idemState_afterSegment segs _ i ds _ (by simp [FS.withFd, lookupFd])
          (allOpen_withFd fs ds _ _ hopen) (ne_fresh_of_allOpen fs ds hopen) hi⟩
    · cases hr
  | fchownFailed i fd ds h s e hseg => exact absurd hs (by simp [idemState])
  | fchownDone i fd ds h => exact absurd hs (by simp [idemState])
  | closed d ds k =>
    obtain ⟨c1, c2, c3, c4⟩ := perform_close fs fs2 d hp
    refine ⟨c1.trans he, c2.trans hu, c3.trans hg, hT2 _ ⟨rfl, fun _ _ _ _ h => by cases h⟩, ?_⟩
    cases k with
    | finish r =>
      simp only [idemState] at hs
      subst hs
      cases ds <;> rfl
    | final h =>
      obtain ⟨hfd, hne, hn⟩ := hs
      have hfd2 : lookupFd fs2.fds h = some (segs.take (segs.length - 1)) := by
        rw [c4 h (hne d (List.mem_cons_self d ds))]
        exact hfd
      cases ds with
      | nil =>
        refine ⟨hfd2, ?_⟩
        intro x hx
        simp only [List.mem_singleton] at hx
        subst hx
        exact ⟨_, hfd2⟩
      | cons d2 ds2 => exact ⟨hfd2, fun x hx => hne x (List.mem_cons_of_mem d hx), hn⟩

/-- Claim C10: idempotence over the model filesystem.  If a first call of
`secureMkdirAll` succeeds, then a second call with the same arguments on the
resulting filesystem succeeds too; every `sysMkdirat` it issues reports `EEXIST`
(it creates nothing); it issues no `sysFchown`; and the on-disk state after the
second call (the entry at every path, and the ids of the process) is identical to
the state after the first. -/
theorem secureMkdirAll_idempotent (w : World FS) (name : String) (perm : Nat) (uid gid : Int)
    (hok : (secureMkdirAll fsSys w name perm uid gid).2 = none) :
    (secureMkdirAll fsSys (secureMkdirAll fsSys w name perm uid gid).1 name perm uid gid).2 =
        none ∧
      (∀ c ∈ callsOf fsSys (secureMkdirAll fsSys w name perm uid gid).1 name perm uid gid,
        c.isFchown = false ∧ ∀ fd p m r, c = Call.sysMkdirat fd p m r → r = some EEXIST) ∧
      (secureMkdirAll fsSys (secureMkdirAll fsSys w name perm uid gid).1 name perm uid
          gid).1.env.entries = (secureMkdirAll fsSys w name perm uid gid).1.env.entries ∧
      (secureMkdirAll fsSys (secureMkdirAll fsSys w name perm uid gid).1 name perm uid
          gid).1.env.procUid = (secureMkdirAll fsSys w name perm uid gid).1.env.procUid ∧
      (secureMkdirAll fsSys (secureMkdirAll fsSys w name perm uid gid).1 name perm uid
          gid).1.env.procGid = (secureMkdirAll fsSys w name perm uid gid).1.env.procGid := by
  have habs : isAbs name = true := by
    cases h : isAbs name with
    | true => rfl
    | false => rw [secureMkdirAll_relative fsSys w name perm uid gid h] at hok; cases hok
  have hdirs : ∀ k, 0 < k → k ≤ (segmentsOf name).length →
      ∃ u g m, (secureMkdirAll fsSys w name perm uid gid).1.env.entries
        ((segmentsOf name).take k) = some (Entry.dir u g m) :=
    fun k h1 h2 =>
      entryOK_isDir _ _ _ _ _ _ ((walked_of_success w name perm uid gid habs hok).2.2.1 k h1 h2)
  generalize (secureMkdirAll fsSys w name perm uid gid).1 = w1 at hdirs ⊢
  have hrun := callsOf_protocol fsSys w1 name perm uid gid habs
  have hrep := callsOf_replay fsSys w1 name perm uid gid
  have hinv := joint_invariant fsSys (segmentsOf name) perm uid gid
    (fun T s fs => idemInv (segmentsOf name) w1.env T s fs)
    (fun T s c s1 env env1 hinv hstep hp =>
      idemInv_step (segmentsOf name) w1.env hdirs perm uid gid T s s1 c env env1 hinv hstep hp)
    _ [] St.start w1.env _ _ ⟨rfl, rfl, rfl, by simp, trivial⟩ hrun hrep
  obtain ⟨h1, h2, h3, h4, h5⟩ := hinv
  exact ⟨h5, by simpa using h4, h1, h2, h3⟩

/-- Claim C10 on a concrete run: `/snap/data/x` created twice on a filesystem that
has `/snap`. -/
theorem secureMkdirAll_idempotent_witness :
    (secureMkdirAll fsSys ⟨mkFS [(["snap"], Entry.dir 0 0 493)] 0 0, []⟩ "/snap/data/x" 448
        1000 1000).2 = none ∧
      (secureMkdirAll fsSys
        (secureMkdirAll fsSys ⟨mkFS [(["snap"], Entry.dir 0 0 493)] 0 0, []⟩ "/snap/data/x" 448
          1000 1000).1 "/snap/data/x" 448 1000 1000).2 = none :=
  ⟨by decide,
    (secureMkdirAll_idempotent ⟨mkFS [(["snap"], Entry.dir 0 0 493)] 0 0, []⟩ "/snap/data/x"
      448 1000 1000 (by decide)).1⟩

/-! ## The mount point check -/

/-- Claim C11: when `osLstat` succeeds (the entry exists), `ensureMountPoint` issues
none of the five recorded calls (the record is unchanged and the environment is
the one `osLstat` left) and returns nil if and only if the inspected entry is a
directory; for a regular file and for a symbolic link it returns the
not-a-directory error. -/
theorem ensureMountPoint_existing (sys : Sys σ) (osLstat : σ → String → σ × LstatResult)
    (w : World σ) (path : String) (mode : Nat) (uid gid : Int) (fi : FileKind)
    (h : (osLstat w.env path).2 = LstatResult.ok fi) :
    (ensureMountPoint sys osLstat w path mode uid gid).1 = ⟨(osLstat w.env path).1, w.trace⟩ ∧
      ((ensureMountPoint sys osLstat w path mode uid gid).2 = none ↔
        fi = FileKind.directory) ∧
      (fi ≠ FileKind.directory →
        (ensureMountPoint sys osLstat w path mode uid gid).2 =
          some (Error.notDirectory path)) ∧
      (fi = FileKind.regular ∨ fi = FileKind.symlink →
        (ensureMountPoint sys osLstat w path mode uid gid).2 ≠ none) := by
  cases fi <;> simp [ensureMountPoint, h, FileKind.IsDir]

/-- Claim C11 on concrete inputs: a symbolic link at `/snap/link`. -/
theorem ensureMountPoint_existing_witness :
    ((fun (s : List Int) (_ : String) => (s, LstatResult.ok FileKind.symlink))
        [3, 0, 4] "/snap/link").2 = LstatResult.ok FileKind.symlink ∧
      (ensureMountPoint scriptSys (fun s _ => (s, LstatResult.ok FileKind.symlink))
        ⟨[3, 0, 4], []⟩ "/snap/link" 493 0 0).2 = some (Error.notDirectory "/snap/link") :=
  ⟨rfl, (ensureMountPoint_existing scriptSys (fun s _ => (s, LstatResult.ok FileKind.symlink))
    ⟨[3, 0, 4], []⟩ "/snap/link" 493 0 0 FileKind.symlink rfl).2.2.1 (by decide)⟩

/-- Claim C12: when `osLstat` fails with a not-exist error, `ensureMountPoint` is
`secureMkdirAll` with the same arguments (same calls, same result: so a relative
path is rejected and a `ReadOnlyFsError` is returned unchanged); when it fails
with any other error, `ensureMountPoint` returns the cannot-inspect error and
issues none of the recorded calls. -/
theorem ensureMountPoint_absent (sys : Sys σ) (osLstat : σ → String → σ × LstatResult)
    (w : World σ) (path : String) (mode : Nat) (uid gid : Int) (e : Errno)
    (h : (osLstat w.env path).2 = LstatResult.err e) :
    (isNotExist e = true →
        ensureMountPoint sys osLstat w path mode uid gid =
          secureMkdirAll sys ⟨(osLstat w.env path).1, w.trace⟩ path mode uid gid ∧
        (isAbs path = false →
          ensureMountPoint sys osLstat w path mode uid gid =
            (⟨(osLstat w.env path).1, w.trace⟩, some (Error.relativePath path))) ∧
        (∀ p, (secureMkdirAll sys ⟨(osLstat w.env path).1, w.trace⟩ path mode uid gid).2 =
            some (Error.ReadOnlyFsError p) →
          (ensureMountPoint sys osLstat w path mode uid gid).2 =
            some (Error.ReadOnlyFsError p))) ∧
      (isNotExist e = false →
        ensureMountPoint sys osLstat w path mode uid gid =
          (⟨(osLstat w.env path).1, w.trace⟩, some (Error.cannotInspect path e))) := by
  constructor
  · intro hne
    have heq : ensureMountPoint sys osLstat w path mode uid gid =
        secureMkdirAll sys ⟨(osLstat w.env path).1, w.trace⟩ path mode uid gid := by
      simp [ensureMountPoint, h, hne]
    refine ⟨heq, fun hrel => ?_, fun p hp => ?_⟩
    · rw [heq, secureMkdirAll_relative sys _ path mode uid gid hrel]
    · rw [heq, hp]
  · intro hne
    simp [ensureMountPoint, h, hne]

/-- Claim C12 on concrete inputs: `/snap/data` is absent and gets created. -/
theorem ensureMountPoint_absent_witness :
    ((fun (s : List Int) (_ : String) => (s, LstatResult.err ENOENT))
        [3, 0, 4] "/snap/data").2 = LstatResult.err ENOENT ∧
      isNotExist ENOENT = true ∧
      ensureMountPoint scriptSys (fun s _ => (s, LstatResult.err ENOENT))
          ⟨[3, 0, 4], []⟩ "/snap/data" 493 0 0 =
        secureMkdirAll scriptSys ⟨[3, 0, 4], []⟩ "/snap/data" 493 0 0 :=
  ⟨rfl, by decide,
    ((ensureMountPoint_absent scriptSys (fun s _ => (s, LstatResult.err ENOENT))
      ⟨[3, 0, 4], []⟩ "/snap/data" 493 0 0 ENOENT rfl).1 (by decide)).1⟩

/-! ## The contract of `secureMkPrefix` -/

theorem namesInv_append_other (segs : List String) (T : List Call) (c : Call)
    (h : namesInv segs T) (h1 : c.isMkdirat = false) (h2 : c.isOpenat = false)
    (h3 : c.mkdiratName = none) (h4 : c.openatName = none) : namesInv segs (T ++ [c]) := by
  obtain ⟨n1, n2⟩ := h
  constructor
  · simp [List.filterMap_append, List.countP_append, h1, h3, n1]
  · simp [List.filterMap_append, List.countP_append, h2, h4, n2]

theorem namesInv_append_mkdirat (segs : List String) (T : List Call) (fd : Int) (s : String)
    (m : Nat) (r : Option Errno) (h : namesInv segs T)
    (hs : segs[T.countP Call.isMkdirat]? = some s) :
    namesInv segs (T ++ [Call.sysMkdirat fd s m r]) := by
  obtain ⟨n1, n2⟩ := h
  constructor
  · simp [List.filterMap_append, List.countP_append, Call.isMkdirat, Call.mkdiratName, n1,
      List.take_succ, hs]
  · simp [List.filterMap_append, List.countP_append, Call.isOpenat, Call.openatName, n2]

theorem namesInv_append_openat (segs : List String) (T : List Call) (fd : Int) (s : String)
    (fl m : Nat) (r : FdResult) (h : namesInv segs T)
    (hs : segs[T.countP Call.isOpenat]? = some s) :
    namesInv segs (T ++ [Call.sysOpenat fd s fl m r]) := by
  obtain ⟨n1, n2⟩ := h
  constructor
  · simp [List.filterMap_append, List.countP_append, Call.isMkdirat, Call.mkdiratName, n1]
  · simp [List.filterMap_append, List.countP_append, Call.isOpenat, Call.openatName, n2,
      List.take_succ, hs]

theorem namesInv_step (segs : List String) (perm : Nat) (uid gid : Int) (T : List Call)
    (s s1 : St) (c : Call) (hpos : posInv segs T s) (hn : namesInv segs T)
    (h : Step segs perm uid gid s c s1) : namesInv segs (T ++ [c]) := by
  cases h with
  | mkdirMade i fd ds s hs =>
    exact namesInv_append_mkdirat segs T _ _ _ _ hn (by rw [hpos.1.2.1]; exact hs)
  | mkdirExists i fd ds s hs =>
    exact namesInv_append_mkdirat segs T _ _ _ _ hn (by rw [hpos.1.2.1]; exact hs)
  | mkdirFailed i fd ds s e hs he =>
    exact namesInv_append_mkdirat segs T _ _ _ _ hn (by rw [hpos.1.2.1]; exact hs)
  | openatFailed i fd ds made s e hs =>
    exact namesInv_append_openat segs T _ _ _ _ _ hn (by rw [hpos.1.1]; exact hs)
  | openatMade i fd ds s h hs =>
    exact namesInv_append_openat segs T _ _ _ _ _ hn (by rw [hpos.1.1]; exact hs)
  | openatExisting i fd ds s h hs =>
    exact namesInv_append_openat segs T _ _ _ _ _ hn (by rw [hpos.1.1]; exact hs)
  | _ => exact namesInv_append_other segs T _ hn rfl rfl rfl rfl

theorem namesInv_run (segs : List String) (perm : Nat) (uid gid : Int) (T : List Call) (t : St)
    (h : runMon segs perm uid gid St.start T = some t) : namesInv segs T := by
  have := runMon_invariant segs perm uid gid (fun T s => posInv segs T s ∧ namesInv segs T)
    (fun T s c s1 hinv hstep =>
      ⟨posInv_step segs perm uid gid T s s1 c hinv.1 (Step_of_step _ _ _ _ _ _ _ hstep),
        namesInv_step segs perm uid gid T s s1 c hinv.1 hinv.2
          (Step_of_step _ _ _ _ _ _ _ hstep)⟩)
    [] St.start T t ⟨rfl, by simp [namesInv]⟩ h
  simpa using this.2

theorem callsOfMkPrefix_protocol (sys : Sys σ) (w : World σ) (segs : List String) (perm : Nat)
    (uid gid : Int) (hok : (secureMkPrefix sys w segs perm uid gid).2.2 = none) :
    runMon segs perm uid gid St.start (callsOfMkPrefix sys w segs perm uid gid) =
      some (if segs.length = 0 then
          St.unwind (secureMkPrefix sys w segs perm uid gid).2.1 [] (After.finish none)
        else St.mk (segs.length - 1) (secureMkPrefix sys w segs perm uid gid).2.1
          [(secureMkPrefix sys w segs perm uid gid).2.1]) := by
  obtain ⟨T, hT, hm⟩ := secureMkPrefix_protocol sys w segs perm uid gid
  rw [hok] at hm
  have hc : callsOfMkPrefix sys w segs perm uid gid = T := by
    simp [callsOfMkPrefix, hT]
  rw [hc]
  exact hm

theorem callsOfMkPrefix_short (sys : Sys σ) (w : World σ) (segs : List String) (perm : Nat)
    (uid gid : Int) (hok : (secureMkPrefix sys w segs perm uid gid).2.2 = none)
    (hn : segs.length ≤ 1) :
    callsOfMkPrefix sys w segs perm uid gid =
      [Call.sysOpen "/" openFlags 0 (FdResult.ok (secureMkPrefix sys w segs perm uid gid).2.1)] := by
  have h1 : ¬ (segs.length > 1) := by omega
  have h2 : segs.length - 1 = 0 := by omega
  unfold callsOfMkPrefix
  unfold secureMkPrefix at hok ⊢
  simp only [doOpen] at hok ⊢
  rcases h0 : (sys.sysOpen w.env "/" openFlags 0).2 with f0 | e0
  · simp only [h0, h1, h2, if_false, secureMkPrefixLoop, runDefers, ite_self]
    simp
  · simp [h0] at hok

/-- Claim C13: the contract of `secureMkPrefix`.  If `secureMkPrefix` succeeds on a
segment list of length `n`, its `sysMkdirat` calls and its `sysOpenat` calls are
issued on exactly the segments `0..n-2`, in order (none at all when `n` is 0 or
1, where the only call is `sysOpen("/")`); the open calls are `sysOpen("/")`
followed by those openats, and the last of them (the openat of segment `n-2`
when `n ≥ 2`, the root open otherwise) returned the handle that
`secureMkPrefix` returns; and at return the ledger of the call holds exactly that
handle: it is open, every other handle opened during the call has been closed. -/
theorem secureMkPrefix_contract (sys : Sys σ) (w : World σ) (segs : List String) (perm : Nat)
    (uid gid : Int) (hok : (secureMkPrefix sys w segs perm uid gid).2.2 = none) :
    (callsOfMkPrefix sys w segs perm uid gid).filterMap Call.mkdiratName =
        segs.take (segs.length - 1) ∧
      (callsOfMkPrefix sys w segs perm uid gid).filterMap Call.openatName =
        segs.take (segs.length - 1) ∧
      ((callsOfMkPrefix sys w segs perm uid gid).filterMap Call.openCall).map Prod.fst =
        "/" :: segs.take (segs.length - 1) ∧
      ((callsOfMkPrefix sys w segs perm uid gid).filterMap Call.openCall).getLast?.map Prod.snd =
        some (FdResult.ok (secureMkPrefix sys w segs perm uid gid).2.1) ∧
      ledger [] (callsOfMkPrefix sys w segs perm uid gid) =
        some [(secureMkPrefix sys w segs perm uid gid).2.1] ∧
      (segs.length ≤ 1 →
        callsOfMkPrefix sys w segs perm uid gid =
          [Call.sysOpen "/" openFlags 0
            (FdResult.ok (secureMkPrefix sys w segs perm uid gid).2.1)]) := by
  have hrun := callsOfMkPrefix_protocol sys w segs perm uid gid hok
  have hshort := callsOfMkPrefix_short sys w segs perm uid gid hok
  by_cases hn : segs.length = 0
  · have hT := hshort (by omega)
    have ht : segs.take (segs.length - 1) = [] := by simp [hn]
    rw [hT, ht]
    simp [Call.mkdiratName, Call.openatName, Call.openCall, ledger, Call.opened]
  · simp only [hn, if_false] at hrun
    have hpos := posInv_run _ _ _ _ _ _ hrun
    have hnames := namesInv_run _ _ _ _ _ _ hrun
    have hled := ledger_runMon _ _ _ _ _ _ _ hrun
    obtain ⟨⟨p1, p2, p3, p4⟩, _, _⟩ := hpos
    obtain ⟨n1, n2⟩ := hnames
    rw [p2] at n1
    rw [p1] at n2
    exact ⟨n1, n2, p3, p4, by simpa [openOf] using hled, hshort⟩

/-- Claim C13 on a concrete run: the segments `a`, `b`, `c`, where `a` exists. -/
theorem secureMkPrefix_contract_witness :
    (secureMkPrefix scriptSys ⟨[3, -17, 4, 0, 5, 0], []⟩ ["a", "b", "c"] 493 0 0).2.2 = none ∧
      (callsOfMkPrefix scriptSys ⟨[3, -17, 4, 0, 5, 0], []⟩ ["a", "b", "c"] 493 0 0).filterMap
        Call.mkdiratName = ["a", "b", "c"].take (["a", "b", "c"].length - 1) :=
  ⟨by decide,
    (secureMkPrefix_contract scriptSys ⟨[3, -17, 4, 0, 5, 0], []⟩ ["a", "b", "c"] 493 0 0
      (by decide)).1⟩

/-! ## The outcomes of `secureMkDir` -/

/-- The five ways a call of `secureMkDir` on an existing index can go, with the
calls issued and the values returned. -/
theorem secureMkDir_cases (sys : Sys σ) (w : World σ) (fd : Int) (segs : List String)
    (i : Nat) (perm : Nat) (uid gid : Int) (seg : String) (hseg : segs[i]? = some seg) :
    (∃ h, callsOfMkDir sys w fd segs i perm uid gid =
          [Call.sysMkdirat fd seg perm none, Call.sysOpenat fd seg openFlags 0 (FdResult.ok h),
            Call.sysFchown h uid gid none] ∧
        (secureMkDir sys w fd segs i perm uid gid).2 = (h, none)) ∨
      (∃ h, callsOfMkDir sys w fd segs i perm uid gid =
          [Call.sysMkdirat fd seg perm (some EEXIST),
            Call.sysOpenat fd seg openFlags 0 (FdResult.ok h)] ∧
        (secureMkDir sys w fd segs i perm uid gid).2 = (h, none)) ∨
      (∃ e, e ≠ EEXIST ∧
        callsOfMkDir sys w fd segs i perm uid gid = [Call.sysMkdirat fd seg perm (some e)] ∧
        (secureMkDir sys w fd segs i perm uid gid).2 =
          (-1, some (mkdirError segs i seg e))) ∨
      (∃ m e, (m = none ∨ m = some EEXIST) ∧
        callsOfMkDir sys w fd segs i perm uid gid =
          [Call.sysMkdirat fd seg perm m, Call.sysOpenat fd seg openFlags 0 (FdResult.err e)] ∧
        (secureMkDir sys w fd segs i perm uid gid).2 =
          (-1, some (Error.cannotOpen seg (gotUpTo segs i) e))) ∨
      (∃ h e, callsOfMkDir sys w fd segs i perm uid gid =
          [Call.sysMkdirat fd seg perm none, Call.sysOpenat fd seg openFlags 0 (FdResult.ok h),
            Call.sysFchown h uid gid (some e), Call.sysClose h] ∧
        (secureMkDir sys w fd segs i perm uid gid).2 =
          (-1, some (Error.cannotChown seg uid gid (gotUpTo segs i) e))) := by
  simp only [callsOfMkDir, secureMkDir, hseg, doMkdirat, doOpenat, doFchown, doClose]
  rcases h1 : (sys.sysMkdirat w.env fd seg perm).2 with _ | e1
  · simp only []
    rcases h2 : (sys.sysOpenat (sys.sysMkdirat w.env fd seg perm).1 fd seg openFlags 0).2
      with h | e2
    · simp only [if_true]
      rcases h3 : (sys.sysFchown
        (sys.sysOpenat (sys.sysMkdirat w.env fd seg perm).1 fd seg openFlags 0).1 h uid gid).2
        with _ | e3
      · exact Or.inl ⟨h, by simp, rfl⟩
      · exact Or.inr (Or.inr (Or.inr (Or.inr ⟨h, e3, by simp, rfl⟩)))
    · exact Or.inr (Or.inr (Or.inr (Or.inl ⟨none, e2, Or.inl rfl, by simp, rfl⟩)))
  · simp only []
    by_cases he : e1 = EEXIST
    · simp only [he, if_true]
      rcases h2 : (sys.sysOpenat (sys.sysMkdirat w.env fd seg perm).1 fd seg openFlags 0).2
        with h | e2
      · exact Or.inr (Or.inl ⟨h, by simp, rfl⟩)
      · exact Or.inr (Or.inr (Or.inr (Or.inl ⟨some EEXIST, e2, Or.inr rfl, by simp, rfl⟩)))
    · simp only [he, if_false]
      refine Or.inr (Or.inr (Or.inl ⟨e1, he, ?_, ?_⟩))
      · by_cases hr : e1 = EROFS
        · simp [hr]
        · simp [hr]
      · by_cases hr : e1 = EROFS
        · simp [hr, mkdirError]
        · simp [hr, mkdirError]

theorem secureMkPrefixLoop_error_fd (sys : Sys σ) (segs : List String) (perm : Nat)
    (uid gid : Int) (todo : Nat) :
    ∀ (i : Nat) (w : World σ) (fd : Int) (ds : List Int) (e : Error),
      (secureMkPrefixLoop sys segs perm uid gid todo i w fd ds).2.2 = some e →
      (secureMkPrefixLoop sys segs perm uid gid todo i w fd ds).2.1 = -1 := by
  induction todo with
  | zero => intro i w fd ds e h; simp [secureMkPrefixLoop] at h
  | succ todo ih =>
    intro i w fd ds e h
    rw [secureMkPrefixLoop] at h ⊢
    rcases hr : secureMkDir sys w fd segs i perm uid gid with ⟨w1, fd1, _ | e1⟩
    · rw [hr] at h
      simp only [] at h ⊢
      exact ih _ _ _ _ e h
    · rfl

theorem secureMkPrefix_error_fd (sys : Sys σ) (w : World σ) (segs : List String) (perm : Nat)
    (uid gid : Int) (e : Error) (h : (secureMkPrefix sys w segs perm uid gid).2.2 = some e) :
    (secureMkPrefix sys w segs perm uid gid).2.1 = -1 := by
  unfold secureMkPrefix at h ⊢
  simp only [doOpen] at h ⊢
  rcases h0 : (sys.sysOpen w.env "/" openFlags 0).2 with f0 | e0
  · rw [h0] at h
    simp only [] at h ⊢
    split at h
    · rename_i hpos
      simp only [hpos, if_true]
      exact secureMkPrefixLoop_error_fd sys segs perm uid gid _ _ _ _ _ e h
    · simp at h
  · rfl

/-- Claim C14: no handle is handed over on failure.  Whenever `secureMkDir` (on an
existing index) or `secureMkPrefix` returns a non-nil error, the descriptor it
returns is `-1` and the ledger of the calls it issued is balanced and empty: no
handle it opened remains open.  In particular, when `sysFchown` fails the calls
of `secureMkDir` are exactly mkdirat (succeeding), openat (returning `h`), the
failing fchown of `h` and one `sysClose(h)`: the new handle is closed once and
nothing is removed. -/
theorem no_handle_on_failure (sys : Sys σ) (w : World σ) (segs : List String) (perm : Nat)
    (uid gid : Int) :
    (∀ (fd : Int) (i : Nat) (seg : String) (e : Error), segs[i]? = some seg →
        (secureMkDir sys w fd segs i perm uid gid).2.2 = some e →
        (secureMkDir sys w fd segs i perm uid gid).2.1 = -1 ∧
        ledger [] (callsOfMkDir sys w fd segs i perm uid gid) = some [] ∧
        ∀ h u g e2, Call.sysFchown h u g (some e2) ∈ callsOfMkDir sys w fd segs i perm uid gid →
          callsOfMkDir sys w fd segs i perm uid gid =
            [Call.sysMkdirat fd seg perm none,
              Call.sysOpenat fd seg openFlags 0 (FdResult.ok h),
              Call.sysFchown h uid gid (some e2), Call.sysClose h]) ∧
      ∀ (e : Error), (secureMkPrefix sys w segs perm uid gid).2.2 = some e →
        (secureMkPrefix sys w segs perm uid gid).2.1 = -1 ∧
        ledger [] (callsOfMkPrefix sys w segs perm uid gid) = some [] := by
  constructor
  · intro fd i seg e hseg herr
    rcases secureMkDir_cases sys w fd segs i perm uid gid seg hseg with
      ⟨h, hT, hr⟩ | ⟨h, hT, hr⟩ | ⟨e1, he, hT, hr⟩ | ⟨m, e1, hm, hT, hr⟩ | ⟨h, e1, hT, hr⟩
    · rw [hr] at herr; cases herr
    · rw [hr] at herr; cases herr
    · rw [hT, hr]
      exact ⟨rfl, by simp [ledger, Call.opened], by simp⟩
    · rw [hT, hr]
      exact ⟨rfl, by simp [ledger, Call.opened], by simp⟩
    · rw [hT, hr]
      refine ⟨rfl, by simp [ledger, Call.opened], ?_⟩
      intro h2 u g e2 hmem
      simp only [List.mem_cons, List.mem_singleton, Call.sysFchown.injEq, Option.some.injEq,
        List.not_mem_nil, or_false, reduceCtorEq, false_or] at hmem
      obtain ⟨rfl, rfl, rfl, rfl⟩ := hmem
      rfl
  · intro e herr
    refine ⟨secureMkPrefix_error_fd sys w segs perm uid gid e herr, ?_⟩
    obtain ⟨T, hT, hm⟩ := secureMkPrefix_protocol sys w segs perm uid gid
    rw [herr] at hm
    have hc : callsOfMkPrefix sys w segs perm uid gid = T := by
      simp [callsOfMkPrefix, hT]
    rw [hc]
    simpa [openOf] using ledger_runMon _ _ _ _ _ _ _ hm

/-- Claim C14 on a concrete run: fchown of the new directory `a` fails with `EPERM`. -/
theorem no_handle_on_failure_witness :
    (["a", "b"] : List String)[0]? = some "a" ∧
      (secureMkDir scriptSys ⟨[0, 4, -1], []⟩ 3 ["a", "b"] 0 493 0 0).2.2 =
        some (Error.cannotChown "a" 0 0 "/" 1) ∧
      (secureMkDir scriptSys ⟨[0, 4, -1], []⟩ 3 ["a", "b"] 0 493 0 0).2.1 = -1 ∧
      ledger [] (callsOfMkDir scriptSys ⟨[0, 4, -1], []⟩ 3 ["a", "b"] 0 493 0 0) = some [] :=
  ⟨by decide, by decide,
    ((no_handle_on_failure scriptSys ⟨[0, 4, -1], []⟩ ["a", "b"] 493 0 0).1 3 0 "a"
      (Error.cannotChown "a" 0 0 "/" 1) (by decide) (by decide)).1,
    ((no_handle_on_failure scriptSys ⟨[0, 4, -1], []⟩ ["a", "b"] 493 0 0).1 3 0 "a"
      (Error.cannotChown "a" 0 0 "/" 1) (by decide) (by decide)).2.1⟩

/-- Claim C15: already-exists is absorbed.  For every parent handle, segment list
and index `i`: if the `sysMkdirat` of segment `i` fails with `EEXIST` and the
`sysOpenat` that follows succeeds with handle `h`, then `secureMkDir` returns
`(h, nil)`; its calls are exactly that mkdirat and that openat, so there is no
`sysFchown` and no `sysClose`, and `h` is left open. -/
theorem secureMkDir_absorbs_eexist (sys : Sys σ) (w : World σ) (fd : Int) (segs : List String)
    (i : Nat) (perm : Nat) (uid gid : Int) (seg : String) (h : Int)
    (hseg : segs[i]? = some seg)
    (hmk : (sys.sysMkdirat w.env fd seg perm).2 = some EEXIST)
    (hop : (sys.sysOpenat (sys.sysMkdirat w.env fd seg perm).1 fd seg openFlags 0).2 =
      FdResult.ok h) :
    (secureMkDir sys w fd segs i perm uid gid).2 = (h, none) ∧
      callsOfMkDir sys w fd segs i perm uid gid =
        [Call.sysMkdirat fd seg perm (some EEXIST),
          Call.sysOpenat fd seg openFlags 0 (FdResult.ok h)] ∧
      (∀ c ∈ callsOfMkDir sys w fd segs i perm uid gid,
        c.isFchown = false ∧ c.isClose = false) ∧
      ledger [] (callsOfMkDir sys w fd segs i perm uid gid) = some [h] := by
  have hT : callsOfMkDir sys w fd segs i perm uid gid =
      [Call.sysMkdirat fd seg perm (some EEXIST),
        Call.sysOpenat fd seg openFlags 0 (FdResult.ok h)] := by
    simp [callsOfMkDir, secureMkDir, hseg, doMkdirat, doOpenat, hmk, hop]
  refine ⟨?_, hT, ?_, ?_⟩
  · simp [secureMkDir, hseg, doMkdirat, doOpenat, hmk, hop]
  · rw [hT]
    simp [Call.isFchown, Call.isClose]
  · rw [hT]
    simp [ledger, Call.opened]

/-- Claim C15 on a concrete run: `a` exists and is opened as handle 4. -/
theorem secureMkDir_absorbs_eexist_witness :
    (["a", "b"] : List String)[0]? = some "a" ∧
      (scriptSys.sysMkdirat [-17, 4] 3 "a" 493).2 = some EEXIST ∧
      (scriptSys.sysOpenat (scriptSys.sysMkdirat [-17, 4] 3 "a" 493).1 3 "a" openFlags 0).2 =
        FdResult.ok 4 ∧
      (secureMkDir scriptSys ⟨[-17, 4], []⟩ 3 ["a", "b"] 0 493 0 0).2 = (4, none) :=
  ⟨by decide, by decide, by decide,
    (secureMkDir_absorbs_eexist scriptSys ⟨[-17, 4], []⟩ 3 ["a", "b"] 0 493 0 0 "a" 4
      (by decide) (by decide) (by decide)).1⟩

/-! ## Where the read-only error comes from -/

theorem verdict_of_rejected (segs : List String) (perm : Nat) (uid gid : Int) (s1 s2 : St)
    (c : Call) (h : Step segs perm uid gid s1 c s2) (hc : c.accepted = false) :
    ∃ e, failing s2 = true ∧ verdict s2 = some e ∧
      ((∃ p, e = Error.ReadOnlyFsError p) ↔ ∃ fd s m, c = Call.sysMkdirat fd s m (some EROFS)) := by
  cases h with
  | rootFailed e => exact ⟨_, rfl, rfl, by simp⟩
  | mkdirFailed i fd ds s e hs he =>
    refine ⟨_, (failing_unwindTo segs ds _).1, (failing_unwindTo segs ds _).2, ?_⟩
    by_cases hr : e = EROFS
    · subst hr
      simp [mkdirError]
    · simp [mkdirError, hr]
  | openatFailed i fd ds made s e hs =>
    exact ⟨_, (failing_unwindTo segs ds _).1, (failing_unwindTo segs ds _).2, by simp⟩
  | fchownFailed i fd ds h s e hs => exact ⟨_, rfl, rfl, by simp⟩
  | mkdirExists i fd ds s hs => simp [Call.accepted] at hc
  | _ => cases hc

/-- Claim C16: read-only detection happens only at creation time.  In a run of
`secureMkdirAll`, for the call that was not accepted (the failing one): the
result is a `ReadOnlyFsError` if and only if that call is a `sysMkdirat` that
failed with `EROFS`; so an `EROFS` reported by the root open, by an openat or by
an fchown gives an error that is not a `ReadOnlyFsError`.  Every
`ReadOnlyFsError` returned comes from such a mkdirat.  For `secureMkDir` alone:
it returns a `ReadOnlyFsError` if and only if its `sysMkdirat` fails with
`EROFS`. -/
theorem readonly_only_from_mkdirat (sys : Sys σ) (w : World σ) (name : String) (perm : Nat)
    (uid gid : Int) :
    (∀ (pre post : List Call) (c : Call),
        callsOf sys w name perm uid gid = pre ++ c :: post → c.accepted = false →
        ((∃ p, (secureMkdirAll sys w name perm uid gid).2 = some (Error.ReadOnlyFsError p)) ↔
          ∃ fd s m, c = Call.sysMkdirat fd s m (some EROFS))) ∧
      (∀ p, (secureMkdirAll sys w name perm uid gid).2 = some (Error.ReadOnlyFsError p) →
        ∃ pre post fd s m, callsOf sys w name perm uid gid =
          pre ++ Call.sysMkdirat fd s m (some EROFS) :: post) ∧
      (∀ (fd : Int) (segs : List String) (i : Nat) (seg : String), segs[i]? = some seg →
        ((∃ p, (secureMkDir sys w fd segs i perm uid gid).2.2 =
            some (Error.ReadOnlyFsError p)) ↔
          (sys.sysMkdirat w.env fd seg perm).2 = some EROFS)) := by
  have part1 : ∀ (pre post : List Call) (c : Call),
      callsOf sys w name perm uid gid = pre ++ c :: post → c.accepted = false →
      ((∃ p, (secureMkdirAll sys w name perm uid gid).2 = some (Error.ReadOnlyFsError p)) ↔
        ∃ fd s m, c = Call.sysMkdirat fd s m (some EROFS)) := by
    intro pre post c hsplit hc
    have habs := isAbs_of_call sys w name perm uid gid _ _ _ hsplit
    have hrun := callsOf_protocol sys w name perm uid gid habs
    rw [hsplit] at hrun
    obtain ⟨s1, s2, h1, h2, h3⟩ := runMon_split _ _ _ _ _ _ _ _ _ hrun
    obtain ⟨e, hf, hv, hiff⟩ :=
      verdict_of_rejected _ _ _ _ _ _ _ (Step_of_step _ _ _ _ _ _ _ h2) hc
    obtain ⟨hres, _⟩ := failing_done _ _ _ _ _ _ _ _ hf hv h3
    rw [hres, ← hiff]
    simp
  refine ⟨part1, ?_, ?_⟩
  · intro p hp
    have habs : isAbs name = true := by
      cases h : isAbs name with
      | true => rfl
      | false => rw [secureMkdirAll_relative sys w name perm uid gid h] at hp; cases hp
    have hrun := callsOf_protocol sys w name perm uid gid habs
    have hacc := accepted_invariant _ _ _ _ _ _ hrun
    have hnot : ¬ ∀ c ∈ callsOf sys w name perm uid gid, c.accepted = true := by
      intro hall
      have := hacc.2 hall
      rw [hp] at this
      simp [failing] at this
    obtain ⟨c, hmem, hc⟩ : ∃ c ∈ callsOf sys w name perm uid gid, c.accepted = false := by
      by_contra hcon
      apply hnot
      intro c hmem
      cases hca : c.accepted with
      | true => rfl
      | false => exact absurd ⟨c, hmem, hca⟩ hcon
    obtain ⟨pre, post, hsplit⟩ := List.append_of_mem hmem
    obtain ⟨fd, s, m, rfl⟩ := (part1 pre post c hsplit hc).1 ⟨p, hp⟩
    exact ⟨pre, post, fd, s, m, hsplit⟩
  · intro fd segs i seg hseg
    simp only [secureMkDir, hseg, doMkdirat, doOpenat, doFchown, doClose]
    rcases h1 : (sys.sysMkdirat w.env fd seg perm).2 with _ | e1
    · simp only []
      rcases h2 : (sys.sysOpenat (sys.sysMkdirat w.env fd seg perm).1 fd seg openFlags 0).2
        with h | e2
      · simp only [if_true]
        rcases h3 : (sys.sysFchown
          (sys.sysOpenat (sys.sysMkdirat w.env fd seg perm).1 fd seg openFlags 0).1 h uid
          gid).2 with _ | e3 <;> simp
      · simp
    · simp only []
      by_cases he : e1 = EEXIST
      · subst he
        have hne : ¬ (EEXIST = EROFS) := by decide
        simp only [if_true]
        rcases h2 : (sys.sysOpenat (sys.sysMkdirat w.env fd seg perm).1 fd seg openFlags 0).2
          with h | e2 <;> simp [hne]
      · by_cases hr : e1 = EROFS
        · subst hr
          simp [he]
        · simp [he, hr]

/-- Claim C16 on a concrete run: the openat of `data` reports `EROFS` and the
error is the generic cannot-open error. -/
theorem readonly_only_from_mkdirat_witness :
    callsOf scriptSys ⟨[3, -17, 4, 0, -30], []⟩ "/snap/data" 493 0 0 =
        [Call.sysOpen "/" openFlags 0 (FdResult.ok 3), Call.sysMkdirat 3 "snap" 493 (some EEXIST),
          Call.sysOpenat 3 "snap" openFlags 0 (FdResult.ok 4), Call.sysClose 3,
          Call.sysMkdirat 4 "data" 493 none] ++
        Call.sysOpenat 4 "data" openFlags 0 (FdResult.err EROFS) :: [Call.sysClose 4] ∧
      (Call.sysOpenat 4 "data" openFlags 0 (FdResult.err EROFS)).accepted = false ∧
      ((∃ p, (secureMkdirAll scriptSys ⟨[3, -17, 4, 0, -30], []⟩ "/snap/data" 493 0 0).2 =
          some (Error.ReadOnlyFsError p)) ↔
        ∃ fd s m, Call.sysOpenat 4 "data" openFlags 0 (FdResult.err EROFS) =
          Call.sysMkdirat fd s m (some EROFS)) :=
  ⟨by decide, by decide,
    (readonly_only_from_mkdirat scriptSys ⟨[3, -17, 4, 0, -30], []⟩ "/snap/data" 493 0 0).1
      [Call.sysOpen "/" openFlags 0 (FdResult.ok 3), Call.sysMkdirat 3 "snap" 493 (some EEXIST),
        Call.sysOpenat 3 "snap" openFlags 0 (FdResult.ok 4), Call.sysClose 3,
        Call.sysMkdirat 4 "data" 493 none]
      [Call.sysClose 4] _ (by decide) (by decide)⟩

/-! ## The privilege gate of snapctl -/

/-- Claim C17: the privilege gate of `Run`.  For every uid and every registered
command name, `Run` registers under that name the command built by its
generator (with the buffers and the context attached) if and only if `uid = 0`
or the name is `get`, `services` or `set-health`; otherwise it registers
`ForbiddenCommand{Uid: uid, Name: name}`, whatever the generator is, and executing
that entry returns, for every argument list and whatever the real commands do, a
non-nil `ForbiddenCommandError` whose message is `cannot use`, the quoted name,
`with uid`, the uid in decimal, `, try with sudo`: for a name that `%q` leaves
unescaped, `cannot use "<name>" with uid <uid>, try with sudo`. -/
theorem run_privilege_gate {Cmd Ctx Err : Type} (M : CommandMethods Cmd Ctx Err)
    (quote : String → String) (context : Ctx) (commands : List (String × CommandInfo Cmd))
    (uid : Nat) (name : String) (cmdInfo : CommandInfo Cmd)
    (hmem : (name, cmdInfo) ∈ commands) :
    (name, runCommandData M context uid name cmdInfo) ∈ runRegistered M context commands uid ∧
      ((∃ cmd, runCommandData M context uid name cmdInfo = CommandData.command cmd) ↔
        (uid = 0 ∨ name = "get" ∨ name = "services" ∨ name = "set-health")) ∧
      ((uid = 0 ∨ name = "get" ∨ name = "services" ∨ name = "set-health") →
        runCommandData M context uid name cmdInfo =
          CommandData.command
            (M.setContext (M.setStderr (M.setStdout (cmdInfo.generator ()))) context)) ∧
      (¬ (uid = 0 ∨ name = "get" ∨ name = "services" ∨ name = "set-health") →
        runCommandData M context uid name cmdInfo = CommandData.forbidden ⟨uid, name⟩ ∧
        (∀ other : CommandInfo Cmd,
          runCommandData M context uid name other = CommandData.forbidden ⟨uid, name⟩) ∧
        (∀ args, CommandData.Execute M quote (runCommandData M context uid name cmdInfo) args =
          some (ExecuteError.forbidden
            ⟨"cannot use " ++ quote name ++ " with uid " ++ toString uid ++
              ", try with sudo"⟩)) ∧
        (quote name = "\"" ++ name ++ "\"" →
          ∀ args, ∃ e, CommandData.Execute M quote (runCommandData M context uid name cmdInfo)
              args = some (ExecuteError.forbidden e) ∧
            e.Error = "cannot use \"" ++ name ++ "\" with uid " ++ toString uid ++
              ", try with sudo")) := by
  refine ⟨?_, ?_, ?_, ?_⟩
  · exact List.mem_map.2 ⟨(name, cmdInfo), hmem, rfl⟩
  · by_cases h : uid = 0 ∨ name = "get" ∨ name = "services" ∨ name = "set-health"
    · simp only [runCommandData, h, if_true, iff_true]
      exact ⟨_, rfl⟩
    · simp only [runCommandData, h, if_false, iff_false]
      rintro ⟨cmd, hc⟩
      cases hc
  · intro h
    simp only [runCommandData, h, if_true]
  · intro h
    have hd : ∀ other : CommandInfo Cmd,
        runCommandData M context uid name other = CommandData.forbidden ⟨uid, name⟩ := by
      intro other
      simp only [runCommandData, h, if_false]
    refine ⟨hd cmdInfo, hd, fun args => ?_, fun hq args => ?_⟩
    · rw [hd cmdInfo]
      rfl
    · rw [hd cmdInfo]
      refine ⟨_, rfl, ?_⟩
      have hlit : "cannot use " ++ "\"" = "cannot use \"" := by decide
      simp only [ForbiddenCommand.Execute, ForbiddenCommandError.Error, hq]
      simp only [String.append_assoc]
      have hlit2 : "\"" ++ " with uid " = "\" with uid " := by decide
      rw [← String.append_assoc "cannot use " "\"", hlit,
        ← String.append_assoc "\"" " with uid ", hlit2]

/-- Claim C17 on concrete inputs: uid 1000 and the commands `get` and `set`; the
entry for `set` is forbidden. -/
theorem run_privilege_gate_witness :
    (("set", ⟨"", "", fun _ => "set!", false⟩) : String × CommandInfo String) ∈
        [("get", ⟨"", "", fun _ => "get!", false⟩), ("set", ⟨"", "", fun _ => "set!", false⟩)] ∧
      ¬ ((1000 : Nat) = 0 ∨ "set" = "get" ∨ "set" = "services" ∨ "set" = "set-health") ∧
      runCommandData (⟨id, id, fun c _ => c, fun _ _ => none⟩ : CommandMethods String Unit String)
          () 1000 "set" ⟨"", "", fun _ => "set!", false⟩ =
        CommandData.forbidden ⟨1000, "set"⟩ :=
  ⟨by simp, by decide,
    ((run_privilege_gate (⟨id, id, fun c _ => c, fun _ _ => none⟩ :
        CommandMethods String Unit String) plainQuote ()
      [("get", ⟨"", "", fun _ => "get!", false⟩), ("set", ⟨"", "", fun _ => "set!", false⟩)]
      1000 "set" ⟨"", "", fun _ => "set!", false⟩ (by simp)).2.2.2 (by decide)).1⟩

/-! ## The segments of an absolute path -/

theorem cleanBacktrack_component (cs Y : List Char) (hne : cs ≠ []) (hcs : ∀ x ∈ cs, x ≠ '/') :
    cleanBacktrack (cs ++ '/' :: Y) 1 = if Y = [] then ['/'] else Y := by
  induction cs with
  | nil => exact absurd rfl hne
  | cons x xs ih =>
    have hx : x ≠ '/' := hcs x (List.mem_cons_self x xs)
    cases xs with
    | nil =>
      cases Y with
      | nil => simp [cleanBacktrack]
      | cons y ys => simp [cleanBacktrack, hx]
    | cons x2 xs2 =>
      have hrec := ih (by simp) (fun y hy => hcs y (List.mem_cons_of_mem x hy))
      rw [← hrec]
      simp [cleanBacktrack, hx]

theorem bodyOf_eq_nil (stack : List (List Char)) : bodyOf stack = [] ↔ stack = [] := by
  cases stack <;> simp [bodyOf]

theorem bufOf_length (stack : List (List Char)) (h : ∀ c ∈ stack, goodComp c) :
    (bufOf stack).length = 1 ↔ stack = [] := by
  cases stack with
  | nil => simp [bufOf]
  | cons c below =>
    have hc := (h c (List.mem_cons_self c below)).1
    cases c with
    | nil => exact absurd rfl hc
    | cons x xs =>
      simp only [bufOf, bodyOf, List.reverse_cons, List.length_append, List.length_cons,
        List.length_reverse, List.length_nil, reduceCtorEq, iff_false]
      omega

theorem takeWhile_good (c : Char) (rest : List Char) (h1 : c ≠ '/')
    (h2 : ¬ (c = '.' ∧ (rest = [] ∨ rest.head? = some '/')))
    (h3 : ¬ (c = '.' ∧ rest.head? = some '.' ∧ (rest.tail = [] ∨ rest.tail.head? = some '/'))) :
    goodComp ((c :: rest).takeWhile (fun x => x != '/')) := by
  have hc : (c != '/') = true := by simpa using h1
  have hhead : ∀ (l : List Char), l.takeWhile (fun x => x != '/') = [] →
      l = [] ∨ l.head? = some '/' := by
    intro l hl
    cases l with
    | nil => exact Or.inl rfl
    | cons y ys =>
      by_cases hy : y = '/'
      · exact Or.inr (by simp [hy])
      · simp [List.takeWhile_cons, hy] at hl
  refine ⟨?_, ?_, ?_, ?_⟩
  · simp [List.takeWhile_cons, hc]
  · intro x hx
    have := List.mem_takeWhile_imp hx
    simpa using this
  · intro heq
    simp only [List.takeWhile_cons, hc, if_true, List.cons.injEq] at heq
    exact h2 ⟨heq.1, hhead rest heq.2⟩
  · intro heq
    simp only [List.takeWhile_cons, hc, if_true, List.cons.injEq] at heq
    obtain ⟨hc1, hrest⟩ := heq
    cases rest with
    | nil => simp at hrest
    | cons y ys =>
      by_cases hy : y = '/'
      · simp [List.takeWhile_cons, hy] at hrest
      · simp only [List.takeWhile_cons, bne_iff_ne, ne_eq, hy, not_false_eq_true, decide_True,
          if_true, List.cons.injEq] at hrest
        exact h3 ⟨hc1, by simp [hrest.1], by simpa using hhead ys hrest.2⟩

theorem bufOf_push (stack : List (List Char)) (elem : List Char)
    (h : ∀ c ∈ stack, goodComp c) :
    elem.reverse ++ (if (true && (bufOf stack).length != 1) || (!true && (bufOf stack).length != 0)
      then '/' :: bufOf stack else bufOf stack) = bufOf (elem :: stack) := by
  cases stack with
  | nil => simp [bufOf, bodyOf]
  | cons c below =>
    have hlen : (bufOf (c :: below)).length ≠ 1 := by
      intro hl
      have := (bufOf_length (c :: below) h).1 hl
      cases this
    have hb : ((bufOf (c :: below)).length != 1) = true := by simpa using hlen
    rw [hb]
    simp [bufOf, bodyOf]

theorem bufOf_pop (c : List Char) (below : List (List Char)) (hc : goodComp c) :
    cleanBacktrack (bufOf (c :: below)) 1 = bufOf below := by
  have h := cleanBacktrack_component c.reverse (bodyOf below) (by simpa using hc.1)
    (fun x hx => hc.2.1 x (by simpa using hx))
  simp only [bufOf, bodyOf]
  rw [h]
  cases below <;> simp [bufOf, bodyOf]

/-- The loop of `filepath.Clean` on a rooted path keeps the output buffer in the
form `bufOf` of good components. -/
theorem cleanLoop_rooted (fuel : Nat) :
    ∀ (rest : List Char) (stack : List (List Char)), (∀ c ∈ stack, goodComp c) →
      ∃ stack1, (∀ c ∈ stack1, goodComp c) ∧
        cleanLoop true fuel rest (bufOf stack) 1 = bufOf stack1 := by
  induction fuel with
  | zero => intro rest stack h; exact ⟨stack, h, by simp [cleanLoop]⟩
  | succ fuel ih =>
    intro rest stack h
    cases rest with
    | nil => exact ⟨stack, h, by simp [cleanLoop]⟩
    | cons c r =>
      rw [cleanLoop]
      by_cases h1 : c = '/'
      · simp only [h1, if_true]
        exact ih r stack h
      · simp only [h1, if_false]
        by_cases h2 : c = '.' ∧ (r = [] ∨ r.head? = some '/')
        · simp only [h2, if_true]
          exact ih r stack h
        · simp only [h2, if_false]
          by_cases h3 : c = '.' ∧ r.head? = some '.' ∧ (r.tail = [] ∨ r.tail.head? = some '/')
          · simp only [h3, if_true]
            cases stack with
            | nil =>
              have hlen : ¬ ((bufOf ([] : List (List Char))).length > 1) := by simp [bufOf]
              simp only [hlen, if_false, Bool.not_true]
              exact ih r.tail [] h
            | cons top below =>
              have hlen : (bufOf (top :: below)).length > 1 := by
                have hne : (bufOf (top :: below)).length ≠ 1 := by
                  intro hl
                  have := (bufOf_length (top :: below) h).1 hl
                  cases this
                have hpos : 0 < (bufOf (top :: below)).length := by
                  simp [bufOf, bodyOf]
                omega
              simp only [hlen, if_true]
              rw [bufOf_pop top below (h top (List.mem_cons_self top below))]
              exact ih r.tail below (fun x hx => h x (List.mem_cons_of_mem top hx))
          · simp only [h3, if_false]
            rw [bufOf_push stack _ h]
            refine ih _ _ ?_
            intro x hx
            rcases List.mem_cons.1 hx with rfl | hx
            · exact takeWhile_good c r h1 h2 h3
            · exact h x hx

/-- The iteration budget of `cleanLoop` is immaterial once it covers the unread
input: every iteration consumes at least one byte. -/
theorem cleanLoop_fuel (rooted : Bool) (fuel1 : Nat) :
    ∀ (fuel2 : Nat) (rest out : List Char) (dotdot : Nat),
      rest.length ≤ fuel1 → rest.length ≤ fuel2 →
      cleanLoop rooted fuel1 rest out dotdot = cleanLoop rooted fuel2 rest out dotdot := by
  induction fuel1 with
  | zero =>
    intro fuel2 rest out dotdot h1 _
    have : rest = [] := List.length_eq_zero.1 (Nat.le_zero.1 h1)
    subst this
    cases fuel2 <;> simp [cleanLoop]
  | succ fuel1 ih =>
    intro fuel2 rest out dotdot h1 h2
    cases rest with
    | nil => cases fuel2 <;> simp [cleanLoop]
    | cons c r =>
      cases fuel2 with
      | zero => simp at h2
      | succ fuel2 =>
        have hr1 : r.length ≤ fuel1 := by simpa using h1
        have hr2 : r.length ≤ fuel2 := by simpa using h2
        have ht1 : r.tail.length ≤ fuel1 := by simp; omega
        have ht2 : r.tail.length ≤ fuel2 := by simp; omega
        have hd : ((c :: r).dropWhile (fun x => x != '/')).length ≤ r.length ∨ c = '/' := by
          by_cases hc : c = '/'
          · exact Or.inr hc
          · left
            have : (c != '/') = true := by simpa using hc
            have hdw : (c :: r).dropWhile (fun x => x != '/') = r.dropWhile (fun x => x != '/') := by
              simp [List.dropWhile_cons, hc]
            rw [hdw]
            exact (List.dropWhile_sublist _).length_le
        rw [cleanLoop, cleanLoop]
        by_cases h1c : c = '/'
        · simp only [h1c, if_true]
          exact ih fuel2 r out dotdot hr1 hr2
        · simp only [h1c, if_false]
          have hdl := hd.resolve_right h1c
          rw [ih fuel2 r out dotdot hr1 hr2, ih fuel2 r.tail _ dotdot ht1 ht2,
            ih fuel2 r.tail out dotdot ht1 ht2, ih fuel2 r.tail _ _ ht1 ht2,
            ih fuel2 _ _ dotdot (le_trans hdl hr1) (le_trans hdl hr2)]

theorem slashed_append (a b : List (List Char)) : slashed (a ++ b) = slashed a ++ slashed b := by
  induction a with
  | nil => simp [slashed]
  | cons c cs ih => simp [slashed, ih]

theorem bodyOf_reverse (stack : List (List Char)) :
    (bodyOf stack).reverse = slashed stack.reverse := by
  induction stack with
  | nil => simp [bodyOf, slashed]
  | cons c below ih => simp [bodyOf, slashed, slashed_append, ih]

theorem slashed_intercalate (c : List Char) (cs : List (List Char)) :
    List.intercalate ['/'] (c :: cs) = c ++ slashed cs := by
  induction cs generalizing c with
  | nil => simp [List.intercalate, slashed]
  | cons d ds ih =>
    have h := ih d
    simp only [List.intercalate, List.intersperse_cons_cons, List.flatten_cons] at h ⊢
    rw [h]
    simp [slashed]

theorem bufOf_reverse (stack : List (List Char)) :
    (bufOf stack).reverse = '/' :: List.intercalate ['/'] stack.reverse := by
  cases h : stack.reverse with
  | nil =>
    have : stack = [] := by simpa using h
    subst this
    simp [bufOf, List.intercalate]
  | cons c cs =>
    cases stack with
    | nil => simp at h
    | cons x xs =>
      rw [slashed_intercalate, bufOf, bodyOf_reverse, h]
      simp [slashed]

theorem fieldsFuncFrom_component (f : Char → Bool) (c rest cur : List Char)
    (hc : ∀ x ∈ c, f x = false) :
    fieldsFuncFrom f (c ++ rest) cur = fieldsFuncFrom f rest (c.reverse ++ cur) := by
  induction c generalizing cur with
  | nil => simp
  | cons x xs ih =>
    have hx : f x = false := hc x (List.mem_cons_self x xs)
    rw [List.cons_append, fieldsFuncFrom]
    simp only [hx, Bool.false_eq_true, if_false]
    rw [ih (x :: cur) (fun y hy => hc y (List.mem_cons_of_mem x hy))]
    simp

theorem fieldsFuncFrom_slashed_cur (cs : List (List Char)) (cur : List Char) (hcur : cur ≠ []) :
    fieldsFuncFrom (fun c => c == '/') (slashed cs) cur
      = cur.reverse :: fieldsFuncFrom (fun c => c == '/') (slashed cs) [] := by
  cases cs with
  | nil => simp [slashed, fieldsFuncFrom, hcur]
  | cons c cs => simp [slashed, fieldsFuncFrom, hcur]

/-- Splitting at the separators recovers the components of a path written as
one separator before every component. -/
theorem fieldsFuncFrom_slashed (cs : List (List Char)) (h : ∀ c ∈ cs, goodComp c) :
    fieldsFuncFrom (fun c => c == '/') (slashed cs) [] = cs := by
  induction cs with
  | nil => simp [slashed, fieldsFuncFrom]
  | cons c cs ih =>
    have hc := h c (List.mem_cons_self c cs)
    have hsep : ∀ x ∈ c, (fun c => c == '/') x = false := by
      intro x hx
      simpa using hc.2.1 x hx
    have hne : c.reverse ++ [] ≠ [] := by simpa using hc.1
    have hstep : fieldsFuncFrom (fun c => c == '/') ('/' :: c ++ slashed cs) []
        = fieldsFuncFrom (fun c => c == '/') (c ++ slashed cs) [] := by
      simp [fieldsFuncFrom]
    rw [slashed, hstep, fieldsFuncFrom_component _ c _ [] hsep,
      fieldsFuncFrom_slashed_cur cs _ hne, ih (fun x hx => h x (List.mem_cons_of_mem c hx))]
    simp

/-- The shape of `filepath.Clean` on a rooted path: a separator before each of
finitely many good components, or the root alone. -/
theorem clean_rooted (r : List Char) :
    ∃ comps : List (List Char), (∀ c ∈ comps, goodComp c) ∧
      clean ('/' :: r) = '/' :: List.intercalate ['/'] comps ∧
      fieldsFunc (clean ('/' :: r)) (fun c => c == '/') = comps := by
  obtain ⟨stack, hgood, hloop⟩ := cleanLoop_rooted (r.length + 1) r [] (by simp)
  have hgood1 : ∀ c ∈ stack.reverse, goodComp c := fun c hc => hgood c (by simpa using hc)
  have hclean : clean ('/' :: r) = (bufOf stack).reverse := by
    have hb : bufOf ([] : List (List Char)) = ['/'] := rfl
    rw [hb] at hloop
    have hlen : (bufOf stack).length ≠ 0 := by
      cases stack <;> simp [bufOf, bodyOf]
    simp [clean, hloop, hlen]
  refine ⟨stack.reverse, hgood1, ?_, ?_⟩
  · rw [hclean, bufOf_reverse]
  · rw [hclean, fieldsFunc]
    cases stack with
    | nil => simp [bufOf, fieldsFuncFrom]
    | cons x xs =>
      rw [bufOf, bodyOf_reverse]
      exact fieldsFuncFrom_slashed _ hgood1

/-- Claim C18: for every absolute path `name` the segments that `secureMkdirAll`
derives (`filepath.Clean`, then a split at `/`) are non-empty, contain no `/`
and are neither `.` nor `..`; written one after the other, each after a `/`,
they spell the cleaned path, so that they come in root-to-leaf order; the path
`/` has no segment, and repeated separators or `.` and `..` elements leave no
empty segment behind. -/
theorem segmentsOf_decomposition (name : String) (habs : isAbs name = true) :
    (∀ s ∈ segmentsOf name, s ≠ "" ∧ '/' ∉ s.data ∧ s ≠ "." ∧ s ≠ "..") ∧
    clean name.data = '/' :: List.intercalate ['/'] ((segmentsOf name).map String.data) ∧
    segmentsOf "/" = [] ∧
    segmentsOf "//a///b/" = ["a", "b"] ∧
    segmentsOf "/a/./b/../c" = ["a", "c"] := by
  obtain ⟨data⟩ := name
  cases data with
  | nil => simp [isAbs] at habs
  | cons c r =>
    have hc : c = '/' := by simpa [isAbs] using habs
    subst hc
    obtain ⟨comps, hgood, hclean, hfields⟩ := clean_rooted r
    have hsegs : segmentsOf ⟨'/' :: r⟩ = comps.map String.mk := by
      simp only [segmentsOf, hfields]
    have hdata : (comps.map String.mk).map String.data = comps := by
      simp [List.map_map, Function.comp_def]
    refine ⟨?_, ?_, by decide, by decide, by decide⟩
    · intro s hs
      rw [hsegs] at hs
      obtain ⟨comp, hcomp, rfl⟩ := List.mem_map.1 hs
      obtain ⟨hne, hslash, hdot, hdotdot⟩ := hgood comp hcomp
      refine ⟨?_, ?_, ?_, ?_⟩
      · intro h
        exact hne (congrArg String.data h)
      · intro h
        exact hslash '/' h rfl
      · intro h
        exact hdot (congrArg String.data h)
      · intro h
        exact hdotdot (congrArg String.data h)
    · rw [hsegs, hdata]
      exact hclean

theorem segmentsOf_decomposition_witness :
    isAbs "/var//lib/./snapd/../x" = true ∧
    ((∀ s ∈ segmentsOf "/var//lib/./snapd/../x", s ≠ "" ∧ '/' ∉ s.data ∧ s ≠ "." ∧ s ≠ "..") ∧
    clean "/var//lib/./snapd/../x".data
      = '/' :: List.intercalate ['/'] ((segmentsOf "/var//lib/./snapd/../x").map String.data) ∧
    segmentsOf "/" = [] ∧
    segmentsOf "//a///b/" = ["a", "b"] ∧
    segmentsOf "/a/./b/../c" = ["a", "c"]) :=
  ⟨by decide, segmentsOf_decomposition "/var//lib/./snapd/../x" (by decide)⟩

/-! ## The record of a run in which every call succeeds -/

theorem runMon_done (segs : List String) (perm : Nat) (uid gid : Int) (r : Option Error)
    (t : St) (T : List Call) (h : runMon segs perm uid gid (St.done r) T = some t) :
    T = [] ∧ t = St.done r := by
  cases T with
  | nil => simpa [runMon, eq_comm] using h
  | cons c cs => simp [runMon, step] at h

theorem runMon_unwind_inv (segs : List String) (perm : Nat) (uid gid : Int) (k : After)
    (r : Option Error) (ds : List Int) :
    ∀ T, runMon segs perm uid gid (unwindTo segs ds k) T = some (St.done r) →
      ∃ T1, T = ds.map Call.sysClose ++ T1 ∧
        runMon segs perm uid gid (unwindTo segs [] k) T1 = some (St.done r) := by
  induction ds with
  | nil => intro T h; exact ⟨T, by simp, h⟩
  | cons d ds ih =>
    intro T h
    cases T with
    | nil => simp [runMon, unwindTo] at h
    | cons c cs =>
      simp only [unwindTo, runMon] at h
      cases c with
      | sysClose d1 =>
        by_cases hd : d1 = d
        · subst hd
          simp only [step, if_true] at h
          obtain ⟨T1, hT1, hrun⟩ := ih cs h
          exact ⟨T1, by simp [hT1], hrun⟩
        · simp [step, hd] at h
      | _ => simp [step] at h

theorem runMon_segment_inv (segs : List String) (perm : Nat) (uid gid : Int) (i : Nat)
    (fd : Int) (ds : List Int) (r : Option Error) (T : List Call)
    (hok : ∀ c ∈ T, c.succeeded = true)
    (h : runMon segs perm uid gid (St.mk i fd ds) T = some (St.done r)) :
    ∃ s g T1, segs[i]? = some s ∧
      T = [Call.sysMkdirat fd s perm none, Call.sysOpenat fd s openFlags 0 (FdResult.ok g),
        Call.sysFchown g uid gid none] ++ T1 ∧
      runMon segs perm uid gid (afterSegment segs i ds g) T1 = some (St.done r) := by
  cases T with
  | nil => simp [runMon] at h
  | cons c1 T =>
    have hok1 := hok c1 (List.mem_cons_self _ _)
    have hokT : ∀ c ∈ T, c.succeeded = true := fun c hc => hok c (List.mem_cons_of_mem _ hc)
    simp only [runMon] at h
    cases c1 with
    | sysMkdirat fd1 s m res =>
      by_cases hc : fd1 = fd ∧ segs[i]? = some s ∧ m = perm
      · obtain ⟨rfl, hs, rfl⟩ := hc
        cases res with
        | some e => simp [Call.succeeded] at hok1
        | none =>
          simp only [step, hs, and_self, if_true] at h
          cases T with
          | nil => simp [runMon] at h
          | cons c2 T =>
            have hok2 := hokT c2 (List.mem_cons_self _ _)
            have hokT2 : ∀ c ∈ T, c.succeeded = true :=
              fun c hc => hokT c (List.mem_cons_of_mem _ hc)
            simp only [runMon] at h
            cases c2 with
            | sysOpenat fd2 s2 fl m2 res2 =>
              by_cases hc2 : fd2 = fd1 ∧ segs[i]? = some s2 ∧ fl = openFlags ∧ m2 = 0
              · obtain ⟨rfl, hs2, rfl, rfl⟩ := hc2
                have hss : s2 = s := by
                  rw [hs] at hs2
                  exact (Option.some.inj hs2).symm
                subst hss
                cases res2 with
                | err e => simp [Call.succeeded] at hok2
                | ok g =>
                  simp only [step, hs, and_self, if_true] at h
                  cases T with
                  | nil => simp [runMon] at h
                  | cons c3 T =>
                    have hok3 := hokT2 c3 (List.mem_cons_self _ _)
                    simp only [runMon] at h
                    cases c3 with
                    | sysFchown g1 u1 g2 res3 =>
                      by_cases hc3 : g1 = g ∧ u1 = uid ∧ g2 = gid
                      · obtain ⟨rfl, rfl, rfl⟩ := hc3
                        cases res3 with
                        | some e => simp [Call.succeeded] at hok3
                        | none =>
                          simp only [step, and_self, if_true] at h
                          exact ⟨s2, g1, T, hs, by simp, h⟩
                      · simp [step, hc3] at h
                    | _ => simp [step] at h
              · simp [step, hc2] at h
            | _ => simp [step] at h
      · simp [step, hc] at h
    | _ => simp [step] at h

theorem runMon_start_inv (segs : List String) (perm : Nat) (uid gid : Int)
    (r : Option Error) (T : List Call) (hok : ∀ c ∈ T, c.succeeded = true)
    (h : runMon segs perm uid gid St.start T = some (St.done r)) :
    ∃ fd T1, T = Call.sysOpen "/" openFlags 0 (FdResult.ok fd) :: T1 ∧
      runMon segs perm uid gid
        (if segs.length = 0 then St.unwind fd [] (After.finish none) else St.mk 0 fd [fd]) T1
        = some (St.done r) := by
  cases T with
  | nil => simp [runMon] at h
  | cons c T =>
    have hok1 := hok c (List.mem_cons_self _ _)
    simp only [runMon] at h
    cases c with
    | sysOpen p fl m res =>
      by_cases hc : p = "/" ∧ fl = openFlags ∧ m = 0
      · obtain ⟨rfl, rfl, rfl⟩ := hc
        cases res with
        | err e => simp [Call.succeeded] at hok1
        | ok fd =>
          simp only [step, and_self, if_true] at h
          exact ⟨fd, T, rfl, h⟩
      · simp [step, hc] at h
    | _ => simp [step] at h

theorem segmentRun_congr (segs : List String) (perm : Nat) (uid gid : Int) (f g : Nat → Int)
    (k : Nat) (h : ∀ j, j ≤ k → f j = g j) :
    segmentRun segs perm uid gid f k = segmentRun segs perm uid gid g k := by
  induction k with
  | zero => rfl
  | succ k ih =>
    simp only [segmentRun, segmentCalls]
    rw [ih (fun j hj => h j (by omega)), h k (by omega), h (k + 1) (by omega)]

theorem handleStack_congr (f g : Nat → Int) (k : Nat) (h : ∀ j, j < k → f j = g j) :
    handleStack f k = handleStack g k := by
  induction k with
  | zero => rfl
  | succ k ih =>
    simp only [handleStack]
    rw [ih (fun j hj => h j (by omega)), h k (by omega)]

/-- The calls up to the `sysMkdirat` of segment `i` in an all-new run, for a
segment `i` that is not the last one. -/
theorem allNew_prefix (segs : List String) (perm : Nat) (uid gid : Int) (r : Option Error)
    (T : List Call) (hok : ∀ c ∈ T, c.succeeded = true)
    (hrun : runMon segs perm uid gid St.start T = some (St.done r))
    (hn : segs.length ≠ 0) (i : Nat) :
    (i = 0 ∨ i + 2 ≤ segs.length) →
    ∃ (f : Nat → Int) (T1 : List Call),
      T = Call.sysOpen "/" openFlags 0 (FdResult.ok (f 0)) ::
        (segmentRun segs perm uid gid f i ++ T1) ∧
      runMon segs perm uid gid (St.mk i (f i) (handleStack f (i + 1))) T1 = some (St.done r) := by
  induction i with
  | zero =>
    intro _
    obtain ⟨fd, T1, hT, h1⟩ := runMon_start_inv segs perm uid gid r T hok hrun
    simp only [hn, if_false] at h1
    exact ⟨fun _ => fd, T1, by simpa [segmentRun] using hT, by simpa [handleStack] using h1⟩
  | succ i ih =>
    intro hi
    have hi2 : i + 3 ≤ segs.length := by omega
    obtain ⟨f, T1, hT, h1⟩ := ih (Or.inr (by omega))
    have hok1 : ∀ c ∈ T1, c.succeeded = true := by
      intro c hc
      exact hok c (by rw [hT]; simp [hc])
    obtain ⟨s, g, T2, hs, hT2, h2⟩ :=
      runMon_segment_inv segs perm uid gid i (f i) _ r T1 hok1 h1
    have ha : afterSegment segs i (handleStack f (i + 1)) g
        = St.mk (i + 1) g (g :: handleStack f (i + 1)) := by
      have e1 : ¬ (i + 1 = segs.length) := by omega
      have e2 : i + 2 < segs.length := by omega
      simp only [afterSegment, e1, e2, if_true, if_false]
    rw [ha] at h2
    have hsd : segs.getD i "" = s := by simp [List.getD_eq_getElem?_getD, hs]
    refine ⟨Function.update f (i + 1) g, T2, ?_, ?_⟩
    · have hc := segmentRun_congr segs perm uid gid (Function.update f (i + 1) g) f i
        (fun j hj => Function.update_noteq (by omega) g f)
      have h0 : Function.update f (i + 1) g 0 = f 0 := Function.update_noteq (by omega) g f
      have hi0 : Function.update f (i + 1) g i = f i := Function.update_noteq (by omega) g f
      rw [hT, hT2, h0]
      simp only [segmentRun, segmentCalls, hc, hi0, Function.update_same, hsd]
      simp
    · have hc := handleStack_congr (Function.update f (i + 1) g) f (i + 1)
        (fun j hj => Function.update_noteq (by omega) g f)
      have hst : handleStack (Function.update f (i + 1) g) (i + 1 + 1)
          = g :: handleStack f (i + 1) := by
        rw [handleStack, hc, Function.update_same]
      rw [hst]
      simpa using h2

/-- The calls of the last segment in an all-new run, and the two closes after it. -/
theorem allNew_last (segs : List String) (perm : Nat) (uid gid : Int) (r : Option Error)
    (m : Nat) (hm : m + 1 = segs.length) (f : Nat → Int) (T : List Call)
    (hok : ∀ c ∈ T, c.succeeded = true)
    (hrun : runMon segs perm uid gid (St.mk m (f m) [f m]) T = some (St.done r)) :
    ∃ g, T = segmentCalls segs perm uid gid (Function.update f (m + 1) g) m ++
        [Call.sysClose g, Call.sysClose (f m)] ∧ r = none := by
  obtain ⟨s, g, T1, hs, hT1, h1⟩ := runMon_segment_inv segs perm uid gid m (f m) _ r T hok hrun
  have ha : afterSegment segs m [f m] g = unwindTo segs [g, f m] (After.finish none) := by
    simp only [afterSegment, hm, if_true]
  rw [ha] at h1
  obtain ⟨T2, hT2, h2⟩ := runMon_unwind_inv segs perm uid gid _ r _ T1 h1
  obtain ⟨hnil, hr⟩ := runMon_done segs perm uid gid none _ T2 (by simpa [unwindTo] using h2)
  have hsd : segs.getD m "" = s := by simp [List.getD_eq_getElem?_getD, hs]
  have hfm : Function.update f (m + 1) g m = f m := Function.update_noteq (by omega) g f
  refine ⟨g, ?_, ?_⟩
  · rw [hT1, hT2, hnil]
    simp only [segmentCalls, hfm, hsd, Function.update_same]
    simp
  · cases hr; rfl

/-- A run the automaton accepts in which every call succeeded is the all-new
record over the handles it was given, and ends without an error. -/
theorem allNew_run (segs : List String) (perm : Nat) (uid gid : Int) (r : Option Error)
    (T : List Call) (hok : ∀ c ∈ T, c.succeeded = true)
    (hrun : runMon segs perm uid gid St.start T = some (St.done r)) :
    ∃ f : Nat → Int, T = allNewTrace segs perm uid gid f ∧ r = none := by
  by_cases hn : segs.length = 0
  · obtain ⟨fd, T1, hT, h1⟩ := runMon_start_inv segs perm uid gid r T hok hrun
    simp only [hn, if_true] at h1
    have h1a : runMon segs perm uid gid (unwindTo segs [fd] (After.finish none)) T1
        = some (St.done r) := by simpa [unwindTo] using h1
    obtain ⟨T2, hT2, h2⟩ := runMon_unwind_inv segs perm uid gid _ r _ T1 h1a
    obtain ⟨hnil, hr⟩ := runMon_done segs perm uid gid none _ T2 (by simpa [unwindTo] using h2)
    refine ⟨fun _ => fd, ?_, ?_⟩
    · simp [allNewTrace, hn, hT, hT2, hnil]
    · cases hr; rfl
  · -- the state before the last segment
    have hq : ∃ (f : Nat → Int) (T1 : List Call),
        T = Call.sysOpen "/" openFlags 0 (FdResult.ok (f 0)) ::
          (segmentRun segs perm uid gid f (segs.length - 1) ++ closeRun f (segs.length - 1)
            ++ T1) ∧
        runMon segs perm uid gid (St.mk (segs.length - 1) (f (segs.length - 1))
          [f (segs.length - 1)]) T1 = some (St.done r) := by
      by_cases h1 : segs.length = 1
      · obtain ⟨f, T1, hT, hr1⟩ := allNew_prefix segs perm uid gid r T hok hrun hn 0 (Or.inl rfl)
        refine ⟨f, T1, ?_, ?_⟩
        · simpa [h1, segmentRun, closeRun, handleStack] using hT
        · simpa [h1, handleStack] using hr1
      · obtain ⟨k, hk⟩ : ∃ k, segs.length = k + 2 := ⟨segs.length - 2, by omega⟩
        obtain ⟨f, T1, hT, hr1⟩ :=
          allNew_prefix segs perm uid gid r T hok hrun hn k (Or.inr (by omega))
        have hok1 : ∀ c ∈ T1, c.succeeded = true := by
          intro c hc
          exact hok c (by rw [hT]; simp [hc])
        obtain ⟨s, g, T2, hs, hT2, h2⟩ :=
          runMon_segment_inv segs perm uid gid k (f k) _ r T1 hok1 hr1
        have ha : afterSegment segs k (handleStack f (k + 1)) g
            = unwindTo segs (handleStack f (k + 1)) (After.final g) := by
          have e1 : ¬ (k + 1 = segs.length) := by omega
          have e2 : ¬ (k + 2 < segs.length) := by omega
          simp only [afterSegment, e1, e2, if_false]
        rw [ha] at h2
        obtain ⟨T3, hT3, h3⟩ := runMon_unwind_inv segs perm uid gid _ r _ T2 h2
        have hsd : segs.getD k "" = s := by simp [List.getD_eq_getElem?_getD, hs]
        have hlen : segs.length - 1 = k + 1 := by omega
        have hc := segmentRun_congr segs perm uid gid (Function.update f (k + 1) g) f k
          (fun j hj => Function.update_noteq (by omega) g f)
        have hst := handleStack_congr (Function.update f (k + 1) g) f (k + 1)
          (fun j hj => Function.update_noteq (by omega) g f)
        have h0 : Function.update f (k + 1) g 0 = f 0 := Function.update_noteq (by omega) g f
        have hk0 : Function.update f (k + 1) g k = f k := Function.update_noteq (by omega) g f
        refine ⟨Function.update f (k + 1) g, T3, ?_, ?_⟩
        · rw [hT, hT2, hT3, hlen, h0]
          simp only [segmentRun, segmentCalls, closeRun, hc, hst, hk0, Function.update_same, hsd]
          simp
        · rw [hlen, Function.update_same]
          simpa [unwindTo, hlen] using h3
    obtain ⟨f, T1, hT, hr1⟩ := hq
    have hok1 : ∀ c ∈ T1, c.succeeded = true := by
      intro c hc
      exact hok c (by rw [hT]; simp [hc])
    have hm : segs.length - 1 + 1 = segs.length := by omega
    obtain ⟨g, hT1, hr⟩ :=
      allNew_last segs perm uid gid r (segs.length - 1) hm f T1 hok1 hr1
    have hc := segmentRun_congr segs perm uid gid (Function.update f (segs.length - 1 + 1) g) f
      (segs.length - 1) (fun j hj => Function.update_noteq (by omega) g f)
    have hst := handleStack_congr (Function.update f (segs.length - 1 + 1) g) f
      (segs.length - 1) (fun j hj => Function.update_noteq (by omega) g f)
    have h0 : Function.update f (segs.length - 1 + 1) g 0 = f 0 :=
      Function.update_noteq (by omega) g f
    have hl : Function.update f (segs.length - 1 + 1) g (segs.length - 1) = f (segs.length - 1) :=
      Function.update_noteq (by omega) g f
    have hn1 : Function.update f (segs.length - 1 + 1) g segs.length = g := by
      rw [hm]
      exact Function.update_same _ _ _
    refine ⟨Function.update f (segs.length - 1 + 1) g, ?_, hr⟩
    rw [hT, hT1]
    simp only [allNewTrace, hn, if_false, closeRun, hc, hst, h0, hl, hn1]
    simp

/-- Claim C19: for every absolute path with segments `s 0 .. s (n - 1)`, if every
call that `secureMkdirAll` issues succeeds, then there are handles `f 0`, `f 1`,
... such that the calls issued are exactly: `open("/")` returning `f 0`; for
`i = 0 .. n - 2` in order `mkdirat(f i, s i, perm)`, `openat(f i, s i)` returning
`f (i + 1)`, `fchown(f (i + 1), uid, gid)`; then `close(f (n - 2))`, ...,
`close(f 0)`; then `mkdirat`, `openat` (returning `f n`) and `fchown` for the
segment `n - 1`, `close(f n)`, `close(f (n - 1))`.  For the path without a
segment they are `open("/")`, `close(f 0)`.  The call returns no error. -/
theorem secureMkdirAll_all_new_trace (sys : Sys σ) (w : World σ) (name : String) (perm : Nat)
    (uid gid : Int) (habs : isAbs name = true)
    (hok : ∀ c ∈ callsOf sys w name perm uid gid, c.succeeded = true) :
    ∃ f : Nat → Int,
      callsOf sys w name perm uid gid = allNewTrace (segmentsOf name) perm uid gid f ∧
      (segmentsOf name = [] → callsOf sys w name perm uid gid
        = [Call.sysOpen "/" openFlags 0 (FdResult.ok (f 0)), Call.sysClose (f 0)]) ∧
      (secureMkdirAll sys w name perm uid gid).1.trace
        = w.trace ++ allNewTrace (segmentsOf name) perm uid gid f ∧
      (secureMkdirAll sys w name perm uid gid).2 = none := by
  obtain ⟨f, hT, hr⟩ := allNew_run (segmentsOf name) perm uid gid _ _ hok
    (callsOf_protocol sys w name perm uid gid habs)
  refine ⟨f, hT, ?_, ?_, hr⟩
  · intro hnil
    rw [hT, hnil]
    simp [allNewTrace]
  · rw [trace_eq_append_callsOf, hT]

theorem secureMkdirAll_all_new_trace_witness :
    isAbs "/a/b/c" = true ∧
    (∀ c ∈ callsOf scriptSys ⟨[3, 0, 4, 0, 0, 5, 0, 0, 6, 0], []⟩ "/a/b/c" 493 1000 1000,
      c.succeeded = true) ∧
    ∃ f : Nat → Int,
      callsOf scriptSys ⟨[3, 0, 4, 0, 0, 5, 0, 0, 6, 0], []⟩ "/a/b/c" 493 1000 1000
        = allNewTrace (segmentsOf "/a/b/c") 493 1000 1000 f ∧
      (segmentsOf "/a/b/c" = [] →
        callsOf scriptSys ⟨[3, 0, 4, 0, 0, 5, 0, 0, 6, 0], []⟩ "/a/b/c" 493 1000 1000
          = [Call.sysOpen "/" openFlags 0 (FdResult.ok (f 0)), Call.sysClose (f 0)]) ∧
      (secureMkdirAll scriptSys ⟨[3, 0, 4, 0, 0, 5, 0, 0, 6, 0], []⟩ "/a/b/c" 493 1000 1000).1.trace
        = [] ++ allNewTrace (segmentsOf "/a/b/c") 493 1000 1000 f ∧
      (secureMkdirAll scriptSys ⟨[3, 0, 4, 0, 0, 5, 0, 0, 6, 0], []⟩ "/a/b/c" 493 1000 1000).2
        = none :=
  ⟨by decide, by decide,
    secureMkdirAll_all_new_trace scriptSys ⟨[3, 0, 4, 0, 0, 5, 0, 0, 6, 0], []⟩ "/a/b/c" 493
      1000 1000 (by decide) (by decide)⟩

/-- The record of the all-new run over `/a/b/c`, call by call. -/
theorem all_new_trace_example :
    callsOf scriptSys ⟨[3, 0, 4, 0, 0, 5, 0, 0, 6, 0], []⟩ "/a/b/c" 493 1000 1000 =
      [Call.sysOpen "/" openFlags 0 (FdResult.ok 3),
       Call.sysMkdirat 3 "a" 493 none,
       Call.sysOpenat 3 "a" openFlags 0 (FdResult.ok 4),
       Call.sysFchown 4 1000 1000 none,
       Call.sysMkdirat 4 "b" 493 none,
       Call.sysOpenat 4 "b" openFlags 0 (FdResult.ok 5),
       Call.sysFchown 5 1000 1000 none,
       Call.sysClose 4,
       Call.sysClose 3,
       Call.sysMkdirat 5 "c" 493 none,
       Call.sysOpenat 5 "c" openFlags 0 (FdResult.ok 6),
       Call.sysFchown 6 1000 1000 none,
       Call.sysClose 6,
       Call.sysClose 5] ∧
    allNewTrace ["a", "b", "c"] 493 1000 1000 (fun i => 3 + i) =
      callsOf scriptSys ⟨[3, 0, 4, 0, 0, 5, 0, 0, 6, 0], []⟩ "/a/b/c" 493 1000 1000 := by
  decide

end SnapUpdateNs
